import Mathlib

/-! Error pages, the `build` command.

A shallow embedding of `internal/cli/build/command.go` (package `build`) and of the
parts of its environment that the command drives: the Go packages `path`, `os`,
`sort` and `text/template`, and the repository package `internal/tpl`.

* Go `string` values are Lean `String`s; `[]byte` values are lists of numbers.
* A Go `error` result is an `Option Error` (`none` is `nil`).
* The file system is an explicit state `FS`, threaded through every operation, with
  the working directory of the process as a parameter. A path is resolved as the
  kernel resolves it, component by component as it is given; only package `path`
  cleans paths.
* The two Go maps that `RunE` ranges over (`templates`, `cfg.Pages`) are given as the
  list of their entries in the order in which the `range` statement enumerates them.
-/

namespace Build

/-! ## Values -/

/-- Content of a file, a Go `[]byte`. -/
abbrev Bytes := List Nat

/-- Error numbers of the operating system that the model produces. -/
inductive Errno where
  | ENOENT
  | ENOTDIR
  | EISDIR
  | EEXIST
  deriving DecidableEq, Repr

/-- Go `error` values that occur in a run of the command. -/
inductive Error where
  /-- Result of `errors.New(msg)`. -/
  | new (msg : String)
  /-- Result of `errors.Wrap(cause, msg)`. -/
  | wrap (cause : Error) (msg : String)
  /-- Path error returned by package `os`. -/
  | os (errno : Errno)
  /-- Result of `IteratePages` on a registry without templates (`NoTemplatesError`). -/
  | noTemplates
  /-- Failure to render one page (`RenderError` with template, code and cause). -/
  | render (template code cause : String)
  /-- Failure of `AddTemplate` on a text that is not a template (`TemplateParseError`). -/
  | templateParse (name : String)
  /-- Failure of `text/template` while executing the index template. -/
  | template (cause : String)
  deriving DecidableEq, Repr

/-! ## Package `path` -/

/-- Splits a string at every slash; a string without slash is one element. -/
def splitSlash : List Char → List (List Char)
  | [] => [[]]
  | c :: cs =>
    if c = '/' then [] :: splitSlash cs
    else
      match splitSlash cs with
      | [] => [[c]]
      | s :: ss => (c :: s) :: ss

/-- The path name elements of a path, in order, empty ones included. -/
def elements (p : String) : List String :=
  (splitSlash p.data).map String.mk

/-- Whether a path begins with a slash. -/
def isRooted (p : String) : Bool :=
  p.data.head? = some '/'

/-- One element processed by `path.Clean`. The elements kept so far are held as a
stack, last kept element first. Empty elements and `.` are dropped; `..` removes the
element before it when that is not itself `..`, is dropped at the root of a rooted
path and is kept at the start of a path that is not rooted. -/
def cleanStep (rooted : Bool) (stack : List String) (seg : String) : List String :=
  if seg = "" ∨ seg = "." then stack
  else if seg = ".." then
    match stack with
    | [] => if rooted then [] else [".."]
    | top :: rest => if top = ".." then ".." :: top :: rest else rest
  else seg :: stack

/-- The elements that `path.Clean` keeps, in order. -/
def cleanElems (p : String) : List String :=
  ((elements p).foldl (cleanStep (isRooted p)) []).reverse

/-- Joins elements with single slashes. -/
def joinSlash : List String → String
  | [] => ""
  | [s] => s
  | s :: t :: rest => s ++ "/" ++ joinSlash (t :: rest)

/-- Go `path.Clean`: the shortest path name equivalent to `p` by purely lexical
processing, by the rules of the package: multiple slashes become one, `.` elements are
eliminated, an inner `..` is eliminated with the element before it, `..` elements that
begin a rooted path are eliminated, and the empty result is `.`. -/
def Clean (p : String) : String :=
  if p = "" then "."
  else if isRooted p then "/" ++ joinSlash (cleanElems p)
  else if cleanElems p = [] then "."
  else joinSlash (cleanElems p)

/-- The buffer that `path.Join` builds before cleaning: an element is appended,
after a slash when the buffer is not empty, unless the buffer and the element are
both empty. -/
def joinBuf (buf : String) : List String → String
  | [] => buf
  | e :: rest =>
    if buf ≠ "" ∨ e ≠ "" then
      joinBuf ((if buf ≠ "" then buf ++ "/" else buf) ++ e) rest
    else joinBuf buf rest

/-- A path name element that names an entry of a directory: not empty, without
slash, and neither `.` nor `..`. -/
def Plain (t : String) : Prop :=
  t ≠ "" ∧ '/' ∉ t.data ∧ t ≠ "." ∧ t ≠ ".."

instance (t : String) : Decidable (Plain t) := by
  unfold Plain
  infer_instance

/-- Go `path.Join`. -/
def Join (elem : List String) : String :=
  if (elem.map String.length).sum = 0 then ""
  else Clean (joinBuf "" elem)

/-! ## Package `os` -/

/-- What a path names in the file system. -/
inductive Node where
  | file (content : Bytes)
  | dir
  deriving DecidableEq, Repr

/-- A location in the file system: the names of the directory entries that lead to it
from the root directory. The empty key is the root directory. -/
abbrev Key := List String

/-- The file system: what each location holds, if anything. The model has no
symbolic links and no permissions or quotas, so an operation fails only for the shape
of the tree and of the path. The working directory of the process, which the command
never changes, is an argument `wd` of every operation. -/
abbrev FS := Key → Option Node

/-- A file system is a tree: everything above a location that holds something is a
directory. -/
def WellFormed (fs : FS) : Prop :=
  ∀ k q, fs k ≠ none → q <+: k → q ≠ k → fs q = some Node.dir

/-- The file system with one location replaced. -/
def FS.set (fs : FS) (k : Key) (n : Node) : FS :=
  fun q => if q = k then some n else fs q

/-- Whether a location holds a regular file. -/
def isFile : Option Node → Bool
  | some (Node.file _) => true
  | _ => false

/-- The components of a path that the kernel looks up, in order: its elements
without the empty ones, since it takes several slashes for one. -/
def components (p : String) : List String :=
  (elements p).filter fun s => s ≠ ""

/-- Whether a path ends with a slash. -/
def endsWithSlash (p : String) : Bool :=
  p.data.getLast? = some '/'

/-- The location that one component leads to from a directory: the directory itself
for `.`, its parent for `..` (the root is its own parent), and its entry of that name
for any other component. -/
def follow (cur : Key) (c : String) : Key :=
  if c = "." then cur
  else if c = ".." then cur.dropLast
  else cur ++ [c]

/-- Where the resolution of a path starts: at the root for a path that begins with a
slash, at the working directory for any other. -/
def start (wd : Key) (p : String) : Key :=
  if isRooted p then [] else wd

/-- The location that a path names. -/
def key (wd : Key) (p : String) : Key :=
  (components p).foldl follow (start wd p)

/-- Resolution of components by the kernel, one after the other: each component,
`.` and `..` included, is looked up in the location reached so far, which has to be
a directory. The result is the location that the last component leads to, which need
not exist. -/
def lookup (fs : FS) : Key → List String → Except Errno Key
  | cur, [] => Except.ok cur
  | cur, c :: rest =>
    match fs cur with
    | some Node.dir => lookup fs (follow cur c) rest
    | some (Node.file _) => Except.error Errno.ENOTDIR
    | none => Except.error Errno.ENOENT

/-- The locations in which the resolution of components looks a component up. -/
def checked : Key → List String → List Key
  | _, [] => []
  | cur, c :: rest => cur :: checked (follow cur c) rest

/-- The locations that a path passes through: those in which its components are
looked up, and the location that it names. -/
def visited (wd : Key) (p : String) : List Key :=
  checked (start wd p) (components p) ++ [key wd p]

/-- Go `os.Stat` (and `os.Lstat`, the model having no symbolic links): the system call
`stat`. The empty path names nothing, and a path that ends with a slash names
directories only. -/
def Stat (wd : Key) (fs : FS) (p : String) : Except Errno Node :=
  if p = "" then Except.error Errno.ENOENT
  else
    match lookup fs (start wd p) (components p) with
    | Except.error e => Except.error e
    | Except.ok k =>
      match fs k with
      | none => Except.error Errno.ENOENT
      | some Node.dir => Except.ok Node.dir
      | some (Node.file content) =>
        if endsWithSlash p then Except.error Errno.ENOTDIR
        else Except.ok (Node.file content)

/-- Go `os.Mkdir`: the system call `mkdir`. It fails when the path names something
already, which is the case of a path that ends with `.` or `..`. -/
def Mkdir (wd : Key) (fs : FS) (p : String) : Except Errno FS :=
  if p = "" then Except.error Errno.ENOENT
  else
    match lookup fs (start wd p) (components p) with
    | Except.error e => Except.error e
    | Except.ok k =>
      match fs k with
      | some _ => Except.error Errno.EEXIST
      | none => Except.ok (fs.set k Node.dir)

/-- The parent `path[:j-1]` that `os.MkdirAll` makes first, when there is one
(`j > 1`): the path without its trailing slashes (`i`), without its last element (`j`)
and without the slash before that element. -/
def parentPath (p : String) : Option String :=
  let r1 := p.data.reverse.dropWhile fun c => c = '/'
  let r2 := r1.dropWhile fun c => c ≠ '/'
  if r2.length > 1 then some ⟨(r2.drop 1).reverse⟩ else none

/-- The end of `os.MkdirAll`, once the parent exists: `os.Mkdir` is called, and its
error is dropped when `os.Lstat` finds that the path is a directory all the same, as
for a path that ends with `.`. -/
def mkdirLast (wd : Key) (fs : FS) (p : String) : Option Errno × FS :=
  match Mkdir wd fs p with
  | Except.ok fs1 => (none, fs1)
  | Except.error e =>
    match Stat wd fs p with
    | Except.ok Node.dir => (none, fs)
    | _ => (some e, fs)

/-- Go `os.MkdirAll`, with a bound on the depth of its recursion: the error that it
returns and the file system that it leaves. A directory is kept as it is and a regular
file is an error; otherwise the parent is made first, by the function itself, and
then the path. -/
def mkdirAllFuel : Nat → Key → FS → String → Option Errno × FS
  | 0, _, fs, _ => (some Errno.ENOENT, fs)
  | n + 1, wd, fs, p =>
    match Stat wd fs p with
    | Except.ok Node.dir => (none, fs)
    | Except.ok (Node.file _) => (some Errno.ENOTDIR, fs)
    | Except.error _ =>
      match parentPath p with
      | none => mkdirLast wd fs p
      | some parent =>
        match mkdirAllFuel n wd fs parent with
        | (some e, fs1) => (some e, fs1)
        | (none, fs1) => mkdirLast wd fs1 p

/-- Go `os.MkdirAll`. The parent of a path is shorter than the path, so the recursion
is not deeper than the path is long. -/
def MkdirAll (wd : Key) (fs : FS) (p : String) : Option Errno × FS :=
  mkdirAllFuel (p.length + 1) wd fs p

/-- Go `os.WriteFile`: opens the file for writing, creating it or truncating it, and
writes the content. -/
def WriteFile (wd : Key) (fs : FS) (p : String) (content : Bytes) : Except Errno FS :=
  if p = "" then Except.error Errno.ENOENT
  else
    match lookup fs (start wd p) (components p) with
    | Except.error e => Except.error e
    | Except.ok k =>
      match fs k with
      | some Node.dir => Except.error Errno.EISDIR
      | some (Node.file _) =>
        if endsWithSlash p then Except.error Errno.ENOTDIR
        else Except.ok (fs.set k (Node.file content))
      | none =>
        if endsWithSlash p then Except.error Errno.EISDIR
        else Except.ok (fs.set k (Node.file content))

/-! ## Package `build`: `createDirectory` -/

/-- The function `createDirectory` of `command.go`: the error it returns and the
file system it leaves. -/
def createDirectory (wd : Key) (fs : FS) (path : String) : Option Error × FS :=
  match Stat wd fs path with
  | Except.error err =>
    if err = Errno.ENOENT then
      match MkdirAll wd fs path with
      | (none, fs1) => (none, fs1)
      | (some e, fs1) => (some (Error.os e), fs1)
    else (some (Error.os err), fs)
  | Except.ok stat =>
    if stat ≠ Node.dir then (some (Error.new "is not a directory"), fs)
    else (none, fs)

/-! ## Go maps and `sort.Slice` -/

/-- Go `<` on strings: lexicographic comparison of the two sequences, element by
element, a proper prefix being smaller. Go compares the bytes of the strings; the
model compares the code points of the characters, which orders strings in UTF-8 in
the same way. -/
def lessChars : List Char → List Char → Bool
  | [], [] => false
  | [], _ :: _ => true
  | _ :: _, [] => false
  | a :: as, b :: bs =>
    if a.toNat < b.toNat then true
    else if b.toNat < a.toNat then false
    else lessChars as bs

/-- Go `a < b` for strings. -/
def strLess (a b : String) : Bool :=
  lessChars a.data b.data

/-- Go `sort.Slice(l, less)`, as the insertion sort that package `sort` runs on short
slices. `sort.Slice` may order equal elements differently; on a slice without two
equal elements every sort returns this list. -/
def sortSlice {α : Type} (less : α → α → Bool) (l : List α) : List α :=
  l.insertionSort fun a b => less b a = false

/-- A Go `map[string]V` as the list of its entries. `m[k]` is `assocGet m k`. -/
def assocGet {α : Type} (m : List (String × α)) (k : String) : Option α :=
  match m with
  | [] => none
  | (k1, v) :: rest => if k1 = k then some v else assocGet rest k

/-- The assignment `m[k] = v`: replaces the entry of `k`, or adds one. -/
def assocSet {α : Type} (m : List (String × α)) (k : String) (v : α) : List (String × α) :=
  match m with
  | [] => [(k, v)]
  | (k1, v1) :: rest => if k1 = k then (k, v) :: rest else (k1, v1) :: assocSet rest k v

/-! ## Package `tpl` and the template engine -/

/-- A parsed page template: from code, message and description to the rendered page,
or to the cause of the failure. -/
abbrev Renderer := String → String → String → Except String Bytes

/-- Message and description of one error code (an entry of `cfg.Pages`). -/
structure Page where
  Message : String
  Description : String
  deriving DecidableEq, Repr

/-- The type `historyItem` of `command.go`. -/
structure historyItem where
  Code : String
  Message : String
  Path : String
  deriving DecidableEq, Repr

/-- The map `history` of `RunE`, from template name to the items of the template. -/
abbrev History := List (String × List historyItem)

/-- The package `text/template`, which the command and package `tpl` use and which
is outside the repository. -/
structure Engine where
  /-- Parsing of the text of a page template; `none` when the text is not a template. -/
  parse : Bytes → Option Renderer
  /-- Parsing and execution of the index template of `writeIndexFile` on a history.
  `text/template` visits the entries of a map in the order of their keys, so the
  entries are given in that order. -/
  index : History → Except String Bytes

/-- Modelled from the spec: the registry `ErrorPages` of package `internal/tpl`, whose
source is missing. It holds the templates and the pages in the order in which they
were added. -/
structure ErrorPages where
  templates : List (String × Renderer)
  pages : List (String × Page)

/-- Modelled from the spec: `tpl.NewErrorPages`, whose source is missing: the empty
registry. -/
def NewErrorPages : ErrorPages :=
  ⟨[], []⟩

/-- Modelled from the spec: `ErrorPages.AddTemplate`, whose source is missing. It
parses the text into a renderer bound to the name, replacing the renderer that the
name had, and fails when the text is not a template. -/
def AddTemplate (E : Engine) (ep : ErrorPages) (name : String) (content : Bytes) :
    Except Error ErrorPages :=
  match E.parse content with
  | none => Except.error (Error.templateParse name)
  | some r => Except.ok { ep with templates := assocSet ep.templates name r }

/-- Modelled from the spec: `ErrorPages.AddPage`, whose source is missing. It inserts
or overwrites the descriptor of the code. -/
def AddPage (ep : ErrorPages) (code message description : String) : ErrorPages :=
  { ep with pages := assocSet ep.pages code ⟨message, description⟩ }

/-- Modelled from the spec: the pages of one template in `ErrorPages.IteratePages`,
whose source is missing. Each page is rendered and handed to `visit`; the first
error, of the rendering or of `visit`, ends the iteration. -/
def iteratePagesOf {σ : Type} (name : String) (r : Renderer)
    (visit : String → String → Bytes → σ → Option Error × σ) :
    List (String × Page) → σ → Option Error × σ
  | [], s => (none, s)
  | (code, pg) :: rest, s =>
    match r code pg.Message pg.Description with
    | Except.error cause => (some (Error.render name code cause), s)
    | Except.ok content =>
      match visit name code content s with
      | (some e, s1) => (some e, s1)
      | (none, s1) => iteratePagesOf name r visit rest s1

/-- Modelled from the spec: the templates of `ErrorPages.IteratePages`, whose source
is missing, in the order in which they were added. -/
def iterateTemplates {σ : Type} (pages : List (String × Page))
    (visit : String → String → Bytes → σ → Option Error × σ) :
    List (String × Renderer) → σ → Option Error × σ
  | [], s => (none, s)
  | (name, r) :: rest, s =>
    match iteratePagesOf name r visit pages s with
    | (some e, s1) => (some e, s1)
    | (none, s1) => iterateTemplates pages visit rest s1

/-- Modelled from the spec: `ErrorPages.IteratePages`, whose source is missing. It
fails without a visit when the registry has no template, and visits nothing when it
has no page. -/
def IteratePages {σ : Type} (ep : ErrorPages)
    (visit : String → String → Bytes → σ → Option Error × σ) (s : σ) : Option Error × σ :=
  if ep.templates.length = 0 then (some Error.noTemplates, s)
  else iterateTemplates ep.pages visit ep.templates s

/-! ## Package `build`: the command -/

/-- What `RunE` reads of the loaded configuration `cfg`. -/
structure Config where
  /-- Result of `cfg.LoadTemplates()`: the error, or the entries of the returned map
  in the order in which `RunE` ranges over them. -/
  LoadTemplates : Except Error (List (String × Bytes))
  /-- The entries of the map `cfg.Pages` in the order in which `RunE` ranges over them. -/
  Pages : List (String × Page)

/-- What the callback of `RunE` reads and writes: the file system and `history`. -/
structure State where
  fs : FS
  history : History

/-- The callback that `RunE` passes to `IteratePages`. -/
def visit (wd : Key) (outDir : String) (Pages : List (String × Page))
    (template code : String) (content : Bytes) (s : State) : Option Error × State :=
  match createDirectory wd s.fs (Join [outDir, template]) with
  | (some e, fs1) => (some e, { s with fs := fs1 })
  | (none, fs1) =>
    let fileName := code ++ ".html"
    match WriteFile wd fs1 (Join [outDir, template, fileName]) content with
    | Except.error e => (some (Error.os e), { s with fs := fs1 })
    | Except.ok fs2 =>
      let h1 := if (assocGet s.history template).isNone then assocSet s.history template []
        else s.history
      let item : historyItem :=
        { Code := code
          Message := ((assocGet Pages code).map Page.Message).getD ""
          Path := Join [template, fileName] }
      (none, ⟨fs2, assocSet h1 template ((assocGet h1 template).getD [] ++ [item])⟩)

/-- The loop of `RunE` that sorts every bucket of `history` by code. -/
def sortHistory (history : History) : History :=
  history.map fun e => (e.1, sortSlice (fun a b => strLess a.Code b.Code) e.2)

/-- The entries of a history in the order of their keys. -/
def entriesByKey (history : History) : History :=
  sortSlice (fun a b => strLess a.1 b.1) history

/-- The function `writeIndexFile` of `command.go`. -/
def writeIndexFile (wd : Key) (E : Engine) (fs : FS) (path : String) (history : History) :
    Option Error × FS :=
  match E.index (entriesByKey history) with
  | Except.error cause => (some (Error.template cause), fs)
  | Except.ok buf =>
    match WriteFile wd fs path buf with
    | Except.error e => (some (Error.os e), fs)
    | Except.ok fs1 => (none, fs1)

/-- The registry that `RunE` fills from the loaded templates and `cfg.Pages`. The
command does not look at a result of `AddTemplate`. -/
def loadErrorPages (E : Engine) (templates : List (String × Bytes))
    (Pages : List (String × Page)) : ErrorPages :=
  let ep := templates.foldl (fun ep t =>
    match AddTemplate E ep t.1 t.2 with
    | Except.ok ep1 => ep1
    | Except.error _ => ep) NewErrorPages
  Pages.foldl (fun ep p => AddPage ep p.1 p.2.Message p.2.Description) ep

/-- The part of `RunE` that saves the pages: the call of `IteratePages`, started
with an empty history. -/
def savePages (wd : Key) (E : Engine) (cfg : Config) (templates : List (String × Bytes))
    (outDir : String) (fs : FS) : Option Error × State :=
  IteratePages (loadErrorPages E templates cfg.Pages) (visit wd outDir cfg.Pages) ⟨fs, []⟩

/-- The function `RunE` of the command `build`: the error it returns and the file
system it leaves. -/
def RunE (wd : Key) (E : Engine) (cfg : Config) (generateIndex : Bool) (args : List String)
    (fs : FS) : Option Error × FS :=
  match args with
  | [outDir] =>
    match cfg.LoadTemplates with
    | Except.error err => (some err, fs)
    | Except.ok templates =>
      if templates.length > 0 then
        match createDirectory wd fs outDir with
        | (some err, fs1) => (some (Error.wrap err "cannot prepare output directory"), fs1)
        | (none, fs1) =>
          match savePages wd E cfg templates outDir fs1 with
          | (some err, s) => (some err, s.fs)
          | (none, s) =>
            if generateIndex then
              writeIndexFile wd E s.fs (Join [outDir, "index.html"]) (sortHistory s.history)
            else (none, s.fs)
      else (some (Error.new "no loaded templates"), fs)
  | _ => (some (Error.new "wrong arguments count"), fs)

/-! ## The iteration as one list of steps -/

/-- One step of `IteratePages`: a template with its renderer, and a page. -/
abbrev Step := (String × Renderer) × (String × Page)

/-- The steps of `IteratePages`, in order: every page for the first template, then
every page for the next one. -/
def steps (T : List (String × Renderer)) (P : List (String × Page)) : List Step :=
  T.flatMap fun t => P.map fun p => (t, p)

/-- The iteration over a list of steps with the callback of `RunE`. -/
def runSteps (wd : Key) (outDir : String) (Pages : List (String × Page)) :
    List Step → State → Option Error × State
  | [], s => (none, s)
  | x :: rest, s =>
    match x.1.2 x.2.1 x.2.2.Message x.2.2.Description with
    | Except.error cause => (some (Error.render x.1.1 x.2.1 cause), s)
    | Except.ok content =>
      match visit wd outDir Pages x.1.1 x.2.1 content s with
      | (some e, s1) => (some e, s1)
      | (none, s1) => runSteps wd outDir Pages rest s1

/-- The path of the directory of the template of a step. -/
def dirPath (outDir : String) (x : Step) : String :=
  Join [outDir, x.1.1]

/-- The path of the page of a step. -/
def pagePath (outDir : String) (x : Step) : String :=
  Join [outDir, x.1.1, x.2.1 ++ ".html"]

/-- The location of the page of a step. -/
def pageKey (wd : Key) (outDir : String) (x : Step) : Key :=
  key wd (pagePath outDir x)

/-- The history item that the callback builds for a template and a code. -/
def itemOf (Pages : List (String × Page)) (t c : String) : historyItem :=
  { Code := c
    Message := ((assocGet Pages c).map Page.Message).getD ""
    Path := Join [t, c ++ ".html"] }

/-- A history with one more item at the end of the bucket of a template. -/
def pushItem (h : History) (t : String) (i : historyItem) : History :=
  assocSet h t ((assocGet h t).getD [] ++ [i])

/-! ## Sample inputs -/

/-- The bytes of a text (of its characters, for the samples). -/
def bytesOf (s : String) : Bytes :=
  s.data.map Char.toNat

/-- A page template of the samples. -/
def sampleRenderer (text : Bytes) : Renderer :=
  fun code message _ => Except.ok (text ++ bytesOf (code ++ " " ++ message))

/-- A template engine for the samples: every text is a template, which renders its
own text, the code, a blank and the message; the index lists, template after template,
the name and the paths of the items. -/
def sampleEngine : Engine where
  parse := fun text => some (sampleRenderer text)
  index := fun h =>
    Except.ok (h.flatMap fun e => bytesOf e.1 ++ e.2.flatMap fun i => bytesOf i.Path)

/-- The catalog of the samples, as `RunE` ranges over it. -/
def samplePages : List (String × Page) :=
  [("500", ⟨"Server Error", ""⟩), ("404", ⟨"Not Found", ""⟩), ("1000", ⟨"Custom", ""⟩)]

/-- A configuration with the template `plain`. -/
def sampleConfig : Config :=
  ⟨Except.ok [("plain", [])], samplePages⟩

/-- A configuration with the templates `a` and `plain`, enumerated in this order. -/
def twoTemplatesConfig : Config :=
  ⟨Except.ok [("a", [1]), ("plain", [2])], samplePages⟩

/-- The same configuration with the templates and the pages enumerated in the
opposite order. -/
def twoTemplatesConfigSwapped : Config :=
  ⟨Except.ok [("plain", [2]), ("a", [1])], samplePages.reverse⟩

/-- A configuration with two template names that name the same directory. -/
def collidingConfig : Config :=
  ⟨Except.ok [("x", [1]), ("x/.", [2])], [("404", ⟨"Not Found", ""⟩)]⟩

/-- The same configuration with the templates enumerated in the other order. -/
def collidingConfigSwapped : Config :=
  ⟨Except.ok [("x/.", [2]), ("x", [1])], [("404", ⟨"Not Found", ""⟩)]⟩

/-- The working directory of the samples, `/work`. -/
def sampleWd : Key :=
  ["work"]

/-- A file system that holds the root directory and the working directory only. -/
def emptyDisk : FS :=
  fun k => if k = [] ∨ k = ["work"] then some Node.dir else none

/-- A file system in which `out` is a directory and `out/plain` a regular file. -/
def plainFileDisk : FS :=
  fun k =>
    if k = [] ∨ k = ["work"] ∨ k = ["work", "out"] then some Node.dir
    else if k = ["work", "out", "plain"] then some (Node.file [7])
    else none

/-- A configuration whose only template is named `.` and whose only page has the code
`index`. -/
def dotTemplateConfig : Config :=
  ⟨Except.ok [(".", [])], [("index", ⟨"Home", ""⟩)]⟩

/-- A configuration whose only template is named `index.html`. -/
def indexTemplateConfig : Config :=
  ⟨Except.ok [("index.html", [])], [("404", ⟨"Not Found", ""⟩)]⟩

/-- A configuration with the templates `plain/x` and `plain`, enumerated in this
order. -/
def nestedTemplatesConfig : Config :=
  ⟨Except.ok [("plain/x", [1]), ("plain", [2])], samplePages⟩

/-! ## Package `path` -/

theorem splitSlash_ne_nil (l : List Char) : splitSlash l ≠ [] := by
  induction l with
  | nil => simp [splitSlash]
  | cons c cs ih =>
    unfold splitSlash
    split
    · simp
    · split <;> simp

theorem splitSlash_of_not_mem (a : List Char) (h : '/' ∉ a) : splitSlash a = [a] := by
  induction a with
  | nil => rfl
  | cons c cs ih =>
    simp only [List.mem_cons, not_or] at h
    unfold splitSlash
    rw [if_neg (Ne.symm h.1), ih h.2]

theorem splitSlash_append (a b : List Char) (h : '/' ∉ a) :
    splitSlash (a ++ '/' :: b) = a :: splitSlash b := by
  induction a with
  | nil => simp [splitSlash]
  | cons c cs ih =>
    simp only [List.mem_cons, not_or] at h
    simp only [List.cons_append]
    conv_lhs => rw [splitSlash]
    rw [if_neg (Ne.symm h.1), ih h.2]

theorem splitSlash_append_all (a b : List Char) :
    splitSlash (a ++ '/' :: b) = splitSlash a ++ splitSlash b := by
  induction a with
  | nil => simp [splitSlash]
  | cons c cs ih =>
    simp only [List.cons_append]
    by_cases hc : c = '/'
    · subst hc
      simp only [splitSlash, if_true, ih, List.cons_append]
    · rw [splitSlash, if_neg hc, ih, splitSlash, if_neg hc]
      cases h : splitSlash cs with
      | nil => exact absurd h (splitSlash_ne_nil cs)
      | cons s ss => rfl

theorem not_mem_of_mem_splitSlash (l : List Char) :
    ∀ x ∈ splitSlash l, '/' ∉ x := by
  induction l with
  | nil => simp [splitSlash]
  | cons c cs ih =>
    intro x hx
    unfold splitSlash at hx
    split at hx
    · simp only [List.mem_cons] at hx
      rcases hx with rfl | hx
      · simp
      · exact ih x hx
    · rename_i hc
      split at hx
      · simp only [List.mem_singleton] at hx
        subst hx
        simpa using Ne.symm hc
      · rename_i s ss hs
        simp only [List.mem_cons] at hx
        rcases hx with rfl | hx
        · have := ih s (by simp [hs])
          simp only [List.mem_cons, not_or]
          exact ⟨Ne.symm hc, this⟩
        · exact ih x (by simp [hs, hx])

theorem elements_append (a b : String) :
    elements (a ++ "/" ++ b) = elements a ++ elements b := by
  simp only [elements, String.data_append]
  rw [List.append_assoc, List.singleton_append, splitSlash_append_all, List.map_append]

theorem elements_of_not_mem (a : String) (h : '/' ∉ a.data) : elements a = [a] := by
  simp only [elements, splitSlash_of_not_mem a.data h, List.map_cons, List.map_nil]

theorem not_mem_of_mem_elements (p s : String) (h : s ∈ elements p) : '/' ∉ s.data := by
  simp only [elements, List.mem_map] at h
  obtain ⟨x, hx, rfl⟩ := h
  exact not_mem_of_mem_splitSlash _ x hx

theorem string_ne_of_length {a b : String} (h : a.length ≠ b.length) : a ≠ b :=
  fun hab => h (by rw [hab])

theorem fileName_real (c : String) :
    c ++ ".html" ≠ "" ∧ c ++ ".html" ≠ "." ∧ c ++ ".html" ≠ ".." := by
  have h5 : (".html" : String).length = 5 := by decide
  have h0 : ("" : String).length = 0 := by decide
  have h1 : ("." : String).length = 1 := by decide
  have h2 : (".." : String).length = 2 := by decide
  refine ⟨string_ne_of_length ?_, string_ne_of_length ?_, string_ne_of_length ?_⟩ <;>
    simp only [String.length_append, h5, h0, h1, h2] <;>
    omega

theorem fileName_no_slash (c : String) (h : '/' ∉ c.data) : '/' ∉ (c ++ ".html").data := by
  simp only [String.data_append, List.mem_append, not_or]
  exact ⟨h, by decide⟩

theorem fileName_plain (c : String) (h : '/' ∉ c.data) : Plain (c ++ ".html") :=
  ⟨(fileName_real c).1, fileName_no_slash c h, (fileName_real c).2.1, (fileName_real c).2.2⟩

theorem cleanStep_plain (rooted : Bool) (stack : List String) {s : String} (h : Plain s) :
    cleanStep rooted stack s = s :: stack := by
  obtain ⟨h1, -, h3, h4⟩ := h
  simp [cleanStep, h1, h3, h4]

theorem isRooted_plain {t : String} (h : Plain t) (rest : String) :
    isRooted (t ++ rest) = false := by
  obtain ⟨l⟩ := t
  obtain ⟨h1, h2, -, -⟩ := h
  cases l with
  | nil => exact absurd rfl h1
  | cons x l =>
    simp only [List.mem_cons, not_or] at h2
    simp [isRooted, String.data_append, Ne.symm h2.1]

theorem ne_empty_of_plain {t : String} (h : Plain t) (rest : String) : t ++ rest ≠ "" := by
  obtain ⟨l⟩ := t
  obtain ⟨h1, -, -, -⟩ := h
  cases l with
  | nil => exact absurd rfl h1
  | cons x l =>
    intro hh
    have := congrArg String.data hh
    simp [String.data_append] at this

theorem append_ne_empty {a : String} (h : a ≠ "") (b : String) : a ++ b ≠ "" := by
  obtain ⟨l⟩ := a
  cases l with
  | nil => exact absurd rfl h
  | cons x l =>
    intro hh
    have := congrArg String.data hh
    simp [String.data_append] at this

theorem length_ne_zero {a : String} (h : a ≠ "") : a.length ≠ 0 := by
  obtain ⟨l⟩ := a
  cases l with
  | nil => exact absurd rfl h
  | cons x l => simp [String.length]

theorem Clean_pair {t f : String} (ht : Plain t) (hf : Plain f) :
    Clean (t ++ "/" ++ f) = t ++ "/" ++ f := by
  have hr : isRooted (t ++ "/" ++ f) = false := by
    rw [String.append_assoc]
    exact isRooted_plain ht _
  have he : cleanElems (t ++ "/" ++ f) = [t, f] := by
    simp only [cleanElems, elements_append, elements_of_not_mem t ht.2.1,
      elements_of_not_mem f hf.2.1, hr, List.singleton_append, List.foldl_cons, List.foldl_nil,
      cleanStep_plain _ _ ht, cleanStep_plain _ _ hf, List.reverse_cons, List.reverse_nil,
      List.nil_append]
  have hne : t ++ "/" ++ f ≠ "" := by
    rw [String.append_assoc]
    exact ne_empty_of_plain ht _
  simp [Clean, hne, hr, he, joinSlash]

theorem joinBuf_pair {t : String} (ht : t ≠ "") (f : String) :
    joinBuf "" [t, f] = t ++ "/" ++ f := by
  simp [joinBuf, ht]

theorem Join_pair {t f : String} (ht : Plain t) (hf : Plain f) :
    Join [t, f] = t ++ "/" ++ f := by
  have hlen : ([t, f].map String.length).sum ≠ 0 := by
    have : t.length ≠ 0 := length_ne_zero ht.1
    simp only [List.map_cons, List.map_nil, List.sum_cons, List.sum_nil]
    omega
  rw [Join, if_neg hlen, joinBuf_pair ht.1, Clean_pair ht hf]

theorem joinBuf_nested (outDir : String) {t : String} (ht : t ≠ "") (f : String) :
    joinBuf "" [outDir, t ++ "/" ++ f] = joinBuf "" [outDir, t, f] := by
  have h1 : t ++ "/" ++ f ≠ "" := by
    rw [String.append_assoc]
    exact append_ne_empty ht _
  by_cases ho : outDir = ""
  · subst ho
    simp [joinBuf, ht, h1]
  · have h2 : outDir ++ ("/" ++ t) ≠ "" := append_ne_empty ho _
    simp [joinBuf, ho, h2, String.append_assoc]

theorem Join_nested (outDir : String) {t : String} (ht : t ≠ "") (f : String) :
    Join [outDir, t ++ "/" ++ f] = Join [outDir, t, f] := by
  have hl : t.length ≠ 0 := length_ne_zero ht
  have h1 : ([outDir, t ++ "/" ++ f].map String.length).sum ≠ 0 := by
    simp only [List.map_cons, List.map_nil, List.sum_cons, List.sum_nil, String.length_append]
    omega
  have h2 : ([outDir, t, f].map String.length).sum ≠ 0 := by
    simp only [List.map_cons, List.map_nil, List.sum_cons, List.sum_nil]
    omega
  rw [Join, if_neg h1, Join, if_neg h2, joinBuf_nested outDir ht f]

/-! ## The resolution of paths -/

theorem lookup_ok {fs : FS} : ∀ {cs : List String} {cur k : Key},
    lookup fs cur cs = Except.ok k →
      k = cs.foldl follow cur ∧ ∀ q ∈ checked cur cs, fs q = some Node.dir := by
  intro cs
  induction cs with
  | nil =>
    intro cur k h
    simp only [lookup, Except.ok.injEq] at h
    exact ⟨h.symm, by simp [checked]⟩
  | cons c cs ih =>
    intro cur k h
    simp only [lookup] at h
    split at h
    · rename_i hd
      obtain ⟨h1, h2⟩ := ih h
      refine ⟨h1, ?_⟩
      intro q hq
      simp only [checked, List.mem_cons] at hq
      rcases hq with rfl | hq
      · exact hd
      · exact h2 q hq
    · simp at h
    · simp at h

theorem lookup_of_dirs {fs : FS} : ∀ {cs : List String} {cur : Key},
    (∀ q ∈ checked cur cs, fs q = some Node.dir) →
      lookup fs cur cs = Except.ok (cs.foldl follow cur) := by
  intro cs
  induction cs with
  | nil => intro cur _; rfl
  | cons c cs ih =>
    intro cur h
    simp only [lookup, h cur (by simp [checked]), List.foldl_cons]
    exact ih fun q hq => h q (by simp [checked, hq])

theorem lookup_mono {fs fs1 : FS} (hd : ∀ q, fs q = some Node.dir → fs1 q = some Node.dir)
    {cs : List String} {cur k : Key} (h : lookup fs cur cs = Except.ok k) :
    lookup fs1 cur cs = Except.ok k := by
  obtain ⟨h1, h2⟩ := lookup_ok h
  rw [h1]
  exact lookup_of_dirs fun q hq => hd q (h2 q hq)

theorem checked_append (cs : List String) (c : String) :
    ∀ cur : Key, checked cur (cs ++ [c]) = checked cur cs ++ [cs.foldl follow cur] := by
  induction cs with
  | nil => intro cur; rfl
  | cons d cs ih =>
    intro cur
    show cur :: checked (follow cur d) (cs ++ [c]) = _
    rw [ih]
    rfl

theorem key_mem_visited (wd : Key) (p : String) : key wd p ∈ visited wd p := by
  simp [visited]

theorem lookup_path {wd : Key} {fs : FS} {p : String} {k : Key}
    (h : lookup fs (start wd p) (components p) = Except.ok k) : k = key wd p :=
  (lookup_ok h).1

/-! ## The system calls -/

theorem Stat_ok {wd : Key} {fs : FS} {p : String} {n : Node}
    (h : Stat wd fs p = Except.ok n) :
    p ≠ "" ∧ lookup fs (start wd p) (components p) = Except.ok (key wd p) ∧
      fs (key wd p) = some n ∧ (n ≠ Node.dir → endsWithSlash p = false) := by
  unfold Stat at h
  split at h
  · simp at h
  · rename_i hp
    split at h
    · simp at h
    · rename_i k hk
      have hkey := lookup_path hk
      subst hkey
      split at h
      · simp at h
      · simp only [Except.ok.injEq] at h
        subst h
        rename_i hn
        exact ⟨hp, hk, hn, fun hh => absurd rfl hh⟩
      · rename_i content hn
        split at h
        · simp at h
        · rename_i hs
          simp only [Except.ok.injEq] at h
          subst h
          exact ⟨hp, hk, hn, fun _ => by simpa using hs⟩

theorem Stat_dir_of {wd : Key} {fs : FS} {p : String} (hp : p ≠ "")
    (hl : lookup fs (start wd p) (components p) = Except.ok (key wd p))
    (hk : fs (key wd p) = some Node.dir) : Stat wd fs p = Except.ok Node.dir := by
  simp [Stat, hp, hl, hk]

theorem Stat_file_of {wd : Key} {fs : FS} {p : String} {b : Bytes} (hp : p ≠ "")
    (hl : lookup fs (start wd p) (components p) = Except.ok (key wd p))
    (hk : fs (key wd p) = some (Node.file b)) (hs : endsWithSlash p = false) :
    Stat wd fs p = Except.ok (Node.file b) := by
  simp [Stat, hp, hl, hk, hs]

theorem Stat_dir_mono {wd : Key} {fs fs1 : FS} {p : String}
    (hd : ∀ q, fs q = some Node.dir → fs1 q = some Node.dir)
    (h : Stat wd fs p = Except.ok Node.dir) : Stat wd fs1 p = Except.ok Node.dir := by
  obtain ⟨hp, hl, hk, -⟩ := Stat_ok h
  exact Stat_dir_of hp (lookup_mono hd hl) (hd _ hk)

theorem Stat_ok_visited {wd : Key} {fs : FS} {p : String}
    (h : Stat wd fs p = Except.ok Node.dir) : ∀ q ∈ visited wd p, fs q = some Node.dir := by
  obtain ⟨-, hl, hk, -⟩ := Stat_ok h
  intro q hq
  simp only [visited, List.mem_append, List.mem_singleton] at hq
  rcases hq with hq | rfl
  · exact (lookup_ok hl).2 q hq
  · exact hk

theorem Mkdir_ok {wd : Key} {fs fs1 : FS} {p : String} (h : Mkdir wd fs p = Except.ok fs1) :
    p ≠ "" ∧ lookup fs (start wd p) (components p) = Except.ok (key wd p) ∧
      fs (key wd p) = none ∧ fs1 = fs.set (key wd p) Node.dir := by
  unfold Mkdir at h
  split at h
  · simp at h
  · rename_i hp
    split at h
    · simp at h
    · rename_i k hk
      have hkey := lookup_path hk
      subst hkey
      split at h
      · simp at h
      · rename_i hn
        simp only [Except.ok.injEq] at h
        exact ⟨hp, hk, hn, h.symm⟩

theorem set_keeps_dirs {fs : FS} {k : Key} (n : Node) (hk : fs k ≠ some Node.dir) :
    ∀ q, fs q = some Node.dir → fs.set k n q = some Node.dir := by
  intro q hq
  have hne : q ≠ k := fun hh => hk (hh ▸ hq)
  simp [FS.set, hne, hq]

theorem WriteFile_ok {wd : Key} {fs fs1 : FS} {p : String} {b : Bytes}
    (h : WriteFile wd fs p b = Except.ok fs1) :
    fs1 = fs.set (key wd p) (Node.file b) ∧ fs (key wd p) ≠ some Node.dir ∧
      p ≠ "" ∧ lookup fs (start wd p) (components p) = Except.ok (key wd p) ∧
      endsWithSlash p = false := by
  unfold WriteFile at h
  split at h
  · simp at h
  · rename_i hp
    split at h
    · simp at h
    · rename_i k hk
      have hkey := lookup_path hk
      subst hkey
      split at h
      · simp at h
      · rename_i content hn
        split at h
        · simp at h
        · rename_i hs
          simp only [Except.ok.injEq] at h
          exact ⟨h.symm, by simp [hn], hp, hk, by simpa using hs⟩
      · rename_i hn
        split at h
        · simp at h
        · rename_i hs
          simp only [Except.ok.injEq] at h
          exact ⟨h.symm, by simp [hn], hp, hk, by simpa using hs⟩

theorem WriteFile_of {wd : Key} {fs : FS} {p : String} (b : Bytes) (hp : p ≠ "")
    (hl : lookup fs (start wd p) (components p) = Except.ok (key wd p))
    (hs : endsWithSlash p = false) (hf : fs (key wd p) ≠ some Node.dir) :
    WriteFile wd fs p b = Except.ok (fs.set (key wd p) (Node.file b)) := by
  unfold WriteFile
  rw [if_neg hp, hl]
  simp only
  cases hk : fs (key wd p) with
  | none => simp [hs]
  | some n =>
    cases n with
    | file old => simp [hs]
    | dir => exact absurd hk hf

theorem Stat_WriteFile {wd : Key} {fs fs1 : FS} {p : String} {b : Bytes}
    (h : WriteFile wd fs p b = Except.ok fs1) : Stat wd fs1 p = Except.ok (Node.file b) := by
  obtain ⟨hset, hnd, hp, hl, hs⟩ := WriteFile_ok h
  subst hset
  refine Stat_file_of hp (lookup_mono (set_keeps_dirs _ hnd) hl) ?_ hs
  simp [FS.set]

/-! ## The parent of a path in `os.MkdirAll` -/

theorem dropWhile_head {α : Type} (f : α → Bool) :
    ∀ (l : List α) (a : α) (r : List α), l.dropWhile f = a :: r → f a = false := by
  intro l
  induction l with
  | nil => intro a r h; simp at h
  | cons x l ih =>
    intro a r h
    by_cases hx : f x = true
    · rw [List.dropWhile_cons_of_pos hx] at h
      exact ih a r h
    · rw [List.dropWhile_cons_of_neg hx] at h
      simp only [List.cons.injEq] at h
      rw [← h.1]
      simpa using hx

theorem splitSlash_slashes (s : List Char) (h : ∀ c ∈ s, c = '/') :
    splitSlash s = List.replicate (s.length + 1) [] := by
  induction s with
  | nil => rfl
  | cons c s ih =>
    have hc : c = '/' := h c (List.mem_cons_self _ _)
    subst hc
    rw [splitSlash, if_pos rfl, ih fun c hc => h c (List.mem_cons_of_mem _ hc)]
    rfl

theorem splitSlash_name_slashes (a s : List Char) (ha : '/' ∉ a) (h : ∀ c ∈ s, c = '/') :
    splitSlash (a ++ s) = a :: List.replicate s.length [] := by
  cases s with
  | nil => simp [splitSlash_of_not_mem a ha]
  | cons c s =>
    have hc : c = '/' := h c (List.mem_cons_self _ _)
    subst hc
    rw [splitSlash_append a s ha, splitSlash_slashes s fun c hc => h c (List.mem_cons_of_mem _ hc)]
    rfl

theorem components_mk_append (a b : List Char) :
    components ⟨a ++ '/' :: b⟩ = components ⟨a⟩ ++ components ⟨b⟩ := by
  simp only [components, elements, splitSlash_append_all, List.map_append, List.filter_append]

theorem filter_replicate_empty (n : Nat) :
    ((List.replicate n ([] : List Char)).map String.mk).filter (fun s => s ≠ "") = [] := by
  induction n with
  | zero => rfl
  | succ n ih =>
    rw [List.replicate_succ, List.map_cons, List.filter_cons_of_neg (by decide), ih]

theorem components_name_slashes (a s : List Char) (ha : '/' ∉ a) (hne : a ≠ [])
    (h : ∀ c ∈ s, c = '/') : components ⟨a ++ s⟩ = [⟨a⟩] := by
  have hmk : (String.mk a) ≠ "" := by
    intro hh
    exact hne (congrArg String.data hh)
  simp only [components, elements, splitSlash_name_slashes a s ha h, List.map_cons]
  rw [List.filter_cons_of_pos (by simpa using hmk), filter_replicate_empty]

theorem components_slashes (s : List Char) (h : ∀ c ∈ s, c = '/') : components ⟨s⟩ = [] := by
  simp only [components, elements, splitSlash_slashes s h]
  exact filter_replicate_empty _

/-- The shape of a path: its last element, between the part that `os.MkdirAll` scans
over first and the trailing slashes. -/
theorem path_shape (l : List Char) :
    ∃ name slashes : List Char, '/' ∉ name ∧ (∀ c ∈ slashes, c = '/') ∧
      l = ((l.reverse.dropWhile fun c => c = '/').dropWhile fun c => c ≠ '/').reverse ++
        (name ++ slashes) ∧
      (name = [] → ((l.reverse.dropWhile fun c => c = '/').dropWhile fun c => c ≠ '/') = []) := by
  refine ⟨((l.reverse.dropWhile fun c => c = '/').takeWhile fun c => c ≠ '/').reverse,
    (l.reverse.takeWhile fun c => c = '/').reverse, ?_, ?_, ?_, ?_⟩
  · intro hm
    have := List.mem_takeWhile_imp (List.mem_reverse.1 hm)
    simp at this
  · intro c hc
    have := List.mem_takeWhile_imp (List.mem_reverse.1 hc)
    simpa using this
  · rw [← List.reverse_append, ← List.reverse_append, List.append_assoc,
      List.takeWhile_append_dropWhile, List.takeWhile_append_dropWhile, List.reverse_reverse]
  · intro hn
    have hn1 : ((l.reverse.dropWhile fun c => c = '/').takeWhile fun c => c ≠ '/') = [] := by
      simpa using hn
    cases hr : (l.reverse.dropWhile fun c => decide (c = '/')) with
    | nil => rfl
    | cons x r =>
      have hx := dropWhile_head _ _ _ _ hr
      rw [hr] at hn1
      rw [List.takeWhile_cons_of_pos (by simpa using hx)] at hn1
      simp at hn1

theorem parentPath_some {p q : String} (h : parentPath p = some q) :
    q ≠ "" ∧ q.length < p.length ∧ isRooted q = isRooted p ∧
      ∃ c, components p = components q ++ [c] := by
  obtain ⟨l⟩ := p
  obtain ⟨name, slashes, hname, hsl, hl, hnil⟩ := path_shape l
  simp only [parentPath] at h
  generalize hr2 : ((l.reverse.dropWhile fun c => decide (c = '/')).dropWhile
    fun c => decide (c ≠ '/')) = r2 at h hl hnil
  split at h
  · rename_i hlen
    simp only [Option.some.injEq] at h
    subst h
    cases r2 with
    | nil => simp at hlen
    | cons x r3 =>
      have hx : x = '/' := by
        have := dropWhile_head _ _ _ _ hr2
        simpa using this
      subst hx
      cases r3 with
      | nil => simp at hlen
      | cons y r4 =>
        have hne : name ≠ [] := fun hh => by simpa using hnil hh
        have hl2 : l = (y :: r4).reverse ++ '/' :: (name ++ slashes) := by
          rw [hl]
          simp
        refine ⟨?_, ?_, ?_, ⟨⟨name⟩, ?_⟩⟩
        · intro hh
          have := congrArg String.data hh
          simp at this
        · have := congrArg List.length hl2
          simp only [String.length, List.drop_one, List.tail_cons, List.length_reverse,
            List.length_cons] at this ⊢
          simp only [List.length_append, List.length_cons, List.length_reverse] at this
          omega
        · simp only [isRooted, List.drop_one, List.tail_cons]
          conv_rhs => rw [hl2]
          cases hrev : (y :: r4).reverse with
          | nil => simp at hrev
          | cons z zs => simp
        · simp only [List.drop_one, List.tail_cons]
          conv_lhs => rw [hl2]
          rw [components_mk_append, components_name_slashes name slashes hname hne hsl]
  · simp at h

theorem parentPath_none {p : String} (h : parentPath p = none) :
    components p = [] ∨ ∃ c, components p = [c] := by
  obtain ⟨l⟩ := p
  obtain ⟨name, slashes, hname, hsl, hl, hnil⟩ := path_shape l
  simp only [parentPath] at h
  generalize hr2 : ((l.reverse.dropWhile fun c => decide (c = '/')).dropWhile
    fun c => decide (c ≠ '/')) = r2 at h hl hnil
  split at h
  · simp at h
  · rename_i hlen
    have htail : components ⟨name ++ slashes⟩ = [] ∨
        ∃ c, components ⟨name ++ slashes⟩ = [c] := by
      by_cases hne : name = []
      · left
        subst hne
        exact components_slashes _ hsl
      · right
        exact ⟨⟨name⟩, components_name_slashes name slashes hname hne hsl⟩
    cases r2 with
    | nil =>
      simp only [List.reverse_nil, List.nil_append] at hl
      rw [hl]
      exact htail
    | cons x r3 =>
      have hx : x = '/' := by
        have := dropWhile_head _ _ _ _ hr2
        simpa using this
      subst hx
      cases r3 with
      | nil =>
        have hl2 : l = [] ++ '/' :: (name ++ slashes) := by
          rw [hl]
          simp
        rw [hl2, components_mk_append]
        simpa [components, elements, splitSlash] using htail
      | cons y r4 => simp at hlen

theorem visited_of_parent (wd : Key) {p q : String} (h : parentPath p = some q) :
    start wd q = start wd p ∧
      checked (start wd p) (components p) = visited wd q ∧
      visited wd p = visited wd q ++ [key wd p] := by
  obtain ⟨-, -, hroot, c, hc⟩ := parentPath_some h
  have hs : start wd q = start wd p := by simp [start, hroot]
  have h2 : checked (start wd p) (components p) = visited wd q := by
    rw [hc, checked_append, visited, key, hs]
  exact ⟨hs, h2, by rw [visited, h2]⟩

/-! ## `os.MkdirAll` -/

theorem mkdirLast_cases (wd : Key) (fs : FS) (p : String) :
    (∃ fs1, Mkdir wd fs p = Except.ok fs1 ∧ mkdirLast wd fs p = (none, fs1)) ∨
      (Stat wd fs p = Except.ok Node.dir ∧ mkdirLast wd fs p = (none, fs)) ∨
      ∃ e, Mkdir wd fs p = Except.error e ∧ mkdirLast wd fs p = (some e, fs) := by
  unfold mkdirLast
  cases hm : Mkdir wd fs p with
  | ok fs1 => exact Or.inl ⟨fs1, rfl, rfl⟩
  | error e =>
    right
    cases hs : Stat wd fs p with
    | error e1 => exact Or.inr ⟨e, rfl, rfl⟩
    | ok nd =>
      cases nd with
      | file b => exact Or.inr ⟨e, rfl, rfl⟩
      | dir => exact Or.inl ⟨rfl, rfl⟩

theorem mkdirLast_frame (wd : Key) (fs : FS) (p : String) (k : Key) :
    (mkdirLast wd fs p).2 k = fs k ∨
      (fs k = none ∧ (mkdirLast wd fs p).2 k = some Node.dir ∧ k = key wd p) := by
  rcases mkdirLast_cases wd fs p with ⟨fs1, hm, h⟩ | ⟨-, h⟩ | ⟨e, -, h⟩
  · obtain ⟨-, -, hn, hset⟩ := Mkdir_ok hm
    rw [h, hset]
    by_cases hk : k = key wd p
    · right
      subst hk
      exact ⟨hn, by simp [FS.set], rfl⟩
    · left
      simp [FS.set, hk]
  · rw [h]
    exact Or.inl rfl
  · rw [h]
    exact Or.inl rfl

theorem mkdirLast_ok {wd : Key} {fs : FS} {p : String} (h : (mkdirLast wd fs p).1 = none) :
    Stat wd (mkdirLast wd fs p).2 p = Except.ok Node.dir := by
  rcases mkdirLast_cases wd fs p with ⟨fs1, hm, h1⟩ | ⟨hs, h1⟩ | ⟨e, -, h1⟩
  · obtain ⟨hp, hl, hn, hset⟩ := Mkdir_ok hm
    rw [h1, hset]
    refine Stat_dir_of hp (lookup_mono (set_keeps_dirs _ (by simp [hn])) hl) ?_
    simp [FS.set]
  · rw [h1]
    exact hs
  · rw [h1] at h
    simp at h

theorem mkdirAllFuel_frame (wd : Key) : ∀ (n : Nat) (fs : FS) (p : String) (k : Key),
    (mkdirAllFuel n wd fs p).2 k = fs k ∨
      (fs k = none ∧ (mkdirAllFuel n wd fs p).2 k = some Node.dir ∧ k ∈ visited wd p) := by
  intro n
  induction n with
  | zero => intro fs p k; exact Or.inl rfl
  | succ n ih =>
    intro fs p k
    simp only [mkdirAllFuel]
    cases hs : Stat wd fs p with
    | ok nd => cases nd <;> exact Or.inl rfl
    | error e =>
      simp only
      cases hpar : parentPath p with
      | none =>
        simp only
        rcases mkdirLast_frame wd fs p k with h | ⟨h1, h2, h3⟩
        · exact Or.inl h
        · exact Or.inr ⟨h1, h2, h3 ▸ key_mem_visited wd p⟩
      | some q =>
        simp only
        obtain ⟨-, -, hvis⟩ := visited_of_parent wd hpar
        have hrec := ih fs q k
        rcases hq : mkdirAllFuel n wd fs q with ⟨_ | e1, fs1⟩
        · rw [hq] at hrec
          simp only at hrec ⊢
          rcases mkdirLast_frame wd fs1 p k with h | ⟨h1, h2, h3⟩
          · rcases hrec with h4 | ⟨h4, h5, h6⟩
            · exact Or.inl (h.trans h4)
            · exact Or.inr ⟨h4, h.trans h5, by rw [hvis]; simp [h6]⟩
          · rcases hrec with h4 | ⟨h4, h5, h6⟩
            · exact Or.inr ⟨h4 ▸ h1, h2, by rw [hvis]; simp [h3]⟩
            · rw [h1] at h5
              simp at h5
        · rw [hq] at hrec
          simp only at hrec ⊢
          rcases hrec with h4 | ⟨h4, h5, h6⟩
          · exact Or.inl h4
          · exact Or.inr ⟨h4, h5, by rw [hvis]; simp [h6]⟩

theorem mkdirAllFuel_ok (wd : Key) (n : Nat) (fs : FS) (p : String)
    (h : (mkdirAllFuel n wd fs p).1 = none) :
    Stat wd (mkdirAllFuel n wd fs p).2 p = Except.ok Node.dir := by
  cases n with
  | zero => simp [mkdirAllFuel] at h
  | succ n =>
    simp only [mkdirAllFuel] at h ⊢
    cases hs : Stat wd fs p with
    | ok nd =>
      cases nd with
      | file b => simp [hs] at h
      | dir => simp [hs]
    | error e =>
      simp only [hs] at h ⊢
      cases hpar : parentPath p with
      | none =>
        simp only [hpar] at h ⊢
        exact mkdirLast_ok h
      | some q =>
        simp only [hpar] at h ⊢
        rcases hq : mkdirAllFuel n wd fs q with ⟨_ | e1, fs1⟩
        · simp only [hq] at h ⊢
          exact mkdirLast_ok h
        · simp [hq] at h

/-- The bound on the recursion of `os.MkdirAll` is never reached: the result is the
same for every bound above the length of the path. -/
theorem mkdirAllFuel_fuel (wd : Key) (fs : FS) : ∀ (n m : Nat) (p : String),
    p.length < n → p.length < m → mkdirAllFuel n wd fs p = mkdirAllFuel m wd fs p := by
  intro n
  induction n with
  | zero => intro m p h; omega
  | succ n ih =>
    intro m p hn hm
    cases m with
    | zero => omega
    | succ m =>
      simp only [mkdirAllFuel]
      cases hs : Stat wd fs p with
      | ok nd => cases nd <;> rfl
      | error e =>
        simp only
        cases hpar : parentPath p with
        | none => rfl
        | some q =>
          obtain ⟨-, hlen, -, -⟩ := parentPath_some hpar
          simp only
          rw [ih m q (by omega) (by omega)]

/-- The recursive equation of `os.MkdirAll`, as the function is written in Go. -/
theorem MkdirAll_eq (wd : Key) (fs : FS) (p : String) :
    MkdirAll wd fs p =
      match Stat wd fs p with
      | Except.ok Node.dir => (none, fs)
      | Except.ok (Node.file _) => (some Errno.ENOTDIR, fs)
      | Except.error _ =>
        match parentPath p with
        | none => mkdirLast wd fs p
        | some parent =>
          match MkdirAll wd fs parent with
          | (some e, fs1) => (some e, fs1)
          | (none, fs1) => mkdirLast wd fs1 p := by
  show mkdirAllFuel (p.length + 1) wd fs p = _
  rw [mkdirAllFuel]
  cases hs : Stat wd fs p with
  | ok nd => cases nd <;> rfl
  | error e =>
    simp only
    cases hpar : parentPath p with
    | none => rfl
    | some q =>
      obtain ⟨-, hlen, -, -⟩ := parentPath_some hpar
      simp only
      rw [mkdirAllFuel_fuel wd fs p.length (q.length + 1) q hlen (by omega)]
      rfl

theorem mkdirLast_tree {wd : Key} {fs : FS} {p : String} (hp : p ≠ "")
    (hl : lookup fs (start wd p) (components p) = Except.ok (key wd p))
    (hf : isFile (fs (key wd p)) = false) :
    mkdirLast wd fs p =
      (none, fun x => if x = key wd p ∧ fs x = none then some Node.dir else fs x) := by
  unfold mkdirLast Mkdir
  rw [if_neg hp, hl]
  simp only
  cases hk : fs (key wd p) with
  | none =>
    simp only
    congr 1
    funext x
    by_cases hx : x = key wd p
    · subst hx
      simp [FS.set, hk]
    · simp [FS.set, hx]
  | some nd =>
    cases nd with
    | file b => simp [hk, isFile] at hf
    | dir =>
      simp only [Stat_dir_of hp hl hk]
      congr 1
      funext x
      split
      · rename_i hh
        rw [hh.1, hk] at hh
        simp at hh
      · rfl

theorem mkdirAllFuel_tree (wd : Key) (fs : FS) : ∀ (n : Nat) (p : String),
    p.length < n → p ≠ "" → fs (start wd p) = some Node.dir →
      (∀ q ∈ visited wd p, isFile (fs q) = false) →
      mkdirAllFuel n wd fs p =
        (none, fun x => if x ∈ visited wd p ∧ fs x = none then some Node.dir else fs x) := by
  intro n
  induction n with
  | zero => intro p h; omega
  | succ n ih =>
    intro p hlen hp hstart hnf
    simp only [mkdirAllFuel]
    cases hs : Stat wd fs p with
    | ok nd =>
      cases nd with
      | file b =>
        obtain ⟨-, -, hk, -⟩ := Stat_ok hs
        have := hnf _ (key_mem_visited wd p)
        simp [hk, isFile] at this
      | dir =>
        simp only
        congr 1
        funext x
        split
        · rename_i hh
          rw [Stat_ok_visited hs x hh.1] at hh
          simp at hh
        · rfl
    | error e =>
      simp only
      cases hpar : parentPath p with
      | none =>
        simp only
        have hch : ∀ x ∈ checked (start wd p) (components p), x = start wd p := by
          rcases parentPath_none hpar with h | ⟨c, h⟩
          · rw [h]
            simp [checked]
          · rw [h]
            simp [checked]
        have hl : lookup fs (start wd p) (components p) = Except.ok (key wd p) :=
          lookup_of_dirs fun x hx => by rw [hch x hx, hstart]
        rw [mkdirLast_tree hp hl (hnf _ (key_mem_visited wd p))]
        congr 1
        funext x
        by_cases hx : x = key wd p
        · subst hx
          simp [key_mem_visited]
        · have : ¬ (x ∈ visited wd p ∧ fs x = none) := by
            rintro ⟨h1, h2⟩
            simp only [visited, List.mem_append, List.mem_singleton] at h1
            rcases h1 with h1 | h1
            · rw [hch x h1, hstart] at h2
              simp at h2
            · exact hx h1
          simp [hx, this]
      | some q =>
        simp only
        obtain ⟨hq, hqlen, -, -⟩ := parentPath_some hpar
        obtain ⟨hst, hchk, hvis⟩ := visited_of_parent wd hpar
        have hnfq : ∀ x ∈ visited wd q, isFile (fs x) = false := fun x hx =>
          hnf x (by rw [hvis]; simp [hx])
        rw [ih q (by omega) hq (hst ▸ hstart) hnfq]
        simp only
        have hdir : ∀ x ∈ visited wd q,
            (if x ∈ visited wd q ∧ fs x = none then some Node.dir else fs x) =
              some Node.dir := by
          intro x hx
          cases hfx : fs x with
          | none => simp [hx]
          | some nd =>
            cases nd with
            | file b =>
              have := hnfq x hx
              simp [hfx, isFile] at this
            | dir => simp
        rw [mkdirLast_tree hp]
        · congr 1
          funext x
          rw [hvis]
          by_cases hx : x = key wd p
          · subst hx
            by_cases hn : fs (key wd p) = none
            · by_cases hm : key wd p ∈ visited wd q <;> simp [hn, hm]
            · simp [hn]
          · simp [hx]
        · apply lookup_of_dirs
          intro x hx
          rw [hchk] at hx
          exact hdir x hx
        · by_cases hm : key wd p ∈ visited wd q ∧ fs (key wd p) = none
          · simp [hm, isFile]
          · rw [if_neg hm]
            exact hnf _ (key_mem_visited wd p)

/-! ## File system trees -/

theorem WellFormed_set {fs : FS} {k : Key} (n : Node) (hwf : WellFormed fs)
    (hk : fs k ≠ some Node.dir) (hup : ∀ q, q <+: k → q ≠ k → fs q = some Node.dir) :
    WellFormed (fs.set k n) := by
  intro k1 q hk1 hq hne
  by_cases hqk : q = k
  · subst hqk
    have hk1' : k1 ≠ q := Ne.symm hne
    simp only [FS.set, hk1', if_false] at hk1
    exact absurd (hwf k1 q hk1 hq hne) hk
  · simp only [FS.set, hqk, if_false]
    by_cases hkk : k1 = k
    · subst hkk
      exact hup q hq hne
    · simp only [FS.set, hkk, if_false] at hk1
      exact hwf k1 q hk1 hq hne

theorem components_ne_nil {p : String} (hp : p ≠ "") (hr : isRooted p = false) :
    components p ≠ [] := by
  obtain ⟨l⟩ := p
  cases l with
  | nil => exact absurd rfl hp
  | cons c cs =>
    have hc : c ≠ '/' := by
      intro h
      simp [isRooted, h] at hr
    simp only [components, elements]
    rw [splitSlash, if_neg hc]
    cases hsp : splitSlash cs with
    | nil => exact absurd hsp (splitSlash_ne_nil cs)
    | cons s ss =>
      simp only [List.map_cons]
      rw [List.filter_cons_of_pos]
      · simp
      · refine decide_eq_true fun h => ?_
        have := congrArg String.data h
        simp at this

/-- On a tree, everything above a location that a path resolves to, and that does not
hold a directory, is a directory. -/
theorem lookup_new_location {wd : Key} {fs : FS} {p : String} (hwf : WellFormed fs)
    (hp : p ≠ "") (hl : lookup fs (start wd p) (components p) = Except.ok (key wd p))
    (hn : fs (key wd p) ≠ some Node.dir) :
    ∀ q, q <+: key wd p → q ≠ key wd p → fs q = some Node.dir := by
  intro q hq hne
  rcases List.eq_nil_or_concat (components p) with h | ⟨init, c, h⟩
  · have hkey : key wd p = start wd p := by simp [key, h]
    cases hr : isRooted p with
    | true =>
      rw [hkey] at hq hne
      simp only [start, hr, if_true] at hq hne
      exact absurd (List.prefix_nil.1 hq) hne
    | false => exact absurd h (components_ne_nil hp hr)
  · rw [List.concat_eq_append] at h
    have hkey : key wd p = follow (init.foldl follow (start wd p)) c := by
      simp [key, h, List.foldl_append]
    have hpar : fs (init.foldl follow (start wd p)) = some Node.dir := by
      apply (lookup_ok hl).2
      rw [h, checked_append]
      simp
    generalize init.foldl follow (start wd p) = parent at hkey hpar
    rw [hkey] at hn hq hne
    by_cases h1 : c = "."
    · simp only [follow, h1, if_true] at hn
      exact absurd hpar hn
    · by_cases h2 : c = ".."
      · simp only [follow, h1, h2, if_true, if_false] at hn
        by_cases he : parent.dropLast = parent
        · rw [he] at hn
          exact absurd hpar hn
        · exact absurd (hwf parent _ (by simp [hpar]) (List.dropLast_prefix parent) he) hn
      · simp only [follow, h1, h2, if_false] at hq hne
        rcases List.prefix_concat_iff.1 hq with h3 | h3
        · exact absurd h3 hne
        · by_cases he : q = parent
          · rw [he, hpar]
          · exact hwf parent q (by simp [hpar]) h3 he

theorem Mkdir_WF {wd : Key} {fs fs1 : FS} {p : String} (hwf : WellFormed fs)
    (h : Mkdir wd fs p = Except.ok fs1) : WellFormed fs1 := by
  obtain ⟨hp, hl, hn, hset⟩ := Mkdir_ok h
  rw [hset]
  exact WellFormed_set _ hwf (by simp [hn]) (lookup_new_location hwf hp hl (by simp [hn]))

theorem mkdirLast_WF {wd : Key} {fs : FS} {p : String} (hwf : WellFormed fs) :
    WellFormed (mkdirLast wd fs p).2 := by
  rcases mkdirLast_cases wd fs p with ⟨fs1, hm, h⟩ | ⟨-, h⟩ | ⟨e, -, h⟩
  · rw [h]
    exact Mkdir_WF hwf hm
  · rw [h]
    exact hwf
  · rw [h]
    exact hwf

theorem mkdirAllFuel_WF (wd : Key) : ∀ (n : Nat) (fs : FS) (p : String),
    WellFormed fs → WellFormed (mkdirAllFuel n wd fs p).2 := by
  intro n
  induction n with
  | zero => intro fs p h; exact h
  | succ n ih =>
    intro fs p hwf
    simp only [mkdirAllFuel]
    cases hs : Stat wd fs p with
    | ok nd => cases nd <;> exact hwf
    | error e =>
      simp only
      cases hpar : parentPath p with
      | none => exact mkdirLast_WF hwf
      | some q =>
        simp only
        have hrec := ih fs q hwf
        rcases hq : mkdirAllFuel n wd fs q with ⟨_ | e1, fs1⟩
        · rw [hq] at hrec
          exact mkdirLast_WF hrec
        · rw [hq] at hrec
          exact hrec

theorem WriteFile_WF {wd : Key} {fs fs1 : FS} {p : String} {b : Bytes} (hwf : WellFormed fs)
    (h : WriteFile wd fs p b = Except.ok fs1) : WellFormed fs1 := by
  obtain ⟨hset, hnd, hp, hl, -⟩ := WriteFile_ok h
  rw [hset]
  exact WellFormed_set _ hwf hnd (lookup_new_location hwf hp hl hnd)

/-! ## Paths of names only -/

theorem prefix_of_names : ∀ (cs : List String) (cur : Key),
    (∀ c ∈ cs, c ≠ "." ∧ c ≠ "..") →
      ∀ q ∈ checked cur cs ++ [cs.foldl follow cur], cur <+: q := by
  intro cs
  induction cs with
  | nil =>
    intro cur _ q hq
    simp only [checked, List.nil_append, List.foldl_nil, List.mem_singleton] at hq
    rw [hq]
  | cons c cs ih =>
    intro cur hn q hq
    have hc := hn c (List.mem_cons_self _ _)
    have hf : follow cur c = cur ++ [c] := by simp [follow, hc.1, hc.2]
    simp only [checked, List.cons_append, List.foldl_cons, List.mem_cons] at hq
    rcases hq with rfl | hq
    · exact List.prefix_refl _
    · have := ih (follow cur c) (fun d hd => hn d (List.mem_cons_of_mem _ hd)) q hq
      rw [hf] at this
      exact (List.prefix_append cur [c]).trans this

theorem no_file_of_names {fs : FS} (hwf : WellFormed fs) : ∀ (cs : List String) (cur : Key),
    (∀ c ∈ cs, c ≠ "." ∧ c ≠ "..") →
      (lookup fs cur cs = Except.error Errno.ENOENT ∨
        (lookup fs cur cs = Except.ok (cs.foldl follow cur) ∧ fs (cs.foldl follow cur) = none)) →
      ∀ q ∈ checked cur cs ++ [cs.foldl follow cur], isFile (fs q) = false := by
  intro cs
  induction cs with
  | nil =>
    intro cur _ h q hq
    simp only [checked, List.nil_append, List.foldl_nil, List.mem_singleton] at hq
    subst hq
    rcases h with h | ⟨-, h⟩
    · simp [lookup] at h
    · simp only [List.foldl_nil] at h
      simp [h, isFile]
  | cons c cs ih =>
    intro cur hn h q hq
    cases hcur : fs cur with
    | none =>
      have hpre := prefix_of_names (c :: cs) cur hn q hq
      have : fs q = none := by
        by_contra hne
        by_cases he : cur = q
        · exact hne (he ▸ hcur)
        · have := hwf q cur hne hpre he
          rw [hcur] at this
          simp at this
      simp [this, isFile]
    | some nd =>
      cases nd with
      | file b => simp [lookup, hcur] at h
      | dir =>
        simp only [lookup, hcur, List.foldl_cons] at h
        simp only [checked, List.cons_append, List.foldl_cons, List.mem_cons] at hq
        rcases hq with rfl | hq
        · simp [hcur, isFile]
        · exact ih (follow cur c) (fun d hd => hn d (List.mem_cons_of_mem _ hd)) h q hq

theorem Stat_ENOENT {wd : Key} {fs : FS} {p : String}
    (h : Stat wd fs p = Except.error Errno.ENOENT) (hp : p ≠ "") :
    lookup fs (start wd p) (components p) = Except.error Errno.ENOENT ∨
      (lookup fs (start wd p) (components p) = Except.ok (key wd p) ∧
        fs (key wd p) = none) := by
  unfold Stat at h
  rw [if_neg hp] at h
  split at h
  · rename_i e he
    simp only [Except.error.injEq] at h
    subst h
    exact Or.inl he
  · rename_i k hk
    have hkey := lookup_path hk
    subst hkey
    split at h
    · rename_i hn
      exact Or.inr ⟨hk, hn⟩
    · simp at h
    · split at h <;> simp at h

/-- On a tree, a path of names only that `os.Stat` reports as missing passes through
no regular file. -/
theorem no_file_of_ENOENT {wd : Key} {fs : FS} {p : String} (hwf : WellFormed fs)
    (h : Stat wd fs p = Except.error Errno.ENOENT) (hp : p ≠ "")
    (hn : ∀ c ∈ components p, c ≠ "." ∧ c ≠ "..") :
    ∀ q ∈ visited wd p, isFile (fs q) = false :=
  no_file_of_names hwf (components p) (start wd p) hn (Stat_ENOENT h hp)

/-! ## The function `createDirectory` -/

theorem createDirectory_of_stat {wd : Key} {fs : FS} {p : String}
    (h : Stat wd fs p = Except.ok Node.dir) : createDirectory wd fs p = (none, fs) := by
  simp [createDirectory, h]

theorem createDirectory_of_ENOENT {wd : Key} {fs : FS} {p : String}
    (h : Stat wd fs p = Except.error Errno.ENOENT) :
    createDirectory wd fs p = ((MkdirAll wd fs p).1.map Error.os, (MkdirAll wd fs p).2) := by
  unfold createDirectory
  rw [h]
  simp only [if_true]
  rcases MkdirAll wd fs p with ⟨_ | e, fs1⟩ <;> rfl

theorem createDirectory_frame (wd : Key) (fs : FS) (p : String) (k : Key) :
    (createDirectory wd fs p).2 k = fs k ∨
      (fs k = none ∧ (createDirectory wd fs p).2 k = some Node.dir ∧ k ∈ visited wd p) := by
  cases hs : Stat wd fs p with
  | ok nd =>
    left
    unfold createDirectory
    rw [hs]
    simp only
    split <;> rfl
  | error e =>
    by_cases he : e = Errno.ENOENT
    · subst he
      rw [createDirectory_of_ENOENT hs]
      exact mkdirAllFuel_frame wd _ fs p k
    · left
      simp [createDirectory, hs, he]

theorem createDirectory_ok_stat {wd : Key} {fs : FS} {p : String}
    (h : (createDirectory wd fs p).1 = none) :
    Stat wd (createDirectory wd fs p).2 p = Except.ok Node.dir := by
  cases hs : Stat wd fs p with
  | ok nd =>
    cases nd with
    | file b => simp [createDirectory, hs] at h
    | dir =>
      rw [createDirectory_of_stat hs]
      exact hs
  | error e =>
    by_cases he : e = Errno.ENOENT
    · subst he
      rw [createDirectory_of_ENOENT hs] at h ⊢
      simp only [Option.map_eq_none'] at h
      exact mkdirAllFuel_ok wd _ fs p h
    · simp [createDirectory, hs, he] at h

theorem createDirectory_WF {wd : Key} {fs : FS} {p : String} (hwf : WellFormed fs) :
    WellFormed (createDirectory wd fs p).2 := by
  cases hs : Stat wd fs p with
  | ok nd =>
    unfold createDirectory
    rw [hs]
    simp only
    split <;> exact hwf
  | error e =>
    by_cases he : e = Errno.ENOENT
    · subst he
      rw [createDirectory_of_ENOENT hs]
      exact mkdirAllFuel_WF wd _ fs p hwf
    · simp only [createDirectory, hs, he, if_false]
      exact hwf

/-- What `createDirectory` makes of a path that `os.Stat` reports as missing, when the
path is not empty, its resolution starts in a directory and it passes through no
regular file: every missing location that the path passes through becomes a directory,
and nothing else changes. -/
theorem createDirectory_tree {wd : Key} {fs : FS} {p : String}
    (h : Stat wd fs p = Except.error Errno.ENOENT) (hp : p ≠ "")
    (hstart : fs (start wd p) = some Node.dir)
    (hnf : ∀ q ∈ visited wd p, isFile (fs q) = false) :
    createDirectory wd fs p =
      (none, fun x => if x ∈ visited wd p ∧ fs x = none then some Node.dir else fs x) := by
  rw [createDirectory_of_ENOENT h, MkdirAll,
    mkdirAllFuel_tree wd fs _ p (Nat.lt_succ_self _) hp hstart hnf]
  rfl

/-! ## Go maps -/

theorem assocGet_assocSet_self {α : Type} (m : List (String × α)) (k : String) (v : α) :
    assocGet (assocSet m k v) k = some v := by
  induction m with
  | nil => simp [assocSet, assocGet]
  | cons e m ih =>
    obtain ⟨k1, v1⟩ := e
    by_cases h : k1 = k
    · simp [assocSet, assocGet, h]
    · simp [assocSet, assocGet, h, ih]

theorem assocGet_assocSet_of_ne {α : Type} (m : List (String × α)) {k k1 : String} (v : α)
    (h : k1 ≠ k) : assocGet (assocSet m k v) k1 = assocGet m k1 := by
  induction m with
  | nil => simp [assocSet, assocGet, Ne.symm h]
  | cons e m ih =>
    obtain ⟨k2, v2⟩ := e
    by_cases h2 : k2 = k
    · subst h2
      simp [assocSet, assocGet, Ne.symm h]
    · by_cases h3 : k2 = k1
      · subst h3
        simp [assocSet, assocGet, h2]
      · simp [assocSet, assocGet, h2, h3, ih]


/-! ## The callback of `RunE` -/

/-- The item that the callback appends for a template and a code. -/
theorem visit_ok {wd : Key} {outDir : String} {Pages : List (String × Page)} {t c : String}
    {b : Bytes} {s s1 : State} (h : visit wd outDir Pages t c b s = (none, s1)) :
    ∃ fs1, createDirectory wd s.fs (Join [outDir, t]) = (none, fs1) ∧
      WriteFile wd fs1 (Join [outDir, t, c ++ ".html"]) b = Except.ok s1.fs ∧
      assocGet s1.history t = some ((assocGet s.history t).getD [] ++
        [⟨c, ((assocGet Pages c).map Page.Message).getD "", Join [t, c ++ ".html"]⟩]) ∧
      ∀ t1, t1 ≠ t → assocGet s1.history t1 = assocGet s.history t1 := by
  unfold visit at h
  split at h
  · simp at h
  · rename_i fs1 hd
    refine ⟨fs1, hd, ?_⟩
    simp only at h
    split at h
    · simp at h
    · rename_i fs2 hw
      simp only [Prod.mk.injEq, true_and] at h
      subst h
      refine ⟨hw, ?_, ?_⟩
      · simp only [assocGet_assocSet_self]
        congr 2
        split
        · rename_i hn
          simp only [assocGet_assocSet_self]
          simp only [Option.isNone_iff_eq_none] at hn
          simp [hn]
        · rfl
      · intro t1 ht1
        simp only
        rw [assocGet_assocSet_of_ne _ _ ht1]
        split
        · rw [assocGet_assocSet_of_ne _ _ ht1]
        · rfl

theorem visit_error {wd : Key} {outDir : String} {Pages : List (String × Page)}
    {t c : String} {b : Bytes} {s s1 : State} {e : Error}
    (h : visit wd outDir Pages t c b s = (some e, s1)) :
    s1.history = s.history ∧
      (createDirectory wd s.fs (Join [outDir, t]) = (some e, s1.fs) ∨
        ∃ en, createDirectory wd s.fs (Join [outDir, t]) = (none, s1.fs) ∧
          WriteFile wd s1.fs (Join [outDir, t, c ++ ".html"]) b = Except.error en ∧
          e = Error.os en) := by
  unfold visit at h
  split at h
  · rename_i e1 fs1 hd
    simp only [Prod.mk.injEq, Option.some.injEq] at h
    obtain ⟨rfl, rfl⟩ := h
    exact ⟨rfl, Or.inl hd⟩
  · rename_i fs1 hd
    simp only at h
    split at h
    · rename_i en hw
      simp only [Prod.mk.injEq, Option.some.injEq] at h
      obtain ⟨rfl, rfl⟩ := h
      exact ⟨rfl, Or.inr ⟨en, hd, hw, rfl⟩⟩
    · simp at h

theorem visit_of_fst_none {wd : Key} {outDir : String} {Pages : List (String × Page)}
    {t c : String} {b : Bytes} {s : State} (h : (visit wd outDir Pages t c b s).1 = none) :
    visit wd outDir Pages t c b s = (none, (visit wd outDir Pages t c b s).2) :=
  Prod.ext h rfl

theorem visit_fst_none_iff {wd : Key} {outDir : String} {Pages : List (String × Page)}
    {t c : String} {b : Bytes} {s : State} :
    (visit wd outDir Pages t c b s).1 = none ↔
      (createDirectory wd s.fs (Join [outDir, t])).1 = none ∧
        (WriteFile wd (createDirectory wd s.fs (Join [outDir, t])).2
          (Join [outDir, t, c ++ ".html"]) b).isOk = true := by
  unfold visit
  split
  · rename_i e fs1 hd
    simp [hd]
  · rename_i fs1 hd
    simp only [hd]
    split
    · rename_i en hw
      simp [Except.isOk, Except.toBool, hw]
    · rename_i fs2 hw
      simp [Except.isOk, Except.toBool, hw]

/-- What a visit does to a location other than that of the page, whether it fails or
not: nothing, unless the location was missing and is one that the directory of the
template passes through, which becomes a directory. -/
theorem visit_frame (wd : Key) (outDir : String) (Pages : List (String × Page))
    (t c : String) (b : Bytes) (s : State) (k : Key)
    (hk : (visit wd outDir Pages t c b s).1 = none → k ≠ key wd (Join [outDir, t, c ++ ".html"])) :
    (visit wd outDir Pages t c b s).2.fs k = s.fs k ∨
      (s.fs k = none ∧ (visit wd outDir Pages t c b s).2.fs k = some Node.dir ∧
        k ∈ visited wd (Join [outDir, t])) := by
  have hfr := createDirectory_frame wd s.fs (Join [outDir, t]) k
  rcases hv : visit wd outDir Pages t c b s with ⟨_ | e, s1⟩
  · obtain ⟨fs1, hd, hw, -⟩ := visit_ok hv
    rw [hd] at hfr
    have hne : k ≠ key wd (Join [outDir, t, c ++ ".html"]) := hk (by rw [hv])
    have : s1.fs k = fs1 k := by
      rw [(WriteFile_ok hw).1]
      simp [FS.set, hne]
    simp only
    rw [this]
    exact hfr
  · obtain ⟨-, hcase⟩ := visit_error hv
    rcases hcase with hd | ⟨en, hd, -, -⟩
    · rw [hd] at hfr
      exact hfr
    · rw [hd] at hfr
      exact hfr

/-- C1: when the callback of the build command is invoked with a template `t`, a code
`c` and content `b`, and the creation of the directory and the write both succeed, the
callback returns no error and the file at `path.Join(out, t, c + ".html")` holds
exactly `b` afterwards, whatever that location held before. -/
theorem visit_stores_page (wd : Key) (outDir : String) (Pages : List (String × Page))
    (t c : String) (b : Bytes) (s : State)
    (hdir : (createDirectory wd s.fs (Join [outDir, t])).1 = none)
    (hwrite : (WriteFile wd (createDirectory wd s.fs (Join [outDir, t])).2
      (Join [outDir, t, c ++ ".html"]) b).isOk = true) :
    (visit wd outDir Pages t c b s).1 = none ∧
      (visit wd outDir Pages t c b s).2.fs (key wd (Join [outDir, t, c ++ ".html"])) =
        some (Node.file b) ∧
      Stat wd (visit wd outDir Pages t c b s).2.fs (Join [outDir, t, c ++ ".html"]) =
        Except.ok (Node.file b) := by
  have h1 : (visit wd outDir Pages t c b s).1 = none := visit_fst_none_iff.2 ⟨hdir, hwrite⟩
  obtain ⟨fs1, -, hw, -⟩ := visit_ok (visit_of_fst_none h1)
  refine ⟨h1, ?_, Stat_WriteFile hw⟩
  rw [(WriteFile_ok hw).1]
  simp [FS.set]

/-- C4, as amended: a page saved for a template `t` and a code `c` appends exactly one
item to the bucket of `t` in the history, with the code `c`, the message that
`cfg.Pages` holds for `c` and the path `path.Join(t, c + ".html")`; the items that the
bucket held stay in front of it, and every other bucket is left as it was. The path is
`t/<c>.html` when `t` is a single path name element (not empty, without slash, neither
`.` nor `..`) and `c` has no slash. -/
theorem visit_appends_history_item (wd : Key) (outDir : String)
    (Pages : List (String × Page)) (t c : String) (b : Bytes) (s : State)
    (hsaved : (visit wd outDir Pages t c b s).1 = none) :
    assocGet (visit wd outDir Pages t c b s).2.history t =
        some ((assocGet s.history t).getD [] ++
          [{ Code := c
             Message := ((assocGet Pages c).map Page.Message).getD ""
             Path := Join [t, c ++ ".html"] }]) ∧
      (∀ t1, t1 ≠ t →
        assocGet (visit wd outDir Pages t c b s).2.history t1 = assocGet s.history t1) ∧
      (Plain t → '/' ∉ c.data → Join [t, c ++ ".html"] = t ++ "/" ++ c ++ ".html") := by
  obtain ⟨fs1, -, -, h1, h2⟩ := visit_ok (visit_of_fst_none hsaved)
  refine ⟨h1, h2, ?_⟩
  intro ht hc
  rw [Join_pair ht (fileName_plain c hc), String.append_assoc, String.append_assoc,
    String.append_assoc]

/-- Witness of C1: the page of the code `404` for the template `plain` is saved under `out`
on a disk that holds the working directory only. -/
theorem visit_stores_page_witness :
    (visit sampleWd "out" samplePages "plain" "404" [52, 48, 52] ⟨emptyDisk, []⟩).1 = none ∧
      (visit sampleWd "out" samplePages "plain" "404" [52, 48, 52] ⟨emptyDisk, []⟩).2.fs
          ["work", "out", "plain", "404.html"] = some (Node.file [52, 48, 52]) :=
  ⟨(visit_stores_page sampleWd "out" samplePages "plain" "404" [52, 48, 52] ⟨emptyDisk, []⟩
      (by decide) (by decide)).1,
    (visit_stores_page sampleWd "out" samplePages "plain" "404" [52, 48, 52] ⟨emptyDisk, []⟩
      (by decide) (by decide)).2.1⟩

/-- Witness of C4 as amended: the item of the code `404` is appended after the item of the
code `500` in the bucket of `plain`, and its path is `plain/404.html`. -/
theorem visit_appends_history_item_witness :
    assocGet (visit sampleWd "out" samplePages "plain" "404" [1] ⟨emptyDisk,
        [("plain", [⟨"500", "Server Error", "plain/500.html"⟩])]⟩).2.history "plain" =
      some [⟨"500", "Server Error", "plain/500.html"⟩,
        ⟨"404", "Not Found", "plain/404.html"⟩] ∧
      Join ["plain", "404" ++ ".html"] = "plain" ++ "/" ++ "404" ++ ".html" :=
  ⟨(visit_appends_history_item sampleWd "out" samplePages "plain" "404" [1] ⟨emptyDisk,
      [("plain", [⟨"500", "Server Error", "plain/500.html"⟩])]⟩ (by decide)).1,
    (visit_appends_history_item sampleWd "out" samplePages "plain" "404" [1] ⟨emptyDisk,
      [("plain", [⟨"500", "Server Error", "plain/500.html"⟩])]⟩ (by decide)).2.2
      (by decide) (by decide)⟩

/-- C4 fails as stated: the pages of the code `index` for the templates `.` and the
empty name, and of the code `404` for the template `a//b`, are saved, and the paths of
their items are `index.html`, `index.html` and `a/b/404.html`, not `./index.html`,
`/index.html` and `a//b/404.html`. -/
theorem history_path_is_cleaned :
    (visit sampleWd "out" [("index", ⟨"Home", ""⟩)] "." "index" [1] ⟨emptyDisk, []⟩).1 = none ∧
      assocGet (visit sampleWd "out" [("index", ⟨"Home", ""⟩)] "." "index" [1]
          ⟨emptyDisk, []⟩).2.history "." = some [⟨"index", "Home", "index.html"⟩] ∧
      "index.html" ≠ "." ++ "/" ++ "index" ++ ".html" ∧
      (visit sampleWd "out" [("index", ⟨"Home", ""⟩)] "" "index" [1] ⟨emptyDisk, []⟩).1 = none ∧
      assocGet (visit sampleWd "out" [("index", ⟨"Home", ""⟩)] "" "index" [1]
          ⟨emptyDisk, []⟩).2.history "" = some [⟨"index", "Home", "index.html"⟩] ∧
      "index.html" ≠ "" ++ "/" ++ "index" ++ ".html" ∧
      (visit sampleWd "out" samplePages "a//b" "404" [1] ⟨emptyDisk, []⟩).1 = none ∧
      assocGet (visit sampleWd "out" samplePages "a//b" "404" [1]
          ⟨emptyDisk, []⟩).2.history "a//b" = some [⟨"404", "Not Found", "a/b/404.html"⟩] ∧
      "a/b/404.html" ≠ "a//b" ++ "/" ++ "404" ++ ".html" :=
  ⟨by decide, by decide, by decide, by decide, by decide, by decide, by decide, by decide,
    by decide⟩

/-! ## The registry that `RunE` fills -/

theorem foldl_AddPage_templates (Pages : List (String × Page)) (ep : ErrorPages) :
    (Pages.foldl (fun ep p => AddPage ep p.1 p.2.Message p.2.Description) ep).templates =
      ep.templates := by
  induction Pages generalizing ep with
  | nil => rfl
  | cons p Pages ih =>
    rw [List.foldl_cons, ih]
    rfl

theorem foldl_AddPage_pages (Pages : List (String × Page)) (ep : ErrorPages) :
    (Pages.foldl (fun ep p => AddPage ep p.1 p.2.Message p.2.Description) ep).pages =
      Pages.foldl (fun m p => assocSet m p.1 p.2) ep.pages := by
  induction Pages generalizing ep with
  | nil => rfl
  | cons p Pages ih =>
    rw [List.foldl_cons, ih]
    rfl

theorem foldl_AddTemplate_pages (E : Engine) (templates : List (String × Bytes))
    (ep : ErrorPages) :
    (templates.foldl (fun ep t =>
      match AddTemplate E ep t.1 t.2 with
      | Except.ok ep1 => ep1
      | Except.error _ => ep) ep).pages = ep.pages := by
  induction templates generalizing ep with
  | nil => rfl
  | cons t templates ih =>
    rw [List.foldl_cons, ih]
    unfold AddTemplate
    cases E.parse t.2 <;> rfl

theorem foldl_AddTemplate_templates (E : Engine) (templates : List (String × Bytes))
    (ep : ErrorPages) :
    (templates.foldl (fun ep t =>
      match AddTemplate E ep t.1 t.2 with
      | Except.ok ep1 => ep1
      | Except.error _ => ep) ep).templates =
      templates.foldl (fun m t =>
        match E.parse t.2 with
        | none => m
        | some r => assocSet m t.1 r) ep.templates := by
  induction templates generalizing ep with
  | nil => rfl
  | cons t templates ih =>
    rw [List.foldl_cons, List.foldl_cons, ih]
    unfold AddTemplate
    cases E.parse t.2 <;> rfl

theorem loadErrorPages_templates (E : Engine) (templates : List (String × Bytes))
    (Pages : List (String × Page)) :
    (loadErrorPages E templates Pages).templates =
      templates.foldl (fun m t =>
        match E.parse t.2 with
        | none => m
        | some r => assocSet m t.1 r) [] := by
  simp only [loadErrorPages, foldl_AddPage_templates, foldl_AddTemplate_templates,
    NewErrorPages]

theorem loadErrorPages_pages (E : Engine) (templates : List (String × Bytes))
    (Pages : List (String × Page)) :
    (loadErrorPages E templates Pages).pages =
      Pages.foldl (fun m p => assocSet m p.1 p.2) [] := by
  simp only [loadErrorPages, foldl_AddPage_pages, foldl_AddTemplate_pages, NewErrorPages]

theorem assocSet_of_not_mem {α : Type} (m : List (String × α)) (k : String) (v : α)
    (h : k ∉ m.map Prod.fst) : assocSet m k v = m ++ [(k, v)] := by
  induction m with
  | nil => rfl
  | cons e m ih =>
    obtain ⟨k1, v1⟩ := e
    simp only [List.map_cons, List.mem_cons, not_or] at h
    simp [assocSet, Ne.symm h.1, ih h.2]

theorem foldl_assocSet_nodup {α : Type} (l m : List (String × α))
    (h : ((m ++ l).map Prod.fst).Nodup) :
    l.foldl (fun m p => assocSet m p.1 p.2) m = m ++ l := by
  induction l generalizing m with
  | nil => simp
  | cons e l ih =>
    have h1 : e.1 ∉ m.map Prod.fst := by
      simp only [List.map_append, List.map_cons] at h
      have := (List.nodup_append.1 h).2.2
      intro hm
      exact this hm (List.mem_cons_self _ _) 
    simp only [List.foldl_cons, assocSet_of_not_mem m e.1 e.2 h1]
    rw [ih]
    · simp
    · simpa using h

theorem loadErrorPages_pages_nodup (E : Engine) (templates : List (String × Bytes))
    (Pages : List (String × Page)) (h : (Pages.map Prod.fst).Nodup) :
    (loadErrorPages E templates Pages).pages = Pages := by
  rw [loadErrorPages_pages, foldl_assocSet_nodup]
  · rfl
  · simpa using h

/-- C9: when `cfg.LoadTemplates()` returns no template, the build returns the error
"no loaded templates" and leaves the file system as it was, so that no directory, page
or index is created, and `IteratePages` on the registry without templates returns its
error without a visit; the pages of the catalog play no role. -/
theorem run_without_templates (wd : Key) (E : Engine) (Pages : List (String × Page))
    (generateIndex : Bool) (outDir : String) (fs : FS) (s : State) :
    RunE wd E ⟨Except.ok [], Pages⟩ generateIndex [outDir] fs =
        (some (Error.new "no loaded templates"), fs) ∧
      IteratePages (loadErrorPages E [] Pages) (visit wd outDir Pages) s =
        (some Error.noTemplates, s) := by
  constructor
  · simp [RunE]
  · simp [IteratePages, loadErrorPages_templates]

/-! ## `createDirectory` on a tree -/

theorem root_dir {wd : Key} {fs : FS} (hwf : WellFormed fs) (hwd : fs wd = some Node.dir)
    (p : String) : fs (start wd p) = some Node.dir := by
  unfold start
  split
  · by_cases h : wd = []
    · rw [← h]
      exact hwd
    · exact hwf wd [] (by simp [hwd]) List.nil_prefix (Ne.symm h)
  · exact hwd

theorem RunE_of_createDirectory_error (wd : Key) (E : Engine) (cfg : Config)
    (generateIndex : Bool) (fs : FS) (p : String) {e : Error}
    (h : (createDirectory wd fs p).1 = some e) :
    (RunE wd E cfg generateIndex [p] fs).1 ≠ none ∧
      ((RunE wd E cfg generateIndex [p] fs).2 = fs ∨
        (RunE wd E cfg generateIndex [p] fs).2 = (createDirectory wd fs p).2) ∧
      ∀ templates, cfg.LoadTemplates = Except.ok templates → templates ≠ [] →
        RunE wd E cfg generateIndex [p] fs =
          (some (Error.wrap e "cannot prepare output directory"),
            (createDirectory wd fs p).2) := by
  have h1 : createDirectory wd fs p = (some e, (createDirectory wd fs p).2) := Prod.ext h rfl
  generalize (createDirectory wd fs p).2 = F at h1
  unfold RunE
  simp only
  cases hl : cfg.LoadTemplates with
  | error err => simp
  | ok templates =>
    by_cases hlen : templates.length > 0
    · simp only [hlen, if_true, h1]
      refine ⟨by simp, Or.inr trivial, ?_⟩
      intro t ht _
      trivial
    · simp only [hlen, if_false]
      refine ⟨by simp, Or.inl trivial, ?_⟩
      intro t ht hne
      simp only [Except.ok.injEq] at ht
      subst ht
      exact absurd (List.length_pos.2 hne) hlen

/-- C7, as amended: on a file system tree that holds the working directory,
`createDirectory(p)` returns no error and changes nothing when `os.Stat` finds a
directory; it returns "is not a directory" and changes nothing when `os.Stat` finds a
regular file; it returns any error of `os.Stat` other than "does not exist" as it is,
with nothing changed; and when `os.Stat` reports that `p` does not exist it returns
what `os.MkdirAll` returns, which is no error when `p` is not empty and passes through
no regular file, as is the case of a path of names only: then every location that `p`
passes through is a directory afterwards, `p` and the missing directories above it
included, and every other location, and every one that held something, is as it was.
In every case `p` is a directory once no error is returned, a location changes only by
becoming a directory when it was missing and `p` passes through it, and the file
system stays a tree. The build applies `createDirectory` to the output directory
first: when it fails there, the build returns an error, which wraps that error once
templates are loaded, and leaves the file system as it was or as `createDirectory`
left it, so that no page and no index is written. -/
theorem createDirectory_spec (wd : Key) (E : Engine) (cfg : Config) (generateIndex : Bool)
    (fs : FS) (p : String) (htree : WellFormed fs) (hwd : fs wd = some Node.dir) :
    (Stat wd fs p = Except.ok Node.dir → createDirectory wd fs p = (none, fs)) ∧
      (∀ content, Stat wd fs p = Except.ok (Node.file content) →
        createDirectory wd fs p = (some (Error.new "is not a directory"), fs)) ∧
      (∀ en, Stat wd fs p = Except.error en → en ≠ Errno.ENOENT →
        createDirectory wd fs p = (some (Error.os en), fs)) ∧
      (Stat wd fs p = Except.error Errno.ENOENT →
        createDirectory wd fs p =
            ((MkdirAll wd fs p).1.map Error.os, (MkdirAll wd fs p).2) ∧
          (p ≠ "" → (∀ c ∈ components p, c ≠ "." ∧ c ≠ "..") →
            ∀ q ∈ visited wd p, isFile (fs q) = false) ∧
          (p ≠ "" → (∀ q ∈ visited wd p, isFile (fs q) = false) →
            (createDirectory wd fs p).1 = none ∧
              (∀ q ∈ visited wd p, (createDirectory wd fs p).2 q = some Node.dir) ∧
              ∀ q, fs q ≠ none ∨ q ∉ visited wd p → (createDirectory wd fs p).2 q = fs q)) ∧
      ((createDirectory wd fs p).1 = none →
        Stat wd (createDirectory wd fs p).2 p = Except.ok Node.dir) ∧
      (∀ q, (createDirectory wd fs p).2 q = fs q ∨
        (fs q = none ∧ (createDirectory wd fs p).2 q = some Node.dir ∧ q ∈ visited wd p)) ∧
      WellFormed (createDirectory wd fs p).2 ∧
      ∀ e, (createDirectory wd fs p).1 = some e →
        (RunE wd E cfg generateIndex [p] fs).1 ≠ none ∧
          ((RunE wd E cfg generateIndex [p] fs).2 = fs ∨
            (RunE wd E cfg generateIndex [p] fs).2 = (createDirectory wd fs p).2) ∧
          ∀ templates, cfg.LoadTemplates = Except.ok templates → templates ≠ [] →
            RunE wd E cfg generateIndex [p] fs =
              (some (Error.wrap e "cannot prepare output directory"),
                (createDirectory wd fs p).2) := by
  refine ⟨createDirectory_of_stat, ?_, ?_, ?_, createDirectory_ok_stat,
    createDirectory_frame wd fs p, createDirectory_WF htree, ?_⟩
  · intro content h
    simp [createDirectory, h]
  · intro en h hne
    simp [createDirectory, h, hne]
  · intro h
    refine ⟨createDirectory_of_ENOENT h, fun hp hn => no_file_of_ENOENT htree h hp hn, ?_⟩
    intro hp hnf
    have hc := createDirectory_tree h hp (root_dir htree hwd p) hnf
    refine ⟨by rw [hc], ?_, ?_⟩
    · intro q hq
      rw [hc]
      simp only
      cases hfq : fs q with
      | none => simp [hq]
      | some nd =>
        cases nd with
        | file b =>
          have := hnf q hq
          simp [hfq, isFile] at this
        | dir => simp
    · intro q hq
      rw [hc]
      simp only
      split
      · rename_i hh
        rcases hq with hq | hq
        · exact absurd hh.2 hq
        · exact absurd hh.1 hq
      · rfl
  · intro e he
    exact RunE_of_createDirectory_error wd E cfg generateIndex fs p he

theorem emptyDisk_wellFormed : WellFormed emptyDisk := by
  intro k q hk hq hne
  have hk1 : k = [] ∨ k = ["work"] := by
    by_contra h
    simp only [not_or] at h
    simp [emptyDisk, h.1, h.2] at hk
  rcases hk1 with rfl | rfl
  · exact absurd (List.prefix_nil.1 hq) hne
  · have : ∀ q ∈ (["work"] : Key).inits, q ≠ ["work"] → emptyDisk q = some Node.dir := by
      decide
    exact this q ((List.mem_inits _ _).2 hq) hne

theorem plainFileDisk_wellFormed : WellFormed plainFileDisk := by
  intro k q hk hq hne
  have hk1 : k = [] ∨ k = ["work"] ∨ k = ["work", "out"] ∨ k = ["work", "out", "plain"] := by
    by_contra h
    simp only [not_or] at h
    simp [plainFileDisk, h.1, h.2.1, h.2.2.1, h.2.2.2] at hk
  rcases hk1 with rfl | rfl | rfl | rfl
  · exact absurd (List.prefix_nil.1 hq) hne
  · have : ∀ q ∈ (["work"] : Key).inits, q ≠ ["work"] → plainFileDisk q = some Node.dir := by
      decide
    exact this q ((List.mem_inits _ _).2 hq) hne
  · have : ∀ q ∈ (["work", "out"] : Key).inits, q ≠ ["work", "out"] →
        plainFileDisk q = some Node.dir := by
      decide
    exact this q ((List.mem_inits _ _).2 hq) hne
  · have : ∀ q ∈ (["work", "out", "plain"] : Key).inits, q ≠ ["work", "out", "plain"] →
        plainFileDisk q = some Node.dir := by
      decide
    exact this q ((List.mem_inits _ _).2 hq) hne

/-- Witness of C7 as amended: on a disk that holds the root and the working directory only,
`out/pages` is missing and is created together with `out`, and nothing else changes. -/
theorem createDirectory_spec_witness :
    WellFormed emptyDisk ∧ emptyDisk sampleWd = some Node.dir ∧
      Stat sampleWd emptyDisk "out/pages" = Except.error Errno.ENOENT ∧
      (createDirectory sampleWd emptyDisk "out/pages").1 = none ∧
      (createDirectory sampleWd emptyDisk "out/pages").2 ["work", "out"] = some Node.dir ∧
      (createDirectory sampleWd emptyDisk "out/pages").2 ["work", "out", "pages"] =
        some Node.dir ∧
      (createDirectory sampleWd emptyDisk "out/pages").2 ["work", "other"] =
        emptyDisk ["work", "other"] :=
  ⟨emptyDisk_wellFormed, rfl, rfl,
    (((createDirectory_spec sampleWd sampleEngine sampleConfig true emptyDisk "out/pages"
      emptyDisk_wellFormed rfl).2.2.2.1 rfl).2.2 (by decide) (by decide)).1,
    (((createDirectory_spec sampleWd sampleEngine sampleConfig true emptyDisk "out/pages"
      emptyDisk_wellFormed rfl).2.2.2.1 rfl).2.2 (by decide) (by decide)).2.1
        ["work", "out"] (by decide),
    (((createDirectory_spec sampleWd sampleEngine sampleConfig true emptyDisk "out/pages"
      emptyDisk_wellFormed rfl).2.2.2.1 rfl).2.2 (by decide) (by decide)).2.1
        ["work", "out", "pages"] (by decide),
    (((createDirectory_spec sampleWd sampleEngine sampleConfig true emptyDisk "out/pages"
      emptyDisk_wellFormed rfl).2.2.2.1 rfl).2.2 (by decide) (by decide)).2.2
        ["work", "other"] (Or.inr (by decide))⟩

/-- C7 fails as stated. With `out/plain` a regular file, the path `out/plain/sub` does
not exist, and `createDirectory` returns the error of `os.Stat`, "not a directory",
and creates nothing; and the empty path does not exist either, and `createDirectory`
returns the error "no such file or directory" of `os.MkdirAll` and creates nothing. -/
theorem missing_path_not_created :
    WellFormed plainFileDisk ∧
      plainFileDisk (key sampleWd "out/plain/sub") = none ∧
      Stat sampleWd plainFileDisk "out/plain/sub" = Except.error Errno.ENOTDIR ∧
      (createDirectory sampleWd plainFileDisk "out/plain/sub").1 =
        some (Error.os Errno.ENOTDIR) ∧
      (createDirectory sampleWd plainFileDisk "out/plain/sub").2
        (key sampleWd "out/plain/sub") = none ∧
      Stat sampleWd plainFileDisk "" = Except.error Errno.ENOENT ∧
      (createDirectory sampleWd plainFileDisk "").1 = some (Error.os Errno.ENOENT) ∧
      (createDirectory sampleWd plainFileDisk "").2 (key sampleWd "") =
        plainFileDisk (key sampleWd "") :=
  ⟨plainFileDisk_wellFormed, by decide, rfl, by decide, by decide, rfl, by decide, by decide⟩

/-! ## The iteration over the pages -/

theorem iteratePagesOf_append {σ : Type} (name : String) (r : Renderer)
    (v : String → String → Bytes → σ → Option Error × σ) (P1 P2 : List (String × Page))
    (s : σ) :
    iteratePagesOf name r v (P1 ++ P2) s =
      match iteratePagesOf name r v P1 s with
      | (some e, s1) => (some e, s1)
      | (none, s1) => iteratePagesOf name r v P2 s1 := by
  induction P1 generalizing s with
  | nil => rfl
  | cons p P1 ih =>
    obtain ⟨code, pg⟩ := p
    simp only [List.cons_append, iteratePagesOf]
    cases r code pg.Message pg.Description with
    | error cause => rfl
    | ok content =>
      simp only
      rcases hv : v name code content s with ⟨_ | e, s1⟩
      · exact ih s1
      · rfl

theorem iterateTemplates_append {σ : Type} (pages : List (String × Page))
    (v : String → String → Bytes → σ → Option Error × σ) (T1 T2 : List (String × Renderer))
    (s : σ) :
    iterateTemplates pages v (T1 ++ T2) s =
      match iterateTemplates pages v T1 s with
      | (some e, s1) => (some e, s1)
      | (none, s1) => iterateTemplates pages v T2 s1 := by
  induction T1 generalizing s with
  | nil => rfl
  | cons t T1 ih =>
    obtain ⟨name, r⟩ := t
    simp only [List.cons_append, iterateTemplates]
    rcases hv : iteratePagesOf name r v pages s with ⟨_ | e, s1⟩
    · exact ih s1
    · rfl

theorem iterate_stops_at_failure {σ : Type} (v : String → String → Bytes → σ → Option Error × σ)
    (T1 T2 : List (String × Renderer)) (P1 P2 : List (String × Page)) (t : String)
    (r : Renderer) (c : String) (pg : Page) (content : Bytes) (s0 s1 s2 s3 : σ) (e : Error)
    (hT1 : iterateTemplates (P1 ++ (c, pg) :: P2) v T1 s0 = (none, s1))
    (hP1 : iteratePagesOf t r v P1 s1 = (none, s2))
    (hr : r c pg.Message pg.Description = Except.ok content)
    (hv : v t c content s2 = (some e, s3)) :
    iterateTemplates (P1 ++ (c, pg) :: P2) v (T1 ++ (t, r) :: T2) s0 = (some e, s3) := by
  rw [iterateTemplates_append, hT1]
  simp only [iterateTemplates]
  rw [iteratePagesOf_append, hP1]
  simp only [iteratePagesOf, hr, hv]


/-- C6: when the creation of the template directory or the write of the page fails
for a visited template and code, after the templates `T1` and the pages `P1` of the
template were saved, the callback returns that error and leaves the history as it
was; the build returns the error, whatever `generateIndex` is, and leaves the file
system as the failing callback left it, so that no index is written and nothing is
cleaned up: every location holds what it held before the failing visit, except for
missing locations that became directories. -/
theorem fail_fast (wd : Key) (E : Engine) (cfg : Config) (generateIndex : Bool) (outDir : String)
    (fs fs1 : FS) (templates : List (String × Bytes)) (T1 T2 : List (String × Renderer))
    (P1 P2 : List (String × Page)) (t : String) (r : Renderer) (c : String) (pg : Page)
    (content : Bytes) (s1 s2 : State)
    (hload : cfg.LoadTemplates = Except.ok templates)
    (hout : createDirectory wd fs outDir = (none, fs1))
    (hT : (loadErrorPages E templates cfg.Pages).templates = T1 ++ (t, r) :: T2)
    (hP : (loadErrorPages E templates cfg.Pages).pages = P1 ++ (c, pg) :: P2)
    (hT1 : iterateTemplates (P1 ++ (c, pg) :: P2) (visit wd outDir cfg.Pages) T1 ⟨fs1, []⟩ =
      (none, s1))
    (hP1 : iteratePagesOf t r (visit wd outDir cfg.Pages) P1 s1 = (none, s2))
    (hrender : r c pg.Message pg.Description = Except.ok content)
    (hfail : (visit wd outDir cfg.Pages t c content s2).1 ≠ none) :
    ((visit wd outDir cfg.Pages t c content s2).1 =
          (createDirectory wd s2.fs (Join [outDir, t])).1 ∨
        ∃ en, WriteFile wd (createDirectory wd s2.fs (Join [outDir, t])).2
            (Join [outDir, t, c ++ ".html"]) content = Except.error en ∧
          (visit wd outDir cfg.Pages t c content s2).1 = some (Error.os en)) ∧
      (visit wd outDir cfg.Pages t c content s2).2.history = s2.history ∧
      RunE wd E cfg generateIndex [outDir] fs =
        ((visit wd outDir cfg.Pages t c content s2).1,
          (visit wd outDir cfg.Pages t c content s2).2.fs) ∧
      ∀ k, (visit wd outDir cfg.Pages t c content s2).2.fs k = s2.fs k ∨
        (s2.fs k = none ∧ (visit wd outDir cfg.Pages t c content s2).2.fs k = some Node.dir) := by
  obtain ⟨e, he⟩ := Option.ne_none_iff_exists'.1 hfail
  have hv : visit wd outDir cfg.Pages t c content s2 =
      (some e, (visit wd outDir cfg.Pages t c content s2).2) := Prod.ext he rfl
  obtain ⟨hh, hcase⟩ := visit_error hv
  have hlen : templates.length > 0 := by
    rcases templates with _ | ⟨x, l⟩
    · rw [loadErrorPages_templates] at hT
      simp at hT
    · simp
  refine ⟨?_, hh, ?_, ?_⟩
  · rcases hcase with hd | ⟨en, hd, hw, hen⟩
    · left
      rw [he, hd]
    · right
      refine ⟨en, ?_, ?_⟩
      · rw [hd]
        exact hw
      · rw [he, hen]
  · have hit := iterate_stops_at_failure (visit wd outDir cfg.Pages) T1 T2 P1 P2 t r c pg
      content ⟨fs1, []⟩ s1 s2 _ e hT1 hP1 hrender hv
    have hsave : savePages wd E cfg templates outDir fs1 =
        (some e, (visit wd outDir cfg.Pages t c content s2).2) := by
      unfold savePages IteratePages
      rw [hT, hP]
      simp only [List.length_append, List.length_cons]
      rw [if_neg (by omega)]
      exact hit
    unfold RunE
    simp only [hload, hlen, if_true, hout, hsave, he]
  · intro k
    rcases visit_frame wd outDir cfg.Pages t c content s2 k (fun h => absurd h hfail) with
      h | ⟨h1, h2, -⟩
    · exact Or.inl h
    · exact Or.inr ⟨h1, h2⟩

/-- Witness of C6: with `out/plain` a regular file the build stops at the template `plain`
with "is not a directory"; the pages of `a` stay on disk and no index is written. -/
theorem fail_fast_witness :
    (RunE sampleWd sampleEngine twoTemplatesConfig true ["out"] plainFileDisk).1 =
        some (Error.new "is not a directory") ∧
      (RunE sampleWd sampleEngine twoTemplatesConfig true ["out"] plainFileDisk).2
        ["work", "out", "a", "404.html"] = some (Node.file ([1] ++ bytesOf "404 Not Found")) ∧
      (RunE sampleWd sampleEngine twoTemplatesConfig true ["out"] plainFileDisk).2
        ["work", "out", "index.html"] = none := by
  have h := (fail_fast sampleWd sampleEngine twoTemplatesConfig true "out" plainFileDisk
    plainFileDisk [("a", [1]), ("plain", [2])] [("a", sampleRenderer [1])] [] [] (samplePages.drop 1)
    "plain" (sampleRenderer [2]) "500" ⟨"Server Error", ""⟩ ([2] ++ bytesOf "500 Server Error")
    (iterateTemplates samplePages (visit sampleWd "out" samplePages) [("a", sampleRenderer [1])]
      ⟨plainFileDisk, []⟩).2
    (iterateTemplates samplePages (visit sampleWd "out" samplePages) [("a", sampleRenderer [1])]
      ⟨plainFileDisk, []⟩).2
    rfl (Prod.ext (by decide) rfl) rfl rfl (Prod.ext (by decide) rfl) rfl rfl
    (by decide)).2.2.1
  rw [h]
  decide

/-! ## The order of strings and `sort.Slice` -/

theorem lessChars_asymm (a : List Char) :
    ∀ b, lessChars a b = true → lessChars b a = false := by
  induction a with
  | nil =>
    intro b h
    cases b <;> simp [lessChars] at h ⊢
  | cons x a ih =>
    intro b h
    cases b with
    | nil => simp [lessChars] at h
    | cons y b =>
      simp only [lessChars] at h ⊢
      by_cases h1 : x.toNat < y.toNat
      · have h2 : ¬ y.toNat < x.toNat := by omega
        simp [h1, h2]
      · by_cases h2 : y.toNat < x.toNat
        · simp [h1, h2] at h
        · simp only [h1, h2, if_false] at h ⊢
          exact ih b h

theorem lessChars_negtrans (a : List Char) :
    ∀ b c, lessChars a c = true → lessChars a b = true ∨ lessChars b c = true := by
  induction a with
  | nil =>
    intro b c h
    cases c with
    | nil => simp [lessChars] at h
    | cons z c =>
      cases b with
      | nil => right; simp [lessChars]
      | cons y b => left; simp [lessChars]
  | cons x a ih =>
    intro b c h
    cases c with
    | nil => simp [lessChars] at h
    | cons z c =>
      cases b with
      | nil => right; simp [lessChars]
      | cons y b =>
        simp only [lessChars] at h ⊢
        by_cases h1 : x.toNat < y.toNat
        · simp [h1]
        · by_cases h2 : y.toNat < z.toNat
          · simp [h2]
          · by_cases h3 : x.toNat < z.toNat
            · omega
            · by_cases h4 : z.toNat < x.toNat
              · simp [h3, h4] at h
              · have h5 : ¬ y.toNat < x.toNat := by omega
                have h6 : ¬ z.toNat < y.toNat := by omega
                simp only [h1, h2, h3, h4, h5, h6, if_false] at h ⊢
                exact ih b c h

theorem strLess_total (a b : String) : strLess b a = false ∨ strLess a b = false := by
  cases h : strLess b a with
  | false => exact Or.inl rfl
  | true => exact Or.inr (lessChars_asymm _ _ h)

theorem strLess_trans {a b c : String} (h1 : strLess b a = false) (h2 : strLess c b = false) :
    strLess c a = false := by
  cases h : strLess c a with
  | false => rfl
  | true =>
    rcases lessChars_negtrans _ b.data _ h with h3 | h3
    · exact absurd h3 (by simpa [strLess] using h2)
    · exact absurd h3 (by simpa [strLess] using h1)

theorem sortSlice_sorted {α : Type} (f : α → String) (l : List α) :
    (sortSlice (fun a b => strLess (f a) (f b)) l).Sorted
      fun a b => strLess (f b) (f a) = false := by
  haveI : IsTotal α fun a b => strLess (f b) (f a) = false := ⟨fun a b => strLess_total _ _⟩
  haveI : IsTrans α fun a b => strLess (f b) (f a) = false :=
    ⟨fun a b c h1 h2 => strLess_trans h1 h2⟩
  exact List.sorted_insertionSort _ l

theorem sortSlice_perm {α : Type} (less : α → α → Bool) (l : List α) :
    (sortSlice less l).Perm l :=
  List.perm_insertionSort _ l

theorem sortHistory_buckets (h : History) :
    List.Forall₂ (fun e e1 => e1.1 = e.1 ∧
      e1.2.Sorted (fun a b => strLess b.Code a.Code = false) ∧ e1.2.Perm e.2)
      h (sortHistory h) := by
  induction h with
  | nil => exact List.Forall₂.nil
  | cons e h ih =>
    exact List.Forall₂.cons ⟨rfl, sortSlice_sorted historyItem.Code e.2, sortSlice_perm _ e.2⟩ ih

/-- C2: when `generateIndex` is true and all pages were saved, the build hands to
`writeIndexFile` the history with every bucket sorted: bucket by bucket it has the
same template name, its items are in ascending order of their codes under the
lexicographic comparison of strings, and they are the items that the bucket held
before the sort, in another order. -/
theorem index_buckets_sorted (wd : Key) (E : Engine) (cfg : Config) (outDir : String) (fs fs1 : FS)
    (templates : List (String × Bytes)) (s : State)
    (hload : cfg.LoadTemplates = Except.ok templates) (hsome : templates ≠ [])
    (hout : createDirectory wd fs outDir = (none, fs1))
    (hsaved : savePages wd E cfg templates outDir fs1 = (none, s)) :
    RunE wd E cfg true [outDir] fs =
        writeIndexFile wd E s.fs (Join [outDir, "index.html"]) (sortHistory s.history) ∧
      List.Forall₂ (fun e e1 => e1.1 = e.1 ∧
        e1.2.Sorted (fun a b => strLess b.Code a.Code = false) ∧ e1.2.Perm e.2)
        s.history (sortHistory s.history) := by
  refine ⟨?_, sortHistory_buckets s.history⟩
  have hlen : templates.length > 0 := List.length_pos.2 hsome
  unfold RunE
  simp only [hload, hlen, if_true, hout, hsaved]

/-- Witness of C2: the items of the codes `500`, `404` and `1000` are handed to the index in
the order `1000`, `404`, `500`, which is lexicographic and not numeric. -/
theorem index_buckets_sorted_witness :
    (savePages sampleWd sampleEngine sampleConfig [("plain", [])] "out"
        (createDirectory sampleWd emptyDisk "out").2).2.history =
      [("plain", [⟨"500", "Server Error", "plain/500.html"⟩,
        ⟨"404", "Not Found", "plain/404.html"⟩, ⟨"1000", "Custom", "plain/1000.html"⟩])] ∧
    sortHistory (savePages sampleWd sampleEngine sampleConfig [("plain", [])] "out"
        (createDirectory sampleWd emptyDisk "out").2).2.history =
      [("plain", [⟨"1000", "Custom", "plain/1000.html"⟩,
        ⟨"404", "Not Found", "plain/404.html"⟩, ⟨"500", "Server Error", "plain/500.html"⟩])] ∧
    List.Forall₂ (fun e e1 => e1.1 = e.1 ∧
        e1.2.Sorted (fun a b => strLess b.Code a.Code = false) ∧ e1.2.Perm e.2)
      (savePages sampleWd sampleEngine sampleConfig [("plain", [])] "out"
        (createDirectory sampleWd emptyDisk "out").2).2.history
      (sortHistory (savePages sampleWd sampleEngine sampleConfig [("plain", [])] "out"
        (createDirectory sampleWd emptyDisk "out").2).2.history) :=
  ⟨by decide, by decide,
    (index_buckets_sorted sampleWd sampleEngine sampleConfig "out" emptyDisk
      (createDirectory sampleWd emptyDisk "out").2 [("plain", [])]
      (savePages sampleWd sampleEngine sampleConfig [("plain", [])] "out"
        (createDirectory sampleWd emptyDisk "out").2).2
      rfl (by decide) (Prod.ext (by decide) rfl) (Prod.ext (by decide) rfl)).2⟩

/-- C10: for a template name `t` that is a single path name element (not empty,
without slash, neither `.` nor `..`) and a code `c` without slash, the path of the
history item, `path.Join(t, c + ".html")`, is `t + "/" + c + ".html"`, and joined to
any output directory it is the path that the page is written to,
`path.Join(out, t, c + ".html")`; so after a successful visit the item is the last of
the bucket of `t` and its link names the file that holds the page. -/
theorem index_link_resolves (wd : Key) (outDir : String) (Pages : List (String × Page))
    (t c : String) (b : Bytes) (s : State) (ht : Plain t) (hc : '/' ∉ c.data) :
    Join [t, c ++ ".html"] = t ++ "/" ++ c ++ ".html" ∧
      Join [outDir, t ++ "/" ++ c ++ ".html"] = Join [outDir, t, c ++ ".html"] ∧
      ((visit wd outDir Pages t c b s).1 = none →
        assocGet (visit wd outDir Pages t c b s).2.history t =
            some ((assocGet s.history t).getD [] ++
              [{ Code := c
                 Message := ((assocGet Pages c).map Page.Message).getD ""
                 Path := t ++ "/" ++ c ++ ".html" }]) ∧
          Stat wd (visit wd outDir Pages t c b s).2.fs (Join [outDir, t ++ "/" ++ c ++ ".html"]) =
            Except.ok (Node.file b)) := by
  have h1 : Join [t, c ++ ".html"] = t ++ "/" ++ c ++ ".html" := by
    rw [Join_pair ht (fileName_plain c hc), String.append_assoc, String.append_assoc,
      String.append_assoc]
  have h2 : Join [outDir, t ++ "/" ++ c ++ ".html"] = Join [outDir, t, c ++ ".html"] := by
    have := Join_nested outDir ht.1 (c ++ ".html")
    simpa only [String.append_assoc] using this
  refine ⟨h1, h2, ?_⟩
  intro hv
  obtain ⟨fs1, -, hw, hh, -⟩ := visit_ok (visit_of_fst_none hv)
  rw [h1] at hh
  rw [h2]
  exact ⟨hh, Stat_WriteFile hw⟩

/-- Witness of C10: the link `plain/404.html`, joined to `/srv/out`, is the path of the page. -/
theorem index_link_resolves_witness :
    Join ["plain", "404" ++ ".html"] = "plain/404.html" ∧
      Join ["/srv/out", "plain/404.html"] = Join ["/srv/out", "plain", "404" ++ ".html"] :=
  ⟨(index_link_resolves sampleWd "/srv/out" samplePages "plain" "404" [1] ⟨emptyDisk, []⟩
      (by decide) (by decide)).1,
    (index_link_resolves sampleWd "/srv/out" samplePages "plain" "404" [1] ⟨emptyDisk, []⟩
      (by decide) (by decide)).2.1⟩


/-! ## The iteration as one list of steps -/

theorem runSteps_append (wd : Key) (outDir : String) (Pages : List (String × Page))
    (L1 L2 : List Step) (s : State) :
    runSteps wd outDir Pages (L1 ++ L2) s =
      match runSteps wd outDir Pages L1 s with
      | (some e, s1) => (some e, s1)
      | (none, s1) => runSteps wd outDir Pages L2 s1 := by
  induction L1 generalizing s with
  | nil => rfl
  | cons x L1 ih =>
    simp only [List.cons_append, runSteps]
    cases x.1.2 x.2.1 x.2.2.Message x.2.2.Description with
    | error cause => rfl
    | ok content =>
      simp only
      rcases hv : visit wd outDir Pages x.1.1 x.2.1 content s with ⟨_ | e, s1⟩
      · exact ih s1
      · rfl

theorem iteratePagesOf_eq_runSteps (wd : Key) (outDir : String) (Pages : List (String × Page))
    (t : String) (r : Renderer) (P : List (String × Page)) (s : State) :
    iteratePagesOf t r (visit wd outDir Pages) P s =
      runSteps wd outDir Pages (P.map fun p => ((t, r), p)) s := by
  induction P generalizing s with
  | nil => rfl
  | cons p P ih =>
    obtain ⟨c, pg⟩ := p
    simp only [iteratePagesOf, List.map_cons, runSteps]
    cases r c pg.Message pg.Description with
    | error cause => rfl
    | ok content =>
      simp only
      rcases hv : visit wd outDir Pages t c content s with ⟨_ | e, s1⟩
      · exact ih s1
      · rfl

theorem iterateTemplates_eq_runSteps (wd : Key) (outDir : String) (Pages : List (String × Page))
    (P : List (String × Page)) (T : List (String × Renderer)) (s : State) :
    iterateTemplates P (visit wd outDir Pages) T s = runSteps wd outDir Pages (steps T P) s := by
  induction T generalizing s with
  | nil => rfl
  | cons x T ih =>
    obtain ⟨t, r⟩ := x
    simp only [iterateTemplates, steps, List.flatMap_cons]
    rw [runSteps_append, ← iteratePagesOf_eq_runSteps]
    rcases hv : iteratePagesOf t r (visit wd outDir Pages) P s with ⟨_ | e, s1⟩
    · exact ih s1
    · rfl

theorem mem_steps {T : List (String × Renderer)} {P : List (String × Page)} {x : Step} :
    x ∈ steps T P ↔ x.1 ∈ T ∧ x.2 ∈ P := by
  obtain ⟨a, b⟩ := x
  simp only [steps, List.mem_flatMap, List.mem_map, Prod.mk.injEq]
  constructor
  · rintro ⟨t, ht, p, hp, rfl, rfl⟩
    exact ⟨ht, hp⟩
  · rintro ⟨ht, hp⟩
    exact ⟨a, ht, b, hp, rfl, rfl⟩

theorem mem_assocSet {α : Type} {m : List (String × α)} {k : String} {v : α}
    {e : String × α} (h : e ∈ assocSet m k v) : e ∈ m ∨ e = (k, v) := by
  induction m with
  | nil =>
    simp only [assocSet, List.mem_singleton] at h
    exact Or.inr h
  | cons x m ih =>
    obtain ⟨k1, v1⟩ := x
    simp only [assocSet] at h
    split at h
    · rcases List.mem_cons.1 h with h | h
      · exact Or.inr h
      · exact Or.inl (List.mem_cons_of_mem _ h)
    · rcases List.mem_cons.1 h with h | h
      · exact Or.inl (h ▸ List.mem_cons_self _ _)
      · rcases ih h with h | h
        · exact Or.inl (List.mem_cons_of_mem _ h)
        · exact Or.inr h

theorem mem_foldl_assocSet {α : Type} (l : List (String × α)) :
    ∀ (m : List (String × α)) (e : String × α),
      e ∈ l.foldl (fun m p => assocSet m p.1 p.2) m → e ∈ m ∨ e ∈ l := by
  induction l with
  | nil => exact fun m e h => Or.inl h
  | cons x l ih =>
    intro m e h
    rcases ih _ e h with h1 | h1
    · rcases mem_assocSet h1 with h2 | h2
      · exact Or.inl h2
      · exact Or.inr (h2 ▸ List.mem_cons_self _ _)
    · exact Or.inr (List.mem_cons_of_mem _ h1)

theorem mem_loadErrorPages_pages {E : Engine} {templates : List (String × Bytes)}
    {Pages : List (String × Page)} {e : String × Page}
    (h : e ∈ (loadErrorPages E templates Pages).pages) : e ∈ Pages := by
  rw [loadErrorPages_pages] at h
  rcases mem_foldl_assocSet Pages [] e h with h | h
  · simp at h
  · exact h

theorem mem_foldl_parse (E : Engine) (l : List (String × Bytes)) :
    ∀ (m : List (String × Renderer)) (e : String × Renderer),
      e ∈ l.foldl (fun m t =>
        match E.parse t.2 with
        | none => m
        | some r => assocSet m t.1 r) m →
      e ∈ m ∨ ∃ text, (e.1, text) ∈ l ∧ E.parse text = some e.2 := by
  induction l with
  | nil => exact fun m e h => Or.inl h
  | cons x l ih =>
    intro m e h
    rw [List.foldl_cons] at h
    rcases ih _ e h with h1 | ⟨text, h1, h2⟩
    · cases hp : E.parse x.2 with
      | none =>
        rw [hp] at h1
        exact Or.inl h1
      | some r =>
        rw [hp] at h1
        rcases mem_assocSet h1 with h2 | h2
        · exact Or.inl h2
        · refine Or.inr ⟨x.2, ?_, ?_⟩
          · rw [h2]
            exact List.mem_cons_self _ _
          · rw [h2]
            exact hp
    · exact Or.inr ⟨text, List.mem_cons_of_mem _ h1, h2⟩

theorem mem_loadErrorPages_templates {E : Engine} {templates : List (String × Bytes)}
    {Pages : List (String × Page)} {e : String × Renderer}
    (h : e ∈ (loadErrorPages E templates Pages).templates) :
    ∃ text, (e.1, text) ∈ templates ∧ E.parse text = some e.2 := by
  rw [loadErrorPages_templates] at h
  rcases mem_foldl_parse E templates [] e h with h | h
  · simp at h
  · exact h

theorem savePages_eq (wd : Key) (E : Engine) (cfg : Config) (templates : List (String × Bytes))
    (outDir : String) (fs : FS) :
    savePages wd E cfg templates outDir fs =
      if (loadErrorPages E templates cfg.Pages).templates.length = 0 then
        (some Error.noTemplates, ⟨fs, []⟩)
      else runSteps wd outDir cfg.Pages
        (steps (loadErrorPages E templates cfg.Pages).templates
          (loadErrorPages E templates cfg.Pages).pages) ⟨fs, []⟩ := by
  unfold savePages IteratePages
  split
  · rfl
  · exact iterateTemplates_eq_runSteps wd outDir cfg.Pages _ _ _

/-! ## What every operation keeps -/

theorem createDirectory_keeps (wd : Key) (fs : FS) (p : String) :
    (∀ q, fs q = some Node.dir → (createDirectory wd fs p).2 q = some Node.dir) ∧
      ∀ q, isFile (fs q) = true → isFile ((createDirectory wd fs p).2 q) = true := by
  constructor
  · intro q hq
    rcases createDirectory_frame wd fs p q with h | ⟨h, -, -⟩
    · rw [h, hq]
    · rw [hq] at h
      simp at h
  · intro q hq
    rcases createDirectory_frame wd fs p q with h | ⟨h, -, -⟩
    · rw [h, hq]
    · rw [h] at hq
      simp [isFile] at hq

theorem WriteFile_keeps {wd : Key} {fs fs1 : FS} {p : String} {b : Bytes}
    (h : WriteFile wd fs p b = Except.ok fs1) :
    (∀ q, fs q = some Node.dir → fs1 q = some Node.dir) ∧
      ∀ q, isFile (fs q) = true → isFile (fs1 q) = true := by
  obtain ⟨hset, hnd, -, -, -⟩ := WriteFile_ok h
  subst hset
  refine ⟨set_keeps_dirs _ hnd, ?_⟩
  intro q hq
  by_cases hk : q = key wd p
  · simp [FS.set, hk, isFile]
  · simp [FS.set, hk, hq]

theorem visit_keeps (wd : Key) (outDir : String) (Pages : List (String × Page))
    (t c : String) (b : Bytes) (s : State) :
    (∀ q, s.fs q = some Node.dir → (visit wd outDir Pages t c b s).2.fs q = some Node.dir) ∧
      ∀ q, isFile (s.fs q) = true → isFile ((visit wd outDir Pages t c b s).2.fs q) = true := by
  have hcd := createDirectory_keeps wd s.fs (Join [outDir, t])
  rcases hv : visit wd outDir Pages t c b s with ⟨_ | e, s1⟩
  · obtain ⟨fs1, hd, hw, -⟩ := visit_ok hv
    rw [hd] at hcd
    have hwk := WriteFile_keeps hw
    exact ⟨fun q hq => hwk.1 q (hcd.1 q hq), fun q hq => hwk.2 q (hcd.2 q hq)⟩
  · obtain ⟨-, hcase⟩ := visit_error hv
    rcases hcase with hd | ⟨en, hd, -, -⟩
    · rw [hd] at hcd
      exact hcd
    · rw [hd] at hcd
      exact hcd

theorem visit_WF (wd : Key) (outDir : String) (Pages : List (String × Page))
    (t c : String) (b : Bytes) (s : State) (hwf : WellFormed s.fs) :
    WellFormed (visit wd outDir Pages t c b s).2.fs := by
  have hcd := @createDirectory_WF wd s.fs (Join [outDir, t]) hwf
  rcases hv : visit wd outDir Pages t c b s with ⟨_ | e, s1⟩
  · obtain ⟨fs1, hd, hw, -⟩ := visit_ok hv
    rw [hd] at hcd
    exact WriteFile_WF hcd hw
  · obtain ⟨-, hcase⟩ := visit_error hv
    rcases hcase with hd | ⟨en, hd, -, -⟩
    · rw [hd] at hcd
      exact hcd
    · rw [hd] at hcd
      exact hcd

theorem runSteps_invariant (wd : Key) (outDir : String) (Pages : List (String × Page))
    (I : FS → Prop)
    (hv : ∀ t c b s, I s.fs → I (visit wd outDir Pages t c b s).2.fs) :
    ∀ (L : List Step) (s : State), I s.fs → I (runSteps wd outDir Pages L s).2.fs := by
  intro L
  induction L with
  | nil => exact fun s hs => hs
  | cons x L ih =>
    intro s hs
    simp only [runSteps]
    cases hr : x.1.2 x.2.1 x.2.2.Message x.2.2.Description with
    | error cause => exact hs
    | ok content =>
      have h1 := hv x.1.1 x.2.1 content s hs
      simp only
      rcases hvis : visit wd outDir Pages x.1.1 x.2.1 content s with ⟨_ | e, s1⟩
      · rw [hvis] at h1
        exact ih s1 h1
      · rw [hvis] at h1
        exact h1

theorem writeIndexFile_cases (wd : Key) (E : Engine) (fs : FS) (p : String) (h : History) :
    (writeIndexFile wd E fs p h).2 = fs ∨
      ∃ ib, WriteFile wd fs p ib = Except.ok (writeIndexFile wd E fs p h).2 := by
  unfold writeIndexFile
  split
  · exact Or.inl rfl
  · rename_i ib _
    cases hw : WriteFile wd fs p ib with
    | error e => exact Or.inl rfl
    | ok fs1 => exact Or.inr ⟨ib, hw⟩

/-- An invariant of the file system that `createDirectory` and `os.WriteFile` keep is
kept by the whole run of the build. -/
theorem RunE_invariant (wd : Key) (E : Engine) (cfg : Config) (generateIndex : Bool)
    (args : List String) (fs : FS) (I : FS → Prop)
    (hcd : ∀ fs p, I fs → I (createDirectory wd fs p).2)
    (hwf : ∀ fs fs1 p b, I fs → WriteFile wd fs p b = Except.ok fs1 → I fs1)
    (h : I fs) : I (RunE wd E cfg generateIndex args fs).2 := by
  have hvisit : ∀ outDir t c b (s : State), I s.fs →
      I (visit wd outDir cfg.Pages t c b s).2.fs := by
    intro outDir t c b s hs
    have h1 := hcd s.fs (Join [outDir, t]) hs
    rcases hv : visit wd outDir cfg.Pages t c b s with ⟨_ | e, s1⟩
    · obtain ⟨fs1, hd, hw, -⟩ := visit_ok hv
      rw [hd] at h1
      exact hwf _ _ _ _ h1 hw
    · obtain ⟨-, hcase⟩ := visit_error hv
      rcases hcase with hd | ⟨en, hd, -, -⟩
      · rw [hd] at h1
        exact h1
      · rw [hd] at h1
        exact h1
  unfold RunE
  split
  · rename_i outDir
    split
    · exact h
    · rename_i templates _
      split
      · have h1 := hcd fs outDir h
        rcases hc : createDirectory wd fs outDir with ⟨_ | e, fs1⟩
        · rw [hc] at h1
          simp only
          have h2 : I (savePages wd E cfg templates outDir fs1).2.fs := by
            rw [savePages_eq]
            split
            · exact h1
            · exact runSteps_invariant wd outDir cfg.Pages I (hvisit outDir) _ ⟨fs1, []⟩ h1
          rcases hs : savePages wd E cfg templates outDir fs1 with ⟨_ | e, s⟩
          · rw [hs] at h2
            simp only
            split
            · rcases writeIndexFile_cases wd E s.fs (Join [outDir, "index.html"])
                (sortHistory s.history) with hw | ⟨ib, hw⟩
              · rw [hw]
                exact h2
              · exact hwf _ _ _ _ h2 hw
            · exact h2
          · rw [hs] at h2
            exact h2
        · rw [hc] at h1
          exact h1
      · exact h
  · exact h

theorem RunE_WF (wd : Key) (E : Engine) (cfg : Config) (generateIndex : Bool)
    (args : List String) (fs : FS) (h : WellFormed fs) :
    WellFormed (RunE wd E cfg generateIndex args fs).2 :=
  RunE_invariant wd E cfg generateIndex args fs WellFormed
    (fun _ _ h1 => createDirectory_WF h1) (fun _ _ _ _ h1 hw => WriteFile_WF h1 hw) h

theorem Stat_file_mono {wd : Key} {fs fs1 : FS} {p : String} {b : Bytes}
    (h : Stat wd fs p = Except.ok (Node.file b))
    (hd : ∀ q, fs q = some Node.dir → fs1 q = some Node.dir)
    (hf : ∀ q, isFile (fs q) = true → isFile (fs1 q) = true) :
    ∃ b1, Stat wd fs1 p = Except.ok (Node.file b1) := by
  obtain ⟨hp, hl, hk, hs⟩ := Stat_ok h
  have h1 := hf (key wd p) (by simp [hk, isFile])
  cases hk1 : fs1 (key wd p) with
  | none => simp [hk1, isFile] at h1
  | some nd =>
    cases nd with
    | dir => simp [hk1, isFile] at h1
    | file b1 => exact ⟨b1, Stat_file_of hp (lookup_mono hd hl) hk1 (hs (by simp))⟩

/-- A regular file at a path stays a regular file during the build. -/
theorem RunE_keeps_file (wd : Key) (E : Engine) (cfg : Config) (generateIndex : Bool)
    (args : List String) (fs : FS) (p : String)
    (h : ∃ b, Stat wd fs p = Except.ok (Node.file b)) :
    ∃ b, Stat wd (RunE wd E cfg generateIndex args fs).2 p = Except.ok (Node.file b) :=
  RunE_invariant wd E cfg generateIndex args fs
    (fun fs => ∃ b, Stat wd fs p = Except.ok (Node.file b))
    (fun fs q ⟨_, hb⟩ => Stat_file_mono hb (createDirectory_keeps wd fs q).1
      (createDirectory_keeps wd fs q).2)
    (fun _ _ _ _ ⟨_, hb⟩ hw => Stat_file_mono hb (WriteFile_keeps hw).1 (WriteFile_keeps hw).2)
    h

/-! ## A template directory that is a regular file -/

theorem visit_of_file {wd : Key} {outDir : String} (Pages : List (String × Page))
    {t : String} (c : String) (b : Bytes) {s : State}
    (h : ∃ old, Stat wd s.fs (Join [outDir, t]) = Except.ok (Node.file old)) :
    visit wd outDir Pages t c b s = (some (Error.new "is not a directory"), s) := by
  obtain ⟨old, h⟩ := h
  simp [visit, createDirectory, h]

theorem runSteps_fails (wd : Key) (outDir : String) (Pages : List (String × Page))
    (t : String) : ∀ (L : List Step) (s : State),
    (∃ old, Stat wd s.fs (Join [outDir, t]) = Except.ok (Node.file old)) →
      (∃ x ∈ L, x.1.1 = t) → (runSteps wd outDir Pages L s).1 ≠ none := by
  intro L
  induction L with
  | nil =>
    intro s _ h
    obtain ⟨x, hx, -⟩ := h
    simp at hx
  | cons x L ih =>
    intro s hs hex
    simp only [runSteps]
    cases hr : x.1.2 x.2.1 x.2.2.Message x.2.2.Description with
    | error cause => simp
    | ok content =>
      simp only
      by_cases hx : x.1.1 = t
      · rw [hx, visit_of_file Pages x.2.1 content hs]
        simp
      · have hk := visit_keeps wd outDir Pages x.1.1 x.2.1 content s
        rcases hv : visit wd outDir Pages x.1.1 x.2.1 content s with ⟨_ | e, s1⟩
        · rw [hv] at hk
          simp only
          obtain ⟨old, hold⟩ := hs
          apply ih s1 (Stat_file_mono hold hk.1 hk.2)
          obtain ⟨y, hy, hyt⟩ := hex
          rcases List.mem_cons.1 hy with rfl | hy
          · exact absurd hyt hx
          · exact ⟨y, hy, hyt⟩
        · simp

theorem assocSet_ne_nil {α : Type} (m : List (String × α)) (k : String) (v : α) :
    assocSet m k v ≠ [] := by
  cases m with
  | nil => simp [assocSet]
  | cons e m =>
    simp only [assocSet]
    split <;> simp

theorem foldl_assocSet_ne_nil {α : Type} (l : List (String × α)) :
    ∀ m : List (String × α), m ≠ [] → l.foldl (fun m p => assocSet m p.1 p.2) m ≠ [] := by
  induction l with
  | nil => exact fun m h => h
  | cons e l ih => exact fun m _ => ih _ (assocSet_ne_nil m e.1 e.2)

theorem loadErrorPages_pages_ne_nil (E : Engine) (templates : List (String × Bytes))
    {Pages : List (String × Page)} (h : Pages ≠ []) :
    (loadErrorPages E templates Pages).pages ≠ [] := by
  rw [loadErrorPages_pages]
  cases Pages with
  | nil => exact absurd rfl h
  | cons p rest => exact foldl_assocSet_ne_nil rest _ (assocSet_ne_nil [] p.1 p.2)

theorem savePages_fails (wd : Key) (E : Engine) (cfg : Config)
    (templates : List (String × Bytes)) (outDir : String) (fs : FS) (t : String)
    (hreg : t ∈ (loadErrorPages E templates cfg.Pages).templates.map Prod.fst)
    (hpages : cfg.Pages ≠ [])
    (hfile : ∃ old, Stat wd fs (Join [outDir, t]) = Except.ok (Node.file old)) :
    (savePages wd E cfg templates outDir fs).1 ≠ none := by
  rw [savePages_eq]
  split
  · simp
  · obtain ⟨x, hx, hxt⟩ := List.mem_map.1 hreg
    have hp := loadErrorPages_pages_ne_nil E templates hpages
    obtain ⟨p0, hp0⟩ := List.exists_mem_of_ne_nil _ hp
    exact runSteps_fails wd outDir cfg.Pages t _ ⟨fs, []⟩ hfile
      ⟨(x, p0), mem_steps.2 ⟨hx, hp0⟩, hxt⟩

/-- C5, as amended: when `<outputDir>/<template>` is a regular file for a registered
template and the catalog has a page, the build returns an error, and that path is
still a regular file afterwards, with nothing below it on a file system tree: the
path stays a regular file during the iteration, whatever is visited, and as long as it
is one the callback fails for every page of that template with "is not a directory",
before anything is written. The build returns that error when the output directory
was prepared, the templates visited before that one were saved and its first page
renders; what was written for the templates visited before stays. -/
theorem template_directory_is_regular_file (wd : Key) (E : Engine) (cfg : Config)
    (generateIndex : Bool) (outDir : String) (fs : FS) (templates : List (String × Bytes))
    (t : String) (old : Bytes)
    (hload : cfg.LoadTemplates = Except.ok templates)
    (hreg : t ∈ (loadErrorPages E templates cfg.Pages).templates.map Prod.fst)
    (hpages : cfg.Pages ≠ [])
    (hfile : Stat wd fs (Join [outDir, t]) = Except.ok (Node.file old)) :
    (RunE wd E cfg generateIndex [outDir] fs).1 ≠ none ∧
      (∃ b, Stat wd (RunE wd E cfg generateIndex [outDir] fs).2 (Join [outDir, t]) =
        Except.ok (Node.file b)) ∧
      (WellFormed fs → ∀ q, key wd (Join [outDir, t]) <+: q → q ≠ key wd (Join [outDir, t]) →
        (RunE wd E cfg generateIndex [outDir] fs).2 q = none) ∧
      (∀ (s : State) (c : String) (content : Bytes),
        (∃ b, Stat wd s.fs (Join [outDir, t]) = Except.ok (Node.file b)) →
          visit wd outDir cfg.Pages t c content s =
            (some (Error.new "is not a directory"), s)) ∧
      (∀ (T : List (String × Renderer)) (P : List (String × Page)) (s : State),
        (∃ b, Stat wd s.fs (Join [outDir, t]) = Except.ok (Node.file b)) →
          ∃ b, Stat wd (iterateTemplates P (visit wd outDir cfg.Pages) T s).2.fs
            (Join [outDir, t]) = Except.ok (Node.file b)) ∧
      ∀ (fs1 : FS) (T1 T2 : List (String × Renderer)) (r : Renderer) (c : String) (pg : Page)
        (rest : List (String × Page)) (content : Bytes) (s1 : State),
        createDirectory wd fs outDir = (none, fs1) →
        (loadErrorPages E templates cfg.Pages).templates = T1 ++ (t, r) :: T2 →
        (loadErrorPages E templates cfg.Pages).pages = (c, pg) :: rest →
        iterateTemplates ((c, pg) :: rest) (visit wd outDir cfg.Pages) T1 ⟨fs1, []⟩ =
          (none, s1) →
        r c pg.Message pg.Description = Except.ok content →
        RunE wd E cfg generateIndex [outDir] fs =
          (some (Error.new "is not a directory"), s1.fs) := by
  have hlen : templates.length > 0 := by
    rcases templates with _ | ⟨x, l⟩
    · rw [loadErrorPages_templates] at hreg
      simp at hreg
    · simp
  have hkeep := RunE_keeps_file wd E cfg generateIndex [outDir] fs (Join [outDir, t])
    ⟨old, hfile⟩
  have hiter : ∀ (T : List (String × Renderer)) (P : List (String × Page)) (s : State),
      (∃ b, Stat wd s.fs (Join [outDir, t]) = Except.ok (Node.file b)) →
        ∃ b, Stat wd (iterateTemplates P (visit wd outDir cfg.Pages) T s).2.fs
          (Join [outDir, t]) = Except.ok (Node.file b) := by
    intro T P s hs
    rw [iterateTemplates_eq_runSteps]
    exact runSteps_invariant wd outDir cfg.Pages
      (fun fs => ∃ b, Stat wd fs (Join [outDir, t]) = Except.ok (Node.file b))
      (fun t1 c1 b1 s ⟨_, hb⟩ => Stat_file_mono hb
        (visit_keeps wd outDir cfg.Pages t1 c1 b1 s).1
        (visit_keeps wd outDir cfg.Pages t1 c1 b1 s).2) (steps T P) s hs
  refine ⟨?_, hkeep, ?_, fun s c content h => visit_of_file cfg.Pages c content h, hiter, ?_⟩
  · unfold RunE
    simp only [hload, hlen, if_true]
    have hk := createDirectory_keeps wd fs outDir
    rcases hc : createDirectory wd fs outDir with ⟨_ | e, fs1⟩
    · rw [hc] at hk
      simp only
      have hs := savePages_fails wd E cfg templates outDir fs1 t hreg hpages
        (Stat_file_mono hfile hk.1 hk.2)
      rcases hsv : savePages wd E cfg templates outDir fs1 with ⟨_ | e, s⟩
      · rw [hsv] at hs
        exact absurd rfl hs
      · simp
    · simp
  · intro hwf q hq hne
    obtain ⟨b, hb⟩ := hkeep
    obtain ⟨-, -, hk, -⟩ := Stat_ok hb
    by_contra hcon
    have := RunE_WF wd E cfg generateIndex [outDir] fs hwf q _ hcon hq (Ne.symm hne)
    rw [hk] at this
    simp at this
  · intro fs1 T1 T2 r c pg rest content s1 hc hT hP hT1 hr
    have hk := createDirectory_keeps wd fs outDir
    rw [hc] at hk
    have hI1 : ∃ b, Stat wd s1.fs (Join [outDir, t]) = Except.ok (Node.file b) := by
      have h1 := hiter T1 ((c, pg) :: rest) ⟨fs1, []⟩ (Stat_file_mono hfile hk.1 hk.2)
      rw [hT1] at h1
      exact h1
    have hv := visit_of_file cfg.Pages c content hI1
    have hit := iterate_stops_at_failure (visit wd outDir cfg.Pages) T1 T2 [] rest t r c pg
      content ⟨fs1, []⟩ s1 s1 s1 _ hT1 rfl hr hv
    have hsave : savePages wd E cfg templates outDir fs1 =
        (some (Error.new "is not a directory"), s1) := by
      unfold savePages IteratePages
      rw [hT, hP]
      simp only [List.length_append, List.length_cons]
      rw [if_neg (by omega)]
      exact hit
    unfold RunE
    simp only [hload, hlen, if_true, hc, hsave]

/-- Witness of C5 as amended: with the templates `a` and `plain` and `out/plain` a regular
file the build fails with "is not a directory", after the pages of `a`, and `out/plain`
is still a regular file. -/
theorem template_directory_is_regular_file_witness :
    Stat sampleWd plainFileDisk (Join ["out", "plain"]) = Except.ok (Node.file [7]) ∧
      (RunE sampleWd sampleEngine twoTemplatesConfig true ["out"] plainFileDisk).1 ≠ none ∧
      (∃ b, Stat sampleWd (RunE sampleWd sampleEngine twoTemplatesConfig true ["out"]
        plainFileDisk).2 (Join ["out", "plain"]) = Except.ok (Node.file b)) ∧
      RunE sampleWd sampleEngine twoTemplatesConfig true ["out"] plainFileDisk =
        (some (Error.new "is not a directory"),
          (iterateTemplates samplePages (visit sampleWd "out" samplePages)
            [("a", sampleRenderer [1])] ⟨plainFileDisk, []⟩).2.fs) :=
  ⟨rfl,
    (template_directory_is_regular_file sampleWd sampleEngine twoTemplatesConfig true "out"
      plainFileDisk [("a", [1]), ("plain", [2])] "plain" [7] rfl (by decide) (by decide) rfl).1,
    (template_directory_is_regular_file sampleWd sampleEngine twoTemplatesConfig true "out"
      plainFileDisk [("a", [1]), ("plain", [2])] "plain" [7] rfl (by decide) (by decide)
      rfl).2.1,
    (template_directory_is_regular_file sampleWd sampleEngine twoTemplatesConfig true "out"
      plainFileDisk [("a", [1]), ("plain", [2])] "plain" [7] rfl (by decide) (by decide)
      rfl).2.2.2.2.2 plainFileDisk [("a", sampleRenderer [1])] [] (sampleRenderer [2]) "500"
      ⟨"Server Error", ""⟩ (samplePages.drop 1) ([2] ++ bytesOf "500 Server Error")
      (iterateTemplates samplePages (visit sampleWd "out" samplePages)
        [("a", sampleRenderer [1])] ⟨plainFileDisk, []⟩).2
      (Prod.ext (by decide) rfl) rfl rfl (Prod.ext (by decide) rfl) rfl⟩

/-- C5 fails as stated. With the templates `a` and `plain` visited in this order and
`out/plain` a regular file, the build fails with "is not a directory" only after it
has written the pages of `a`; with the templates `plain/x` and `plain` visited in this
order it fails at `plain/x` with the error "not a directory" of `os.Stat`; and with
the template `plain` and no page in the catalog it succeeds. -/
theorem regular_file_counterexample :
    Stat sampleWd plainFileDisk (Join ["out", "plain"]) = Except.ok (Node.file [7]) ∧
      (RunE sampleWd sampleEngine twoTemplatesConfig false ["out"] plainFileDisk).1 =
        some (Error.new "is not a directory") ∧
      plainFileDisk ["work", "out", "a", "404.html"] = none ∧
      (RunE sampleWd sampleEngine twoTemplatesConfig false ["out"] plainFileDisk).2
          ["work", "out", "a", "404.html"] =
        some (Node.file ([1] ++ bytesOf "404 Not Found")) ∧
      (RunE sampleWd sampleEngine nestedTemplatesConfig false ["out"] plainFileDisk).1 =
        some (Error.os Errno.ENOTDIR) ∧
      (RunE sampleWd sampleEngine ⟨Except.ok [("plain", [])], []⟩ false ["out"]
        plainFileDisk).1 = none :=
  ⟨rfl, by decide, by decide, by decide, by decide, by decide⟩

/-! ## Locations that a run leaves alone -/

theorem iteratePagesOf_invariant {σ : Type} (I : σ → Prop) (name : String) (r : Renderer)
    (v : String → String → Bytes → σ → Option Error × σ) (pages : List (String × Page))
    (hv : ∀ c pg, (c, pg) ∈ pages → ∀ content s, I s → I (v name c content s).2) :
    ∀ s, I s → I (iteratePagesOf name r v pages s).2 := by
  induction pages with
  | nil => exact fun s hs => hs
  | cons p pages ih =>
    obtain ⟨c, pg⟩ := p
    intro s hs
    simp only [iteratePagesOf]
    cases hr : r c pg.Message pg.Description with
    | error cause => exact hs
    | ok content =>
      have h1 := hv c pg (List.mem_cons_self _ _) content s hs
      simp only
      rcases hvis : v name c content s with ⟨_ | e, s1⟩
      · rw [hvis] at h1
        exact ih (fun c1 pg1 hm => hv c1 pg1 (List.mem_cons_of_mem _ hm)) s1 h1
      · rw [hvis] at h1
        exact h1

theorem iterateTemplates_invariant {σ : Type} (I : σ → Prop) (pages : List (String × Page))
    (v : String → String → Bytes → σ → Option Error × σ) (T : List (String × Renderer))
    (hv : ∀ t r, (t, r) ∈ T → ∀ c pg, (c, pg) ∈ pages →
      ∀ content s, I s → I (v t c content s).2) :
    ∀ s, I s → I (iterateTemplates pages v T s).2 := by
  induction T with
  | nil => exact fun s hs => hs
  | cons p T ih =>
    obtain ⟨t, r⟩ := p
    intro s hs
    simp only [iterateTemplates]
    have h1 := iteratePagesOf_invariant I t r v pages
      (fun c pg hm => hv t r (List.mem_cons_self _ _) c pg hm) s hs
    rcases hit : iteratePagesOf t r v pages s with ⟨_ | e, s1⟩
    · rw [hit] at h1
      exact ih (fun t1 r1 hm => hv t1 r1 (List.mem_cons_of_mem _ hm)) s1 h1
    · rw [hit] at h1
      exact h1

theorem createDirectory_other (wd : Key) (fs : FS) (p : String) {k : Key}
    (h : k ∉ visited wd p) : (createDirectory wd fs p).2 k = fs k := by
  rcases createDirectory_frame wd fs p k with h1 | ⟨-, -, h1⟩
  · exact h1
  · exact absurd h1 h

theorem visit_other (wd : Key) (outDir : String) (Pages : List (String × Page))
    (t c : String) (b : Bytes) (s : State) {k : Key}
    (h1 : k ∉ visited wd (Join [outDir, t]))
    (h2 : k ≠ key wd (Join [outDir, t, c ++ ".html"])) :
    (visit wd outDir Pages t c b s).2.fs k = s.fs k := by
  rcases visit_frame wd outDir Pages t c b s k (fun _ => h2) with h | ⟨-, -, h⟩
  · exact h
  · exact absurd h h1

theorem savePages_other (wd : Key) (E : Engine) (cfg : Config)
    (templates : List (String × Bytes)) (outDir : String) (fs : FS) (k : Key)
    (h1 : ∀ t ∈ templates.map Prod.fst, k ∉ visited wd (Join [outDir, t]))
    (h2 : ∀ t ∈ templates.map Prod.fst, ∀ c ∈ cfg.Pages.map Prod.fst,
      k ≠ key wd (Join [outDir, t, c ++ ".html"])) :
    (savePages wd E cfg templates outDir fs).2.fs k = fs k := by
  unfold savePages IteratePages
  split
  · rfl
  · refine iterateTemplates_invariant (fun s : State => s.fs k = fs k) _ _ _ ?_
      (⟨fs, []⟩ : State) rfl
    intro t r ht c pg hc content s hs
    obtain ⟨text, hm, -⟩ := mem_loadErrorPages_templates ht
    have hc1 := mem_loadErrorPages_pages hc
    have ht1 : t ∈ templates.map Prod.fst := List.mem_map.2 ⟨(t, text), hm, rfl⟩
    have hc2 : c ∈ cfg.Pages.map Prod.fst := List.mem_map.2 ⟨(c, pg), hc1, rfl⟩
    show (visit wd outDir cfg.Pages t c content s).2.fs k = fs k
    rw [visit_other wd outDir cfg.Pages t c content s (h1 t ht1) (h2 t ht1 c hc2)]
    exact hs

theorem RunE_other (wd : Key) (E : Engine) (cfg : Config) (templates : List (String × Bytes))
    (outDir : String) (fs : FS) (k : Key)
    (hload : cfg.LoadTemplates = Except.ok templates)
    (h0 : k ∉ visited wd outDir)
    (h1 : ∀ t ∈ templates.map Prod.fst, k ∉ visited wd (Join [outDir, t]))
    (h2 : ∀ t ∈ templates.map Prod.fst, ∀ c ∈ cfg.Pages.map Prod.fst,
      k ≠ key wd (Join [outDir, t, c ++ ".html"])) :
    (RunE wd E cfg false [outDir] fs).2 k = fs k := by
  unfold RunE
  simp only [hload]
  split
  · have hd := createDirectory_other wd fs outDir h0
    rcases hc : createDirectory wd fs outDir with ⟨_ | e, fs1⟩
    · rw [hc] at hd
      simp only at hd
      have hs := savePages_other wd E cfg templates outDir fs1 k h1 h2
      simp only
      rcases hsv : savePages wd E cfg templates outDir fs1 with ⟨_ | e, s⟩
      · rw [hsv] at hs
        simp only [Bool.false_eq_true, if_false]
        rw [hs, hd]
      · rw [hsv] at hs
        simp only
        rw [hs, hd]
    · rw [hc] at hd
      exact hd
  · rfl

/-- C3, as amended: a run of the build with `generateIndex = false` leaves the location
of `<outputDir>/index.html` as it was, provided that neither the output directory, as
it is given, nor the directory of a template, `path.Join(outputDir, t)`, passes through
that location, and that no page, `path.Join(outputDir, t, c + ".html")`, is stored at
it. -/
theorem no_index_without_flag (wd : Key) (E : Engine) (cfg : Config)
    (templates : List (String × Bytes)) (outDir : String) (fs : FS)
    (hload : cfg.LoadTemplates = Except.ok templates)
    (hout : key wd (Join [outDir, "index.html"]) ∉ visited wd outDir)
    (hdirs : ∀ t ∈ templates.map Prod.fst,
      key wd (Join [outDir, "index.html"]) ∉ visited wd (Join [outDir, t]))
    (hpages : ∀ t ∈ templates.map Prod.fst, ∀ c ∈ cfg.Pages.map Prod.fst,
      key wd (Join [outDir, "index.html"]) ≠ key wd (Join [outDir, t, c ++ ".html"])) :
    (RunE wd E cfg false [outDir] fs).2 (key wd (Join [outDir, "index.html"])) =
      fs (key wd (Join [outDir, "index.html"])) :=
  RunE_other wd E cfg templates outDir fs _ hload hout hdirs hpages

/-- Witness of C3 as amended: with the templates `a` and `plain` the build without index leaves
`out/index.html` missing. -/
theorem no_index_without_flag_witness :
    (RunE sampleWd sampleEngine twoTemplatesConfig false ["out"] emptyDisk).2
      ["work", "out", "index.html"] = none :=
  no_index_without_flag sampleWd sampleEngine twoTemplatesConfig [("a", [1]), ("plain", [2])]
    "out" emptyDisk rfl (by decide) (by decide) (by decide)

/-- C3 fails as stated. With a template named `.` and a page with the code `index`,
the build without `generateIndex` succeeds and stores that page at `out/index.html`,
which did not exist before; with a template named `index.html` it succeeds and leaves
`out/index.html` as the directory of that template; and with the output directory
given as `out/index.html/..` and the template `plain` it succeeds and leaves
`out/index.html` as a directory that `os.MkdirAll` made. -/
theorem index_written_without_flag :
    emptyDisk (key sampleWd (Join ["out", "index.html"])) = none ∧
      (RunE sampleWd sampleEngine dotTemplateConfig false ["out"] emptyDisk).1 = none ∧
      (RunE sampleWd sampleEngine dotTemplateConfig false ["out"] emptyDisk).2
          (key sampleWd (Join ["out", "index.html"])) =
        some (Node.file (bytesOf "index Home")) ∧
      (RunE sampleWd sampleEngine indexTemplateConfig false ["out"] emptyDisk).1 = none ∧
      (RunE sampleWd sampleEngine indexTemplateConfig false ["out"] emptyDisk).2
          (key sampleWd (Join ["out", "index.html"])) =
        some Node.dir ∧
      emptyDisk (key sampleWd (Join ["out/index.html/..", "index.html"])) = none ∧
      (RunE sampleWd sampleEngine sampleConfig false ["out/index.html/.."] emptyDisk).1 =
        none ∧
      (RunE sampleWd sampleEngine sampleConfig false ["out/index.html/.."] emptyDisk).2
          (key sampleWd (Join ["out/index.html/..", "index.html"])) =
        some Node.dir :=
  ⟨by decide, by decide, by decide, by decide, by decide, by decide, by decide, by decide⟩

/-! ## What a successful visit does to the file system -/

theorem visit_ok_fs {wd : Key} {outDir : String} {Pages : List (String × Page)}
    {t c : String} {b : Bytes} {s s1 : State}
    (h : visit wd outDir Pages t c b s = (none, s1)) :
    (∀ q, s.fs q = some Node.dir → s1.fs q = some Node.dir) ∧
      Stat wd s1.fs (Join [outDir, t]) = Except.ok Node.dir ∧
      s1.fs (key wd (Join [outDir, t, c ++ ".html"])) = some (Node.file b) ∧
      (∀ q, q ≠ key wd (Join [outDir, t, c ++ ".html"]) →
        s1.fs q = s.fs q ∨ (s.fs q = none ∧ q ∈ visited wd (Join [outDir, t]))) ∧
      Join [outDir, t, c ++ ".html"] ≠ "" ∧
      endsWithSlash (Join [outDir, t, c ++ ".html"]) = false ∧
      lookup s1.fs (start wd (Join [outDir, t, c ++ ".html"]))
          (components (Join [outDir, t, c ++ ".html"])) =
        Except.ok (key wd (Join [outDir, t, c ++ ".html"])) := by
  obtain ⟨fs1, hd, hw, -⟩ := visit_ok h
  obtain ⟨hset, hnd, hp, hl, hs⟩ := WriteFile_ok hw
  have hkeep := visit_keeps wd outDir Pages t c b s
  rw [h] at hkeep
  have hstat : Stat wd fs1 (Join [outDir, t]) = Except.ok Node.dir := by
    have := @createDirectory_ok_stat wd s.fs (Join [outDir, t])
      (by rw [hd])
    rw [hd] at this
    exact this
  have hdirs : ∀ q, fs1 q = some Node.dir → s1.fs q = some Node.dir := by
    rw [hset]
    exact set_keeps_dirs _ hnd
  refine ⟨hkeep.1, Stat_dir_mono hdirs hstat, ?_, ?_, hp, hs, lookup_mono hdirs hl⟩
  · rw [hset]
    simp [FS.set]
  · intro q hq
    have := visit_frame wd outDir Pages t c b s q (fun _ => hq)
    rw [h] at this
    rcases this with h1 | ⟨h1, -, h2⟩
    · exact Or.inl h1
    · exact Or.inr ⟨h1, h2⟩

theorem runSteps_facts (wd : Key) (outDir : String) (Pages : List (String × Page)) :
    ∀ (L : List Step) (s sF : State), runSteps wd outDir Pages L s = (none, sF) →
      L.Pairwise (fun x y => pageKey wd outDir x ≠ pageKey wd outDir y) →
      (∀ q, s.fs q = some Node.dir → sF.fs q = some Node.dir) ∧
        (∀ x ∈ L, Stat wd sF.fs (dirPath outDir x) = Except.ok Node.dir) ∧
        (∀ x ∈ L, ∃ content, x.1.2 x.2.1 x.2.2.Message x.2.2.Description = Except.ok content ∧
          sF.fs (pageKey wd outDir x) = some (Node.file content)) ∧
        (∀ q, (∀ x ∈ L, q ≠ pageKey wd outDir x) →
          sF.fs q = s.fs q ∨ (s.fs q = none ∧ ∃ x ∈ L, q ∈ visited wd (dirPath outDir x))) ∧
        ∀ x ∈ L, pagePath outDir x ≠ "" ∧ endsWithSlash (pagePath outDir x) = false ∧
          lookup sF.fs (start wd (pagePath outDir x)) (components (pagePath outDir x)) =
            Except.ok (pageKey wd outDir x) := by
  intro L
  induction L with
  | nil =>
    intro s sF h _
    simp only [runSteps, Prod.mk.injEq, true_and] at h
    subst h
    exact ⟨fun q hq => hq, by simp, by simp, fun q _ => Or.inl rfl, by simp⟩
  | cons x L ih =>
    intro s sF h hpw
    simp only [runSteps] at h
    cases hr : x.1.2 x.2.1 x.2.2.Message x.2.2.Description with
    | error cause => simp [hr] at h
    | ok content =>
      simp only [hr] at h
      rcases hv : visit wd outDir Pages x.1.1 x.2.1 content s with ⟨_ | e, s1⟩
      · simp only [hv] at h
        obtain ⟨hx, hL⟩ := List.pairwise_cons.1 hpw
        obtain ⟨v1, v2, v3, v4, v5, v6, v7⟩ := visit_ok_fs hv
        obtain ⟨f1, f2, f3, f4, f5⟩ := ih s1 sF h hL
        refine ⟨fun q hq => f1 q (v1 q hq), ?_, ?_, ?_, ?_⟩
        · intro y hy
          rcases List.mem_cons.1 hy with rfl | hy
          · exact Stat_dir_mono f1 v2
          · exact f2 y hy
        · intro y hy
          rcases List.mem_cons.1 hy with rfl | hy
          · refine ⟨content, hr, ?_⟩
            rcases f4 (pageKey wd outDir y) (fun z hz => hx z hz) with h1 | ⟨h1, -⟩
            · rw [h1]
              exact v3
            · rw [show s1.fs (pageKey wd outDir y) = some (Node.file content) from v3] at h1
              simp at h1
          · exact f3 y hy
        · intro q hq
          have hq0 : q ≠ pageKey wd outDir x := hq x (List.mem_cons_self _ _)
          have hqL : ∀ z ∈ L, q ≠ pageKey wd outDir z := fun z hz =>
            hq z (List.mem_cons_of_mem _ hz)
          rcases f4 q hqL with h1 | ⟨h1, z, hz, hzq⟩
          · rcases v4 q hq0 with h2 | ⟨h2, h3⟩
            · exact Or.inl (h1.trans h2)
            · exact Or.inr ⟨h2, x, List.mem_cons_self _ _, h3⟩
          · rcases v4 q hq0 with h2 | ⟨h2, h3⟩
            · exact Or.inr ⟨h2 ▸ h1, z, List.mem_cons_of_mem _ hz, hzq⟩
            · exact Or.inr ⟨h2, x, List.mem_cons_self _ _, h3⟩
        · intro y hy
          rcases List.mem_cons.1 hy with rfl | hy
          · exact ⟨v5, v6, lookup_mono f1 v7⟩
          · exact f5 y hy
      · simp [hv] at h

/-! ## The history of a successful run -/

theorem assocSet_assocSet {α : Type} (m : List (String × α)) (k : String) (a b : α) :
    assocSet (assocSet m k a) k b = assocSet m k b := by
  induction m with
  | nil => simp [assocSet]
  | cons e m ih =>
    obtain ⟨k1, v1⟩ := e
    by_cases h : k1 = k
    · simp [assocSet, h]
    · simp [assocSet, h, ih]

theorem visit_history {wd : Key} {outDir : String} {Pages : List (String × Page)} {t c : String}
    {b : Bytes} {s s1 : State} (h : visit wd outDir Pages t c b s = (none, s1)) :
    s1.history = pushItem s.history t (itemOf Pages t c) := by
  unfold visit at h
  split at h
  · simp at h
  · simp only at h
    split at h
    · simp at h
    · simp only [Prod.mk.injEq, true_and] at h
      subst h
      simp only [pushItem, itemOf]
      split
      · rename_i hn
        simp only [Option.isNone_iff_eq_none] at hn
        rw [assocGet_assocSet_self, assocSet_assocSet, hn]
        rfl
      · rfl

theorem runSteps_history (wd : Key) (outDir : String) (Pages : List (String × Page)) :
    ∀ (L : List Step) (s sF : State), runSteps wd outDir Pages L s = (none, sF) →
      sF.history = L.foldl (fun h x => pushItem h x.1.1 (itemOf Pages x.1.1 x.2.1)) s.history := by
  intro L
  induction L with
  | nil =>
    intro s sF h
    simp only [runSteps, Prod.mk.injEq, true_and] at h
    subst h
    rfl
  | cons x L ih =>
    intro s sF h
    simp only [runSteps] at h
    cases hr : x.1.2 x.2.1 x.2.2.Message x.2.2.Description with
    | error cause => simp [hr] at h
    | ok content =>
      simp only [hr] at h
      rcases hv : visit wd outDir Pages x.1.1 x.2.1 content s with ⟨_ | e, s1⟩
      · simp only [hv] at h
        rw [ih s1 sF h, visit_history hv]
        rfl
      · simp [hv] at h

theorem foldl_pushItem_bucket (Pages : List (String × Page)) (t : String) (r : Renderer)
    (P : List (String × Page)) :
    ∀ (h : History) (old : List historyItem), assocGet h t = some old →
      (P.map fun p => (((t, r), p) : Step)).foldl
          (fun h x => pushItem h x.1.1 (itemOf Pages x.1.1 x.2.1)) h =
        assocSet h t (old ++ P.map fun p => itemOf Pages t p.1) := by
  induction P with
  | nil =>
    intro h old hold
    simp only [List.map_nil, List.foldl_nil, List.append_nil]
    clear r
    induction h with
    | nil => simp [assocGet] at hold
    | cons e h ih =>
      obtain ⟨k1, v1⟩ := e
      by_cases hk : k1 = t
      · simp only [assocGet, hk, if_true, Option.some.injEq] at hold
        simp [assocSet, hk, hold]
      · simp only [assocGet, hk, if_false] at hold
        simp only [assocSet, hk, if_false]
        rw [← ih hold]
  | cons p P ih =>
    intro h old hold
    simp only [List.map_cons, List.foldl_cons]
    rw [ih (pushItem h t (itemOf Pages t p.1)) (old ++ [itemOf Pages t p.1])]
    · simp only [pushItem, hold, Option.getD_some, assocSet_assocSet, List.append_assoc,
        List.singleton_append]
    · simp only [pushItem, hold, Option.getD_some, assocGet_assocSet_self]

theorem foldl_pushItem_new (Pages : List (String × Page)) (t : String) (r : Renderer)
    (P : List (String × Page)) (hP : P ≠ []) (h : History) (ht : t ∉ h.map Prod.fst) :
    (P.map fun p => (((t, r), p) : Step)).foldl
        (fun h x => pushItem h x.1.1 (itemOf Pages x.1.1 x.2.1)) h =
      h ++ [(t, P.map fun p => itemOf Pages t p.1)] := by
  cases P with
  | nil => exact absurd rfl hP
  | cons p P =>
    have hnone : assocGet h t = none := by
      induction h with
      | nil => rfl
      | cons e h ih =>
        obtain ⟨k1, v1⟩ := e
        simp only [List.map_cons, List.mem_cons, not_or] at ht
        simp only [assocGet, Ne.symm ht.1, if_false]
        exact ih ht.2
    simp only [List.map_cons, List.foldl_cons]
    rw [foldl_pushItem_bucket Pages t r P _ [itemOf Pages t p.1]]
    · simp only [pushItem, hnone, Option.getD_none, List.nil_append, assocSet_assocSet,
        List.singleton_append]
      exact assocSet_of_not_mem h t _ ht
    · simp only [pushItem, hnone, Option.getD_none, List.nil_append, assocGet_assocSet_self]

theorem foldl_pushItem_steps (Pages : List (String × Page)) (P : List (String × Page))
    (hP : P ≠ []) (T : List (String × Renderer)) :
    ∀ h : History, ((h.map Prod.fst) ++ T.map Prod.fst).Nodup →
      (steps T P).foldl (fun h x => pushItem h x.1.1 (itemOf Pages x.1.1 x.2.1)) h =
        h ++ T.map fun t => (t.1, P.map fun p => itemOf Pages t.1 p.1) := by
  induction T with
  | nil =>
    intro h _
    simp [steps]
  | cons x T ih =>
    obtain ⟨t, r⟩ := x
    intro h hnd
    have ht : t ∉ h.map Prod.fst := by
      intro hm
      have := (List.nodup_append.1 hnd).2.2 hm
      exact this (by simp)
    simp only [steps, List.flatMap_cons, List.foldl_append]
    rw [foldl_pushItem_new Pages t r P hP h ht]
    have := ih (h ++ [(t, P.map fun p => itemOf Pages t p.1)]) (by
      simp only [List.map_append, List.map_cons, List.map_nil, List.append_assoc,
        List.singleton_append]
      simpa using hnd)
    simp only [steps] at this
    rw [this]
    simp

/-! ## Sorting lists without equal keys -/

theorem char_eq_of_toNat {a b : Char} (h : a.toNat = b.toNat) : a = b := by
  have := congrArg Char.ofNat h
  simpa using this

theorem lessChars_connex (a : List Char) :
    ∀ b, lessChars a b = false → lessChars b a = false → a = b := by
  induction a with
  | nil =>
    intro b h1 h2
    cases b with
    | nil => rfl
    | cons y b => simp [lessChars] at h1
  | cons x a ih =>
    intro b h1 h2
    cases b with
    | nil => simp [lessChars] at h2
    | cons y b =>
      simp only [lessChars] at h1 h2
      by_cases hxy : x.toNat < y.toNat
      · simp [hxy] at h1
      · by_cases hyx : y.toNat < x.toNat
        · simp [hyx] at h2
        · simp only [hxy, hyx, if_false] at h1 h2
          have hc : x = y := char_eq_of_toNat (by omega)
          rw [hc, ih b h1 h2]

theorem strLess_connex {a b : String} (h1 : strLess a b = false) (h2 : strLess b a = false) :
    a = b := by
  obtain ⟨la⟩ := a
  obtain ⟨lb⟩ := b
  simp only [strLess] at h1 h2
  rw [lessChars_connex la lb h1 h2]

theorem sorted_strict {α : Type} (f : α → String) {l : List α}
    (hs : l.Sorted fun a b => strLess (f b) (f a) = false) (hn : (l.map f).Nodup) :
    l.Sorted fun a b => strLess (f a) (f b) = true := by
  have hne : l.Pairwise fun a b => f a ≠ f b := List.pairwise_map.1 hn
  refine (List.Pairwise.and hs hne).imp ?_
  intro a b hab
  cases h : strLess (f a) (f b) with
  | true => rfl
  | false => exact absurd (strLess_connex h hab.1) hab.2

theorem sortSlice_eq_of_perm {α : Type} (f : α → String) {l1 l2 : List α}
    (hp : l1.Perm l2) (hn : (l1.map f).Nodup) :
    sortSlice (fun a b => strLess (f a) (f b)) l1 =
      sortSlice (fun a b => strLess (f a) (f b)) l2 := by
  have hp1 := sortSlice_perm (fun a b => strLess (f a) (f b)) l1
  have hp2 := sortSlice_perm (fun a b => strLess (f a) (f b)) l2
  have hn1 : ((sortSlice (fun a b => strLess (f a) (f b)) l1).map f).Nodup :=
    ((hp1.map f).nodup_iff).2 hn
  have hn2 : ((sortSlice (fun a b => strLess (f a) (f b)) l2).map f).Nodup :=
    (((hp2.trans hp.symm).map f).nodup_iff).2 hn
  haveI : IsAntisymm α fun a b => strLess (f a) (f b) = true :=
    ⟨fun a b h1 h2 => by
      have := lessChars_asymm _ _ h1
      simp only [strLess] at h2
      rw [h2] at this
      exact absurd this (by simp)⟩
  exact List.eq_of_perm_of_sorted (hp1.trans (hp.trans hp2.symm))
    (sorted_strict f (sortSlice_sorted f l1) hn1) (sorted_strict f (sortSlice_sorted f l2) hn2)

/-! ## Maps that are enumerated in another order -/

theorem assocGet_eq_some_of_mem {α : Type} {m : List (String × α)} {k : String} {v : α}
    (hn : (m.map Prod.fst).Nodup) (h : (k, v) ∈ m) : assocGet m k = some v := by
  induction m with
  | nil => simp at h
  | cons e m ih =>
    obtain ⟨k1, v1⟩ := e
    simp only [List.map_cons, List.nodup_cons] at hn
    rcases List.mem_cons.1 h with h | h
    · simp only [Prod.mk.injEq] at h
      simp [assocGet, h.1, h.2]
    · have hne : k1 ≠ k := by
        intro hk
        exact hn.1 (hk ▸ List.mem_map.2 ⟨(k, v), h, rfl⟩)
      simp only [assocGet, hne, if_false]
      exact ih hn.2 h

theorem mem_of_assocGet_eq_some {α : Type} {m : List (String × α)} {k : String} {v : α}
    (h : assocGet m k = some v) : (k, v) ∈ m := by
  induction m with
  | nil => simp [assocGet] at h
  | cons e m ih =>
    obtain ⟨k1, v1⟩ := e
    by_cases hk : k1 = k
    · simp only [assocGet, hk, if_true, Option.some.injEq] at h
      simp [hk, h]
    · simp only [assocGet, hk, if_false] at h
      exact List.mem_cons_of_mem _ (ih h)

theorem assocGet_perm {α : Type} {m1 m2 : List (String × α)} (hp : m1.Perm m2)
    (hn : (m1.map Prod.fst).Nodup) (k : String) : assocGet m1 k = assocGet m2 k := by
  have hn2 : (m2.map Prod.fst).Nodup := ((hp.map Prod.fst).nodup_iff).1 hn
  cases h1 : assocGet m1 k with
  | some v =>
    exact (assocGet_eq_some_of_mem hn2 (hp.mem_iff.1 (mem_of_assocGet_eq_some h1))).symm
  | none =>
    cases h2 : assocGet m2 k with
    | none => rfl
    | some v =>
      have := assocGet_eq_some_of_mem hn (hp.mem_iff.2 (mem_of_assocGet_eq_some h2))
      rw [h1] at this
      exact absurd this (by simp)

theorem itemOf_perm {P1 P2 : List (String × Page)} (hp : P1.Perm P2)
    (hn : (P1.map Prod.fst).Nodup) (t c : String) : itemOf P1 t c = itemOf P2 t c := by
  simp only [itemOf, assocGet_perm hp hn c]

theorem foldl_parse_nodup (E : Engine) (l : List (String × Bytes)) :
    ∀ m : List (String × Renderer), ((m.map Prod.fst) ++ l.map Prod.fst).Nodup →
      l.foldl (fun m t =>
        match E.parse t.2 with
        | none => m
        | some r => assocSet m t.1 r) m =
        m ++ l.filterMap fun t => (E.parse t.2).map fun r => (t.1, r) := by
  induction l with
  | nil => intro m _; simp
  | cons x l ih =>
    intro m hn
    have hx : x.1 ∉ m.map Prod.fst := by
      intro hm
      exact (List.nodup_append.1 hn).2.2 hm (by simp)
    rw [List.foldl_cons, List.filterMap_cons]
    cases hp : E.parse x.2 with
    | none =>
      simp only [Option.map_none']
      apply ih
      have := hn
      simp only [List.map_cons] at this
      exact (List.nodup_middle.1 this).of_cons
    | some r =>
      simp only [Option.map_some']
      rw [assocSet_of_not_mem m x.1 r hx, ih]
      · simp
      · simpa using hn

theorem registry_nodup (E : Engine) {templates : List (String × Bytes)}
    (hn : (templates.map Prod.fst).Nodup) (Pages : List (String × Page)) :
    (loadErrorPages E templates Pages).templates =
      templates.filterMap fun t => (E.parse t.2).map fun r => (t.1, r) := by
  rw [loadErrorPages_templates, foldl_parse_nodup E templates [] (by simpa using hn)]
  rfl

theorem registry_names_nodup (E : Engine) :
    ∀ {templates : List (String × Bytes)}, (templates.map Prod.fst).Nodup →
      ((templates.filterMap fun t => (E.parse t.2).map fun r => (t.1, r)).map
        Prod.fst).Nodup := by
  intro templates
  induction templates with
  | nil => intro _; simp
  | cons x l ih =>
    intro hn
    simp only [List.map_cons, List.nodup_cons] at hn
    rw [List.filterMap_cons]
    cases hp : E.parse x.2 with
    | none => exact ih hn.2
    | some r =>
      simp only [Option.map_some', List.map_cons, List.nodup_cons]
      refine ⟨?_, ih hn.2⟩
      intro hm
      apply hn.1
      obtain ⟨y, hy, hy1⟩ := List.mem_map.1 hm
      obtain ⟨z, hz, hz1⟩ := List.mem_filterMap.1 hy
      cases hq : E.parse z.2 with
      | none => simp [hq] at hz1
      | some r1 =>
        simp only [hq, Option.map_some', Option.some.injEq] at hz1
        rw [← hy1, ← hz1]
        exact List.mem_map.2 ⟨z, hz, rfl⟩


/-! ## Two runs on the same inputs -/

theorem steps_nodup {T : List (String × Renderer)} {P : List (String × Page)}
    (hT : (T.map Prod.fst).Nodup) (hP : (P.map Prod.fst).Nodup) : (steps T P).Nodup := by
  have h : steps T P = List.product T P := rfl
  rw [h]
  exact List.Nodup.product hT.of_map hP.of_map

theorem steps_pageKey_nodup (wd : Key) (outDir : String) {T : List (String × Renderer)}
    {P : List (String × Page)} (hT : (T.map Prod.fst).Nodup) (hP : (P.map Prod.fst).Nodup)
    (hinj : ∀ t1 ∈ T.map Prod.fst, ∀ c1 ∈ P.map Prod.fst, ∀ t2 ∈ T.map Prod.fst,
      ∀ c2 ∈ P.map Prod.fst,
        key wd (Join [outDir, t1, c1 ++ ".html"]) = key wd (Join [outDir, t2, c2 ++ ".html"]) →
          t1 = t2 ∧ c1 = c2) :
    ((steps T P).map (pageKey wd outDir)).Nodup := by
  refine List.Nodup.map_on ?_ (steps_nodup hT hP)
  intro x hx y hy hxy
  obtain ⟨hx1, hx2⟩ := mem_steps.1 hx
  obtain ⟨hy1, hy2⟩ := mem_steps.1 hy
  obtain ⟨h1, h2⟩ := hinj x.1.1 (List.mem_map.2 ⟨x.1, hx1, rfl⟩) x.2.1
    (List.mem_map.2 ⟨x.2, hx2, rfl⟩) y.1.1 (List.mem_map.2 ⟨y.1, hy1, rfl⟩) y.2.1
    (List.mem_map.2 ⟨y.2, hy2, rfl⟩) hxy
  exact Prod.ext (List.inj_on_of_nodup_map hT hx1 hy1 h1) (List.inj_on_of_nodup_map hP hx2 hy2 h2)

theorem writeIndexFile_ok {wd : Key} {E : Engine} {fs fs1 : FS} {p : String} {h : History}
    (hok : writeIndexFile wd E fs p h = (none, fs1)) :
    ∃ ib, E.index (entriesByKey h) = Except.ok ib ∧ WriteFile wd fs p ib = Except.ok fs1 := by
  unfold writeIndexFile at hok
  split at hok
  · simp at hok
  · rename_i ib hib
    split at hok
    · simp at hok
    · rename_i fs2 hw
      simp only [Prod.mk.injEq, true_and] at hok
      subst hok
      exact ⟨ib, hib, hw⟩

theorem RunE_ok {wd : Key} {E : Engine} {cfg : Config} {generateIndex : Bool}
    {outDir : String} {fs : FS} {templates : List (String × Bytes)}
    (hload : cfg.LoadTemplates = Except.ok templates)
    (hok : (RunE wd E cfg generateIndex [outDir] fs).1 = none) :
    ∃ fs1 s, createDirectory wd fs outDir = (none, fs1) ∧
      runSteps wd outDir cfg.Pages
          (steps (loadErrorPages E templates cfg.Pages).templates
            (loadErrorPages E templates cfg.Pages).pages) ⟨fs1, []⟩ = (none, s) ∧
      ((generateIndex = false ∧ (RunE wd E cfg generateIndex [outDir] fs).2 = s.fs) ∨
        (generateIndex = true ∧ ∃ ib,
          E.index (entriesByKey (sortHistory s.history)) = Except.ok ib ∧
          WriteFile wd s.fs (Join [outDir, "index.html"]) ib =
            Except.ok (RunE wd E cfg generateIndex [outDir] fs).2)) := by
  unfold RunE at hok ⊢
  simp only [hload] at hok ⊢
  by_cases hlen : templates.length > 0
  · simp only [hlen, if_true] at hok ⊢
    rcases hc : createDirectory wd fs outDir with ⟨_ | e, fs1⟩
    · simp only [hc] at hok ⊢
      rcases hs : savePages wd E cfg templates outDir fs1 with ⟨_ | e, s⟩
      · simp only [hs] at hok ⊢
        have hrun : runSteps wd outDir cfg.Pages
            (steps (loadErrorPages E templates cfg.Pages).templates
              (loadErrorPages E templates cfg.Pages).pages) ⟨fs1, []⟩ = (none, s) := by
          rw [← iterateTemplates_eq_runSteps]
          unfold savePages IteratePages at hs
          split at hs
          · simp at hs
          · exact hs
        refine ⟨fs1, s, rfl, hrun, ?_⟩
        cases generateIndex with
        | false => exact Or.inl ⟨rfl, rfl⟩
        | true =>
          simp only [if_true] at hok ⊢
          obtain ⟨ib, h1, h2⟩ := writeIndexFile_ok (Prod.ext hok rfl :
            writeIndexFile wd E s.fs (Join [outDir, "index.html"]) (sortHistory s.history) =
              (none, (writeIndexFile wd E s.fs (Join [outDir, "index.html"])
                (sortHistory s.history)).2))
          exact Or.inr ⟨trivial, ib, h1, h2⟩
      · simp [hs] at hok
    · simp [hc] at hok
  · simp [hlen] at hok

theorem final_fs_eq_at (wd : Key) (outDir : String) (Pg1 Pg2 : List (String × Page))
    (L1 L2 : List Step) (a b s1 s2 : State)
    (h1 : runSteps wd outDir Pg1 L1 a = (none, s1))
    (h2 : runSteps wd outDir Pg2 L2 b = (none, s2))
    (hn1 : (L1.map (pageKey wd outDir)).Nodup) (hn2 : (L2.map (pageKey wd outDir)).Nodup)
    (hmem : ∀ x, x ∈ L1 ↔ x ∈ L2) (q : Key)
    (hbase : (∀ x ∈ L1, q ≠ pageKey wd outDir x) →
      (¬ ∃ x ∈ L1, q ∈ visited wd (dirPath outDir x)) → b.fs q = a.fs q) :
    s2.fs q = s1.fs q := by
  obtain ⟨-, f2, f3, f4, -⟩ := runSteps_facts wd outDir Pg1 L1 a s1 h1 (List.pairwise_map.1 hn1)
  obtain ⟨-, g2, g3, g4, -⟩ := runSteps_facts wd outDir Pg2 L2 b s2 h2 (List.pairwise_map.1 hn2)
  by_cases hq : ∃ x ∈ L1, q = pageKey wd outDir x
  · obtain ⟨x, hx, rfl⟩ := hq
    obtain ⟨c1, hc1, hf1⟩ := f3 x hx
    obtain ⟨c2, hc2, hf2⟩ := g3 x ((hmem x).1 hx)
    rw [hc1] at hc2
    simp only [Except.ok.injEq] at hc2
    rw [hf1, hf2, hc2]
  · have hq1 : ∀ x ∈ L1, q ≠ pageKey wd outDir x := fun x hx hh => hq ⟨x, hx, hh⟩
    have hq2 : ∀ x ∈ L2, q ≠ pageKey wd outDir x := fun x hx => hq1 x ((hmem x).2 hx)
    by_cases hd : ∃ x ∈ L1, q ∈ visited wd (dirPath outDir x)
    · obtain ⟨x, hx, hxq⟩ := hd
      rw [Stat_ok_visited (f2 x hx) q hxq, Stat_ok_visited (g2 x ((hmem x).1 hx)) q hxq]
    · have e1 : s1.fs q = a.fs q := by
        rcases f4 q hq1 with h | ⟨-, x, hx, hxq⟩
        · exact h
        · exact absurd ⟨x, hx, hxq⟩ hd
      have e2 : s2.fs q = b.fs q := by
        rcases g4 q hq2 with h | ⟨-, x, hx, hxq⟩
        · exact h
        · exact absurd ⟨x, (hmem x).2 hx, hxq⟩ hd
      rw [e1, e2, hbase hq1 hd]

theorem steps_nil (T : List (String × Renderer)) : steps T [] = [] := by
  induction T with
  | nil => rfl
  | cons x T ih =>
    simp only [steps, List.flatMap_cons, List.map_nil, List.nil_append] at ih ⊢
    exact ih

theorem history_of_run (wd : Key) (outDir : String) (P : List (String × Page))
    (T : List (String × Renderer)) (hT : (T.map Prod.fst).Nodup) (hP : P ≠ []) (a s : State)
    (ha : a.history = []) (h : runSteps wd outDir P (steps T P) a = (none, s)) :
    s.history = T.map fun t => (t.1, P.map fun p => itemOf P t.1 p.1) := by
  rw [runSteps_history wd outDir P (steps T P) a s h, ha,
    foldl_pushItem_steps P P hP T [] (by simpa using hT)]
  rfl

theorem index_input_eq (wd : Key) (outDir : String) {P1 P2 : List (String × Page)}
    {T1 T2 : List (String × Renderer)} (hT : T1.Perm T2) (hP : P1.Perm P2)
    (hnames : (T1.map Prod.fst).Nodup) (hcodes : (P1.map Prod.fst).Nodup) (a b s1 s2 : State)
    (ha : a.history = []) (hb : b.history = [])
    (h1 : runSteps wd outDir P1 (steps T1 P1) a = (none, s1))
    (h2 : runSteps wd outDir P2 (steps T2 P2) b = (none, s2)) :
    entriesByKey (sortHistory s1.history) = entriesByKey (sortHistory s2.history) := by
  by_cases hP1 : P1 = []
  · subst hP1
    have hP2 : P2 = [] := List.Perm.eq_nil hP.symm
    subst hP2
    rw [runSteps_history wd outDir [] _ a s1 h1, runSteps_history wd outDir [] _ b s2 h2,
      steps_nil, steps_nil, ha, hb]
  · have hP2 : P2 ≠ [] := fun h0 => hP1 (List.Perm.eq_nil (h0 ▸ hP))
    have hnames2 : (T2.map Prod.fst).Nodup := ((hT.map Prod.fst).nodup_iff).1 hnames
    rw [history_of_run wd outDir P1 T1 hnames hP1 a s1 ha h1,
      history_of_run wd outDir P2 T2 hnames2 hP2 b s2 hb h2]
    have hbucket : ∀ t : String,
        sortSlice (fun x y => strLess x.Code y.Code) (P1.map fun p => itemOf P1 t p.1) =
          sortSlice (fun x y => strLess x.Code y.Code) (P2.map fun p => itemOf P2 t p.1) := by
      intro t
      have hfun : (fun p : String × Page => itemOf P2 t p.1) = fun p => itemOf P1 t p.1 := by
        funext p
        exact (itemOf_perm hP hcodes t p.1).symm
      rw [hfun]
      refine sortSlice_eq_of_perm historyItem.Code (hP.map _) ?_
      simpa [List.map_map, Function.comp_def, itemOf] using hcodes
    have hsort1 : sortHistory (T1.map fun t => (t.1, P1.map fun p => itemOf P1 t.1 p.1)) =
        T1.map fun t => (t.1,
          sortSlice (fun x y => strLess x.Code y.Code) (P1.map fun p => itemOf P1 t.1 p.1)) := by
      simp [sortHistory, List.map_map, Function.comp_def]
    have hsort2 : sortHistory (T2.map fun t => (t.1, P2.map fun p => itemOf P2 t.1 p.1)) =
        T2.map fun t => (t.1,
          sortSlice (fun x y => strLess x.Code y.Code) (P1.map fun p => itemOf P1 t.1 p.1)) := by
      simp [sortHistory, List.map_map, Function.comp_def, hbucket]
    rw [hsort1, hsort2]
    refine sortSlice_eq_of_perm Prod.fst (hT.map _) ?_
    simpa [List.map_map, Function.comp_def] using hnames

theorem mem_registry_names (E : Engine) {templates : List (String × Bytes)} {t : String}
    (h : t ∈ (templates.filterMap fun t => (E.parse t.2).map fun r => (t.1, r)).map Prod.fst) :
    t ∈ templates.map Prod.fst := by
  obtain ⟨y, hy, rfl⟩ := List.mem_map.1 h
  obtain ⟨z, hz, hz1⟩ := List.mem_filterMap.1 hy
  cases hq : E.parse z.2 with
  | none => simp [hq] at hz1
  | some r1 =>
    simp only [hq, Option.map_some', Option.some.injEq] at hz1
    rw [← hz1]
    exact List.mem_map.2 ⟨z, hz, rfl⟩

/-- What the build leaves, next to what its last visit left: the directories, and the
regular files as regular files. -/
theorem RunE_final {wd : Key} {E : Engine} {cfg : Config} {generateIndex : Bool}
    {outDir : String} {fs : FS} {s : State}
    (hfin : (generateIndex = false ∧ (RunE wd E cfg generateIndex [outDir] fs).2 = s.fs) ∨
      (generateIndex = true ∧ ∃ ib,
        E.index (entriesByKey (sortHistory s.history)) = Except.ok ib ∧
        WriteFile wd s.fs (Join [outDir, "index.html"]) ib =
          Except.ok (RunE wd E cfg generateIndex [outDir] fs).2)) :
    (∀ q, s.fs q = some Node.dir →
        (RunE wd E cfg generateIndex [outDir] fs).2 q = some Node.dir) ∧
      (∀ q b, s.fs q = some (Node.file b) →
        (RunE wd E cfg generateIndex [outDir] fs).2 q ≠ some Node.dir) ∧
      ∀ q, generateIndex = false ∨ q ≠ key wd (Join [outDir, "index.html"]) →
        (RunE wd E cfg generateIndex [outDir] fs).2 q = s.fs q := by
  rcases hfin with ⟨hg, h⟩ | ⟨hg, ib, -, hw⟩
  · rw [h]
    exact ⟨fun q hq => hq, fun q b hq => by simp [hq], fun q _ => rfl⟩
  · obtain ⟨hset, hnd, -, -, -⟩ := WriteFile_ok hw
    rw [hset]
    refine ⟨set_keeps_dirs _ hnd, ?_, ?_⟩
    · intro q b hq
      simp only [FS.set]
      split
      · simp
      · simp [hq]
    · intro q hq
      rcases hq with hq | hq
      · rw [hq] at hg
        exact absurd hg (by simp)
      · simp [FS.set, hq]

theorem second_run_eq (wd : Key) (E : Engine) (cfg1 cfg2 : Config) (generateIndex : Bool)
    (outDir : String) (fs : FS) (templates1 templates2 : List (String × Bytes))
    (hload1 : cfg1.LoadTemplates = Except.ok templates1)
    (hload2 : cfg2.LoadTemplates = Except.ok templates2)
    (htemplates : templates1.Perm templates2) (hpages : cfg1.Pages.Perm cfg2.Pages)
    (hnames : (templates1.map Prod.fst).Nodup) (hcodes : (cfg1.Pages.map Prod.fst).Nodup)
    (hpaths : ∀ t1 ∈ templates1.map Prod.fst, ∀ c1 ∈ cfg1.Pages.map Prod.fst,
      ∀ t2 ∈ templates1.map Prod.fst, ∀ c2 ∈ cfg1.Pages.map Prod.fst,
        key wd (Join [outDir, t1, c1 ++ ".html"]) = key wd (Join [outDir, t2, c2 ++ ".html"]) →
          t1 = t2 ∧ c1 = c2)
    (hok : (RunE wd E cfg1 generateIndex [outDir] fs).1 = none) (fs2 : FS)
    (hstart : fs2 = fs ∨ fs2 = (RunE wd E cfg1 generateIndex [outDir] fs).2)
    (hok2 : (RunE wd E cfg2 generateIndex [outDir] fs2).1 = none) :
    (RunE wd E cfg2 generateIndex [outDir] fs2).2 =
      (RunE wd E cfg1 generateIndex [outDir] fs).2 := by
  obtain ⟨fsa, s1, hca, hrun1, hfin1⟩ := RunE_ok hload1 hok
  obtain ⟨fsb, s2, hcb, hrun2, hfin2⟩ := RunE_ok hload2 hok2
  have hnames2 : (templates2.map Prod.fst).Nodup :=
    ((htemplates.map Prod.fst).nodup_iff).1 hnames
  have hcodes2 : (cfg2.Pages.map Prod.fst).Nodup := ((hpages.map Prod.fst).nodup_iff).1 hcodes
  rw [registry_nodup E hnames, loadErrorPages_pages_nodup E _ _ hcodes] at hrun1
  rw [registry_nodup E hnames2, loadErrorPages_pages_nodup E _ _ hcodes2] at hrun2
  have hT : (templates1.filterMap fun t => (E.parse t.2).map fun r => (t.1, r)).Perm
      (templates2.filterMap fun t => (E.parse t.2).map fun r => (t.1, r)) :=
    htemplates.filterMap _
  have hTn1 := registry_names_nodup E hnames
  have hTn2 := registry_names_nodup E hnames2
  have hpaths1 := steps_pageKey_nodup wd outDir hTn1 hcodes
    (fun t1 ht1 c1 hc1 t2 ht2 c2 hc2 =>
      hpaths t1 (mem_registry_names E ht1) c1 hc1 t2 (mem_registry_names E ht2) c2 hc2)
  have hpaths2 := steps_pageKey_nodup wd outDir hTn2 hcodes2
    (fun t1 ht1 c1 hc1 t2 ht2 c2 hc2 =>
      hpaths t1 ((htemplates.map Prod.fst).mem_iff.2 (mem_registry_names E ht1)) c1
        ((hpages.map Prod.fst).mem_iff.2 hc1) t2
        ((htemplates.map Prod.fst).mem_iff.2 (mem_registry_names E ht2)) c2
        ((hpages.map Prod.fst).mem_iff.2 hc2))
  have hmem : ∀ x, x ∈ steps (templates1.filterMap fun t => (E.parse t.2).map fun r => (t.1, r))
      cfg1.Pages ↔ x ∈ steps (templates2.filterMap fun t => (E.parse t.2).map fun r => (t.1, r))
        cfg2.Pages := by
    intro x
    rw [mem_steps, mem_steps, hT.mem_iff, hpages.mem_iff]
  have hindex := index_input_eq wd outDir hT hpages hTn1 hcodes ⟨fsa, []⟩ ⟨fsb, []⟩ s1 s2
    rfl rfl hrun1 hrun2
  obtain ⟨f1, -, -, f4, -⟩ := runSteps_facts wd outDir cfg1.Pages _ ⟨fsa, []⟩ s1 hrun1
    (List.pairwise_map.1 hpaths1)
  obtain ⟨hdirs, -, hA⟩ := RunE_final hfin1
  have hpages_eq : ∀ q, (generateIndex = false ∨ q ≠ key wd (Join [outDir, "index.html"])) →
      s2.fs q = s1.fs q := by
    intro q hq
    refine final_fs_eq_at wd outDir cfg1.Pages cfg2.Pages _ _ ⟨fsa, []⟩ ⟨fsb, []⟩ s1 s2
      hrun1 hrun2 hpaths1 hpaths2 hmem q ?_
    intro hq1 hq2
    show fsb q = fsa q
    rcases hstart with rfl | hfs2
    · rw [hca] at hcb
      simp only [Prod.mk.injEq, true_and] at hcb
      rw [hcb]
    · have hs1 : s1.fs q = fsa q := by
        rcases f4 q hq1 with h | ⟨-, x, hx, hxq⟩
        · exact h
        · exact absurd ⟨x, hx, hxq⟩ hq2
      have hstat : Stat wd fs2 outDir = Except.ok Node.dir := by
        have h0 := @createDirectory_ok_stat wd fs outDir (by rw [hca])
        rw [hca] at h0
        rw [hfs2]
        exact Stat_dir_mono (fun q hq => hdirs q (f1 q hq)) h0
      rw [createDirectory_of_stat hstat] at hcb
      simp only [Prod.mk.injEq, true_and] at hcb
      rw [← hcb, hfs2, hA q hq, hs1]
  rcases hfin1 with ⟨hg, h1⟩ | ⟨hg, ib1, hi1, hw1⟩
  · rcases hfin2 with ⟨-, h2⟩ | ⟨hg2, -⟩
    · rw [h1, h2]
      funext q
      exact hpages_eq q (Or.inl hg)
    · rw [hg] at hg2
      exact absurd hg2 (by simp)
  · rcases hfin2 with ⟨hg2, -⟩ | ⟨-, ib2, hi2, hw2⟩
    · rw [hg] at hg2
      exact absurd hg2 (by simp)
    · rw [← hindex, hi1] at hi2
      simp only [Except.ok.injEq] at hi2
      subst hi2
      rw [(WriteFile_ok hw1).1, (WriteFile_ok hw2).1]
      funext q
      by_cases hq : q = key wd (Join [outDir, "index.html"])
      · simp [FS.set, hq]
      · simp only [FS.set, hq, if_false]
        exact hpages_eq q (Or.inr hq)

/-! ## Running the build again on its own output -/

theorem visit_again {wd : Key} {outDir : String} (Pages : List (String × Page)) {t c : String}
    (b : Bytes) {s : State}
    (hd : Stat wd s.fs (Join [outDir, t]) = Except.ok Node.dir)
    (hp : Join [outDir, t, c ++ ".html"] ≠ "")
    (hs : endsWithSlash (Join [outDir, t, c ++ ".html"]) = false)
    (hl : lookup s.fs (start wd (Join [outDir, t, c ++ ".html"]))
        (components (Join [outDir, t, c ++ ".html"])) =
      Except.ok (key wd (Join [outDir, t, c ++ ".html"])))
    (hf : s.fs (key wd (Join [outDir, t, c ++ ".html"])) ≠ some Node.dir) :
    (visit wd outDir Pages t c b s).1 = none ∧
      (visit wd outDir Pages t c b s).2.fs =
        s.fs.set (key wd (Join [outDir, t, c ++ ".html"])) (Node.file b) := by
  unfold visit
  rw [createDirectory_of_stat hd]
  simp only
  rw [WriteFile_of b hp hl hs hf]
  exact ⟨rfl, rfl⟩

theorem runSteps_again (wd : Key) (outDir : String) (Pages : List (String × Page))
    (All : List Step) :
    ∀ (L : List Step) (s : State), (∀ x ∈ L, x ∈ All) →
      (∀ x ∈ All, Stat wd s.fs (dirPath outDir x) = Except.ok Node.dir ∧
        pagePath outDir x ≠ "" ∧ endsWithSlash (pagePath outDir x) = false ∧
        lookup s.fs (start wd (pagePath outDir x)) (components (pagePath outDir x)) =
          Except.ok (pageKey wd outDir x) ∧
        s.fs (pageKey wd outDir x) ≠ some Node.dir ∧
        ∃ content, x.1.2 x.2.1 x.2.2.Message x.2.2.Description = Except.ok content) →
      (runSteps wd outDir Pages L s).1 = none := by
  intro L
  induction L with
  | nil => intro s _ _; rfl
  | cons x L ih =>
    intro s hsub hinv
    obtain ⟨hd, hp, hs, hl, hf, content, hr⟩ := hinv x (hsub x (List.mem_cons_self _ _))
    obtain ⟨hv1, hv2⟩ := visit_again Pages content hd hp hs hl hf
    have hv : visit wd outDir Pages x.1.1 x.2.1 content s =
        (none, (visit wd outDir Pages x.1.1 x.2.1 content s).2) := Prod.ext hv1 rfl
    simp only [runSteps, hr]
    rw [hv]
    simp only
    apply ih _ (fun y hy => hsub y (List.mem_cons_of_mem _ hy))
    intro y hy
    obtain ⟨yd, yp, ys, yl, yf, yc⟩ := hinv y hy
    have hkeep : ∀ q, s.fs q = some Node.dir →
        (visit wd outDir Pages x.1.1 x.2.1 content s).2.fs q = some Node.dir := by
      rw [hv2]
      exact set_keeps_dirs _ hf
    refine ⟨Stat_dir_mono hkeep yd, yp, ys, lookup_mono hkeep yl, ?_, yc⟩
    rw [hv2]
    simp only [FS.set]
    split
    · simp
    · exact yf

theorem RunE_ok_templates {wd : Key} {E : Engine} {cfg : Config} {generateIndex : Bool}
    {outDir : String} {fs : FS} {templates : List (String × Bytes)}
    (hload : cfg.LoadTemplates = Except.ok templates)
    (hok : (RunE wd E cfg generateIndex [outDir] fs).1 = none) :
    templates.length > 0 ∧ (loadErrorPages E templates cfg.Pages).templates.length ≠ 0 := by
  unfold RunE at hok
  simp only [hload] at hok
  by_cases hlen : templates.length > 0
  · refine ⟨hlen, ?_⟩
    simp only [hlen, if_true] at hok
    rcases hc : createDirectory wd fs outDir with ⟨_ | e, fs1⟩
    · simp only [hc] at hok
      rcases hs : savePages wd E cfg templates outDir fs1 with ⟨_ | e, s⟩
      · unfold savePages IteratePages at hs
        split at hs
        · simp at hs
        · assumption
      · simp [hs] at hok
    · simp [hc] at hok
  · simp [hlen] at hok

theorem rerun_ok (wd : Key) (E : Engine) (cfg1 cfg2 : Config) (generateIndex : Bool)
    (outDir : String) (fs : FS) (templates1 templates2 : List (String × Bytes))
    (hload1 : cfg1.LoadTemplates = Except.ok templates1)
    (hload2 : cfg2.LoadTemplates = Except.ok templates2)
    (htemplates : templates1.Perm templates2) (hpages : cfg1.Pages.Perm cfg2.Pages)
    (hnames : (templates1.map Prod.fst).Nodup) (hcodes : (cfg1.Pages.map Prod.fst).Nodup)
    (hpaths : ∀ t1 ∈ templates1.map Prod.fst, ∀ c1 ∈ cfg1.Pages.map Prod.fst,
      ∀ t2 ∈ templates1.map Prod.fst, ∀ c2 ∈ cfg1.Pages.map Prod.fst,
        key wd (Join [outDir, t1, c1 ++ ".html"]) = key wd (Join [outDir, t2, c2 ++ ".html"]) →
          t1 = t2 ∧ c1 = c2)
    (hok : (RunE wd E cfg1 generateIndex [outDir] fs).1 = none) :
    (RunE wd E cfg2 generateIndex [outDir]
      (RunE wd E cfg1 generateIndex [outDir] fs).2).1 = none := by
  obtain ⟨fsa, s1, hca, hrun1, hfin1⟩ := RunE_ok hload1 hok
  obtain ⟨hlen1, hreg1⟩ := RunE_ok_templates hload1 hok
  have hnames2 : (templates2.map Prod.fst).Nodup :=
    ((htemplates.map Prod.fst).nodup_iff).1 hnames
  have hcodes2 : (cfg2.Pages.map Prod.fst).Nodup := ((hpages.map Prod.fst).nodup_iff).1 hcodes
  rw [registry_nodup E hnames, loadErrorPages_pages_nodup E _ _ hcodes] at hrun1
  rw [registry_nodup E hnames] at hreg1
  have hT : (templates1.filterMap fun t => (E.parse t.2).map fun r => (t.1, r)).Perm
      (templates2.filterMap fun t => (E.parse t.2).map fun r => (t.1, r)) :=
    htemplates.filterMap _
  have hTn1 := registry_names_nodup E hnames
  have hTn2 := registry_names_nodup E hnames2
  have hpaths1 := steps_pageKey_nodup wd outDir hTn1 hcodes
    (fun t1 ht1 c1 hc1 t2 ht2 c2 hc2 =>
      hpaths t1 (mem_registry_names E ht1) c1 hc1 t2 (mem_registry_names E ht2) c2 hc2)
  have hpaths2 := steps_pageKey_nodup wd outDir hTn2 hcodes2
    (fun t1 ht1 c1 hc1 t2 ht2 c2 hc2 =>
      hpaths t1 ((htemplates.map Prod.fst).mem_iff.2 (mem_registry_names E ht1)) c1
        ((hpages.map Prod.fst).mem_iff.2 hc1) t2
        ((htemplates.map Prod.fst).mem_iff.2 (mem_registry_names E ht2)) c2
        ((hpages.map Prod.fst).mem_iff.2 hc2))
  have hmem : ∀ x, x ∈ steps (templates1.filterMap fun t => (E.parse t.2).map fun r => (t.1, r))
      cfg1.Pages ↔ x ∈ steps (templates2.filterMap fun t => (E.parse t.2).map fun r => (t.1, r))
        cfg2.Pages := by
    intro x
    rw [mem_steps, mem_steps, hT.mem_iff, hpages.mem_iff]
  obtain ⟨f1, f2, f3, -, f5⟩ := runSteps_facts wd outDir cfg1.Pages _ ⟨fsa, []⟩ s1 hrun1
    (List.pairwise_map.1 hpaths1)
  -- the file system that the first run leaves
  obtain ⟨hdirs, hfiles, -⟩ := RunE_final hfin1
  have hc2 : createDirectory wd (RunE wd E cfg1 generateIndex [outDir] fs).2 outDir =
      (none, (RunE wd E cfg1 generateIndex [outDir] fs).2) := by
    apply createDirectory_of_stat
    have h0 := @createDirectory_ok_stat wd fs outDir (by rw [hca])
    rw [hca] at h0
    exact Stat_dir_mono (fun q hq => hdirs q (f1 q hq)) h0
  have hrun2 : (runSteps wd outDir cfg2.Pages
      (steps (templates2.filterMap fun t => (E.parse t.2).map fun r => (t.1, r)) cfg2.Pages)
      ⟨(RunE wd E cfg1 generateIndex [outDir] fs).2, []⟩).1 = none := by
    apply runSteps_again wd outDir cfg2.Pages _ _ _ (fun x hx => hx)
    intro x hx
    have hx1 := (hmem x).2 hx
    obtain ⟨content, hc, hf⟩ := f3 x hx1
    obtain ⟨hp, hs, hl⟩ := f5 x hx1
    exact ⟨Stat_dir_mono hdirs (f2 x hx1), hp, hs, lookup_mono hdirs hl,
      hfiles _ content hf, content, hc⟩
  have hlen2 : templates2.length > 0 := by
    rw [← htemplates.length_eq]
    exact hlen1
  have hreg2 : (templates2.filterMap fun t => (E.parse t.2).map fun r => (t.1, r)).length ≠ 0 := by
    rw [← hT.length_eq]
    exact hreg1
  have hsave : savePages wd E cfg2 templates2 outDir
      (RunE wd E cfg1 generateIndex [outDir] fs).2 =
      (none, (runSteps wd outDir cfg2.Pages
        (steps (templates2.filterMap fun t => (E.parse t.2).map fun r => (t.1, r)) cfg2.Pages)
        ⟨(RunE wd E cfg1 generateIndex [outDir] fs).2, []⟩).2) := by
    unfold savePages IteratePages
    rw [registry_nodup E hnames2, loadErrorPages_pages_nodup E _ _ hcodes2, if_neg hreg2,
      iterateTemplates_eq_runSteps]
    exact Prod.ext hrun2 rfl
  have hrun2eq : runSteps wd outDir cfg2.Pages
      (steps (templates2.filterMap fun t => (E.parse t.2).map fun r => (t.1, r)) cfg2.Pages)
      ⟨(RunE wd E cfg1 generateIndex [outDir] fs).2, []⟩ =
      (none, (runSteps wd outDir cfg2.Pages
        (steps (templates2.filterMap fun t => (E.parse t.2).map fun r => (t.1, r)) cfg2.Pages)
        ⟨(RunE wd E cfg1 generateIndex [outDir] fs).2, []⟩).2) := Prod.ext hrun2 rfl
  generalize (RunE wd E cfg1 generateIndex [outDir] fs).2 = F at *
  unfold RunE
  simp only [hload2, hlen2, if_true, hc2, hsave]
  rcases hfin1 with ⟨hg, -⟩ | ⟨hg, ib, hi1, hw1⟩
  · simp [hg]
  · simp only [hg, if_true]
    obtain ⟨g1, -, g3, g4, -⟩ := runSteps_facts wd outDir cfg2.Pages _ _ _ hrun2eq
      (List.pairwise_map.1 hpaths2)
    have hindex := index_input_eq wd outDir hT hpages hTn1 hcodes ⟨fsa, []⟩ ⟨F, []⟩ s1 _
      rfl rfl hrun1 hrun2eq
    obtain ⟨hset, -, hp1, hl1, hs1⟩ := WriteFile_ok hw1
    have hidx : F (key wd (Join [outDir, "index.html"])) = some (Node.file ib) := by
      rw [hset]
      simp [FS.set]
    unfold writeIndexFile
    rw [← hindex, hi1]
    simp only
    rw [WriteFile_of ib hp1 (lookup_mono (fun q hq => g1 q (hdirs q hq)) hl1) hs1]
    by_cases hq : ∃ x ∈ steps
        (templates2.filterMap fun t => (E.parse t.2).map fun r => (t.1, r)) cfg2.Pages,
        key wd (Join [outDir, "index.html"]) = pageKey wd outDir x
    · obtain ⟨x, hx, hxq⟩ := hq
      obtain ⟨content, -, hf⟩ := g3 x hx
      rw [hxq, hf]
      simp
    · rcases g4 (key wd (Join [outDir, "index.html"])) (fun x hx hh => hq ⟨x, hx, hh⟩) with
        h | ⟨h, -⟩
      · rw [h]
        simp only
        rw [hidx]
        simp
      · simp only at h
        rw [hidx] at h
        exact absurd h (by simp)

/-- C8, as amended: when the build succeeds on a file system and no two of its pages
share a path, a run on the same inputs with the templates and the pages enumerated in
another order, if it succeeds as well, leaves the same file system, and so the same
directories, page files and `index.html` with the same contents; and the build run
again on the file system that the first run left, in any order of enumeration,
succeeds and leaves that file system as it is. -/
theorem build_independent_of_order (wd : Key) (E : Engine) (cfg1 cfg2 : Config)
    (generateIndex : Bool) (outDir : String) (fs : FS)
    (templates1 templates2 : List (String × Bytes))
    (hload1 : cfg1.LoadTemplates = Except.ok templates1)
    (hload2 : cfg2.LoadTemplates = Except.ok templates2)
    (htemplates : templates1.Perm templates2) (hpages : cfg1.Pages.Perm cfg2.Pages)
    (hnames : (templates1.map Prod.fst).Nodup) (hcodes : (cfg1.Pages.map Prod.fst).Nodup)
    (hpaths : ∀ t1 ∈ templates1.map Prod.fst, ∀ c1 ∈ cfg1.Pages.map Prod.fst,
      ∀ t2 ∈ templates1.map Prod.fst, ∀ c2 ∈ cfg1.Pages.map Prod.fst,
        key wd (Join [outDir, t1, c1 ++ ".html"]) = key wd (Join [outDir, t2, c2 ++ ".html"]) →
          t1 = t2 ∧ c1 = c2)
    (hok : (RunE wd E cfg1 generateIndex [outDir] fs).1 = none) :
    ((RunE wd E cfg2 generateIndex [outDir] fs).1 = none →
        (RunE wd E cfg2 generateIndex [outDir] fs).2 =
          (RunE wd E cfg1 generateIndex [outDir] fs).2) ∧
      RunE wd E cfg2 generateIndex [outDir] (RunE wd E cfg1 generateIndex [outDir] fs).2 =
        (none, (RunE wd E cfg1 generateIndex [outDir] fs).2) := by
  have hagain := rerun_ok wd E cfg1 cfg2 generateIndex outDir fs templates1 templates2 hload1
    hload2 htemplates hpages hnames hcodes hpaths hok
  refine ⟨fun h2 => ?_, Prod.ext hagain ?_⟩
  · exact second_run_eq wd E cfg1 cfg2 generateIndex outDir fs templates1 templates2 hload1
      hload2 htemplates hpages hnames hcodes hpaths hok fs (Or.inl rfl) h2
  · exact second_run_eq wd E cfg1 cfg2 generateIndex outDir fs templates1 templates2 hload1
      hload2 htemplates hpages hnames hcodes hpaths hok _ (Or.inr rfl) hagain

/-- Witness of C8 as amended: the two orders of the templates `a` and `plain` and of the pages
leave the same disk, and a second run leaves it as it is. -/
theorem build_independent_of_order_witness :
    (RunE sampleWd sampleEngine twoTemplatesConfigSwapped true ["out"] emptyDisk).2 =
        (RunE sampleWd sampleEngine twoTemplatesConfig true ["out"] emptyDisk).2 ∧
      RunE sampleWd sampleEngine twoTemplatesConfigSwapped true ["out"]
          (RunE sampleWd sampleEngine twoTemplatesConfig true ["out"] emptyDisk).2 =
        (none, (RunE sampleWd sampleEngine twoTemplatesConfig true ["out"] emptyDisk).2) :=
  ⟨(build_independent_of_order sampleWd sampleEngine twoTemplatesConfig
      twoTemplatesConfigSwapped true "out" emptyDisk [("a", [1]), ("plain", [2])]
      [("plain", [2]), ("a", [1])] rfl rfl (List.Perm.swap _ _ _)
      (List.reverse_perm samplePages).symm (by decide) (by decide) (by decide)
      (by decide)).1 (by decide),
    (build_independent_of_order sampleWd sampleEngine twoTemplatesConfig
      twoTemplatesConfigSwapped true "out" emptyDisk [("a", [1]), ("plain", [2])]
      [("plain", [2]), ("a", [1])] rfl rfl (List.Perm.swap _ _ _)
      (List.reverse_perm samplePages).symm (by decide) (by decide) (by decide)
      (by decide)).2⟩

/-- C8 fails as stated. With `out/plain` a regular file, the build fails in both orders
of the templates `a` and `plain`, but only the run that visits `a` first has written
the pages of `a`. And with two template names for one directory both runs succeed, and
the page holds the text of the template that was visited last. -/
theorem order_dependent_output :
    (RunE sampleWd sampleEngine twoTemplatesConfig true ["out"] plainFileDisk).2
          ["work", "out", "a", "404.html"] =
        some (Node.file ([1] ++ bytesOf "404 Not Found")) ∧
      (RunE sampleWd sampleEngine twoTemplatesConfigSwapped true ["out"] plainFileDisk).2
          ["work", "out", "a", "404.html"] = none ∧
      (RunE sampleWd sampleEngine collidingConfig true ["out"] emptyDisk).1 = none ∧
      (RunE sampleWd sampleEngine collidingConfigSwapped true ["out"] emptyDisk).1 = none ∧
      (RunE sampleWd sampleEngine collidingConfig true ["out"] emptyDisk).2
          ["work", "out", "x", "404.html"] =
        some (Node.file ([2] ++ bytesOf "404 Not Found")) ∧
      (RunE sampleWd sampleEngine collidingConfigSwapped true ["out"] emptyDisk).2
          ["work", "out", "x", "404.html"] =
        some (Node.file ([1] ++ bytesOf "404 Not Found")) :=
  ⟨by decide, by decide, by decide, by decide, by decide, by decide⟩

/-! ## The model of package `path` on the examples of its tests -/

theorem Clean_examples :
    ([("", "."), ("abc", "abc"), ("abc/def", "abc/def"), ("a/b/c", "a/b/c"), (".", "."),
      ("..", ".."), ("../..", "../.."), ("../../abc", "../../abc"), ("/abc", "/abc"),
      ("/", "/"), ("abc/", "abc"), ("abc/def/", "abc/def"), ("a/b/c/", "a/b/c"), ("./", "."),
      ("../", ".."), ("../../", "../.."), ("/abc/", "/abc"), ("abc//def//ghi", "abc/def/ghi"),
      ("//abc", "/abc"), ("///abc", "/abc"), ("//abc//", "/abc"), ("abc//", "abc"),
      ("abc/./def", "abc/def"), ("/./abc/def", "/abc/def"), ("abc/.", "abc"),
      ("abc/def/ghi/../jkl", "abc/def/jkl"), ("abc/def/../ghi/../jkl", "abc/jkl"),
      ("abc/def/..", "abc"), ("abc/def/../..", "."), ("/abc/def/../..", "/"),
      ("abc/def/../../..", ".."), ("/abc/def/../../..", "/"),
      ("abc/def/../../../ghi/jkl/../../../mno", "../../mno"), ("abc/./../def", "def"),
      ("abc//./../def", "def"), ("abc/../../././../def", "../../def")] :
        List (String × String)).all (fun e => Clean e.1 = e.2) = true := by
  decide

theorem Join_examples :
    ([([], ""), ([""], ""), (["a"], "a"), (["a", "b"], "a/b"), (["a", ""], "a"),
      (["", "b"], "b"), (["/", "a"], "/a"), (["/", ""], "/"), (["a/", "b"], "a/b"),
      (["a/", ""], "a"), (["", ""], "")] :
        List (List String × String)).all (fun e => Join e.1 = e.2) = true := by
  decide

/-! ## The order of strings -/

theorem lessChars_iff_lt (a : List Char) : ∀ b, lessChars a b = true ↔ a < b := by
  induction a with
  | nil =>
    intro b
    cases b with
    | nil => simp [lessChars]
    | cons y b =>
      simp only [lessChars, true_iff]
      exact List.Lex.nil
  | cons x a ih =>
    intro b
    cases b with
    | nil => simp [lessChars]
    | cons y b =>
      simp only [lessChars]
      constructor
      · intro h
        by_cases h1 : x.toNat < y.toNat
        · exact List.Lex.rel h1
        · by_cases h2 : y.toNat < x.toNat
          · simp [h1, h2] at h
          · simp only [h1, h2, if_false] at h
            have hxy : x = y := char_eq_of_toNat (by omega)
            subst hxy
            exact List.Lex.cons ((ih b).1 h)
      · intro h
        cases h with
        | rel hxy =>
          have : x.toNat < y.toNat := hxy
          simp [this]
        | cons h3 =>
          simp only [lt_self_iff_false, if_false]
          exact (ih b).2 h3

/-- The comparison of the model is the order of the strings of Lean, which is the
lexicographic order of their characters. -/
theorem strLess_iff_lt (a b : String) : strLess a b = true ↔ a < b := by
  rw [String.lt_iff_toList_lt]
  exact lessChars_iff_lt a.data b.data

/-! ## The model of package `os` on examples -/

/-- The system calls resolve every component of the path as it is given: the empty
path names nothing, a path that ends with a slash or passes through `..` needs
directories on its way, and `os.MkdirAll` makes every directory that the path passes
through, also one that it leaves again by `..`. -/
theorem createDirectory_examples :
    (createDirectory sampleWd emptyDisk "").1 = some (Error.os Errno.ENOENT) ∧
      (createDirectory sampleWd emptyDisk "out/x/../y").1 = none ∧
      (createDirectory sampleWd emptyDisk "out/x/../y").2 ["work", "out", "x"] =
        some Node.dir ∧
      (createDirectory sampleWd emptyDisk "out/x/../y").2 ["work", "out", "y"] =
        some Node.dir ∧
      (createDirectory sampleWd emptyDisk "out/index.html/..").2
        ["work", "out", "index.html"] = some Node.dir ∧
      (createDirectory sampleWd emptyDisk "../srv//out/").2 ["srv", "out"] = some Node.dir ∧
      (createDirectory sampleWd emptyDisk "/srv/out/.").2 ["srv", "out"] = some Node.dir ∧
      (createDirectory sampleWd plainFileDisk "out/plain").1 =
        some (Error.new "is not a directory") ∧
      (createDirectory sampleWd plainFileDisk "out/plain/").1 =
        some (Error.os Errno.ENOTDIR) ∧
      (createDirectory sampleWd plainFileDisk "out/plain/..").1 =
        some (Error.os Errno.ENOTDIR) ∧
      (createDirectory sampleWd plainFileDisk "out/plain/sub").1 =
        some (Error.os Errno.ENOTDIR) ∧
      (createDirectory sampleWd plainFileDisk "x/../out/plain").1 =
        some (Error.os Errno.EEXIST) ∧
      (createDirectory sampleWd plainFileDisk "x/../out/plain").2 ["work", "x"] =
        some Node.dir ∧
      (RunE sampleWd sampleEngine sampleConfig true [""] emptyDisk).1 =
        some (Error.wrap (Error.os Errno.ENOENT) "cannot prepare output directory") := by
  decide

theorem parentPath_examples :
    ([("a/b", some "a"), ("a/b/", some "a"), ("a//b", some "a/"), ("/a", none),
      ("//a", some "/"), ("a", none), ("", none), ("/", none), ("out/x/../y", some "out/x/.."),
      ("out/index.html/..", some "out/index.html")] :
        List (String × Option String)).all (fun e => parentPath e.1 = e.2) = true := by
  decide


end Build
